import Mathlib

/-!
A verification development for `c-fuzzy-extractor`.

Shallow embedding of `src/src/CFuzzyExtractor.c` (helper data life cycle, the
derivation of the extractor parameters, `feGenerate`, `feReproduce`) and
theorems about it.

Modelling conventions.

* An `unsigned char` is a natural number below 256; every store into an
  `unsigned char` object is written `% 256`.  A C array is a list.
* A pointer argument that may be null is an `Option`; `none` is the null pointer.
* A function that reads or writes arrays returns an `Option`: the result `none`
  means that the C program left the bounds of an array (or dereferenced a null
  row pointer), so that the C standard gives it no behaviour.
* `size_t` is 64 bits wide: `size_t` arithmetic is taken modulo `2 ^ 64`.
* `int` is 32 bits wide and wraps around (two's complement).
* `double` arithmetic is idealised as real arithmetic.
* `malloc` is taken to succeed and to return a block of the requested number
  of elements.
* The two external collaborators are parameters: the random byte generator
  `randombytes_buf` reads a tape (a stream of numbers, position passed
  explicitly); the key derivation function `crypto_pwhash` is a function of
  salt, password and output length that either fails or yields the bytes
  written to the output buffer.
-/

namespace CFuzzyExtractor

/-- A C array of `unsigned char`. -/
abbrev Bytes := List Nat

/-- The stream of numbers behind `randombytes_buf`. -/
abbrev Tape := Nat → Nat

/-- The key derivation function `crypto_pwhash (out, outlen, passwd, passwdlen, salt, ...)`
as a function of `salt`, `passwd` and `outlen`: `none` is a nonzero return
code, `some d` is success, byte `j` of the output being `d j % 256`. -/
abbrev KDF := Bytes → Bytes → Nat → Option (Nat → Nat)

/-- Number of values of a `size_t`. -/
def SIZE_MOD : Nat := 2 ^ 64

/-- The libsodium constant of that name. -/
def crypto_pwhash_SALTBYTES : Nat := 16

/-- The struct `HelperData` of `CFuzzyExtractor.h`; a null array pointer is `none`. -/
structure HelperData where
  length : Nat
  nonceLen : Nat
  cipherLen : Nat
  numHelpers : Nat
  nonces : Option (List Bytes)
  masks : Option (List Bytes)
  ciphers : Option (List Bytes)
  deriving DecidableEq

/-- The struct `FEProperties` of `CFuzzyExtractor.h`. -/
structure FEProperties where
  length : Nat
  hamErr : Nat
  repErr : ℝ
  secLen : Nat
  nonceLen : Nat
  cipherLen : Nat
  numHelpers : Nat

/-- The loop `for (j = lo; j < lo + n; j++) out[j - lo] = body j`, where a body
that leaves the bounds of an array gives `none`. -/
def fillBytes (body : Nat → Option Nat) : Nat → Nat → Option Bytes
  | _, 0 => some []
  | j, n + 1 =>
    match body j with
    | none => none
    | some b =>
      match fillBytes body (j + 1) n with
      | none => none
      | some rest => some (b :: rest)

/-- The element `a[i][j]` of an array of row pointers. -/
def at2 (a : Option (List Bytes)) (i j : Nat) : Option Nat :=
  match a with
  | none => none
  | some rows =>
    match rows[i]? with
    | none => none
    | some row => row[j]?

/-- The row pointer `a[i]`. -/
def rowAt (a : Option (List Bytes)) (i : Nat) : Option Bytes :=
  match a with
  | none => none
  | some rows => rows[i]?

/-- The call `randombytes_buf (buf, n)`: the `n` bytes written and the new tape position. -/
def randombytes_buf (tape : Tape) (pos n : Nat) : Bytes × Nat :=
  ((List.range n).map (fun j => tape (pos + j) % 256), pos + n)

/-- The function `initHelperData`. -/
def initHelperData (h : HelperData) : HelperData :=
  { h with nonces := none, masks := none, ciphers := none }

/-- The rows built by the loop of `allocateHelperData`: `n` rows from tape
position `pos` on; each row draws its nonce, then its mask, and zeroes its cipher. -/
def allocateRows (tape : Tape) (nonceLen length cipherLen : Nat) :
    Nat → Nat → (List Bytes × List Bytes × List Bytes) × Nat
  | 0, pos => (([], [], []), pos)
  | n + 1, pos =>
    let nonce := randombytes_buf tape pos nonceLen
    let mask := randombytes_buf tape nonce.2 length
    let rest := allocateRows tape nonceLen length cipherLen n mask.2
    ((nonce.1 :: rest.1.1, mask.1 :: rest.1.2.1, List.replicate cipherLen 0 :: rest.1.2.2), rest.2)

/-- The function `allocateHelperData`: the helper data and the new tape position. -/
def allocateHelperData (tape : Tape) (pos : Nat) (_h : HelperData)
    (length cipherLen numHelpers : Nat) : HelperData × Nat :=
  let rows := allocateRows tape crypto_pwhash_SALTBYTES length cipherLen numHelpers pos
  ({ length := length
     nonceLen := crypto_pwhash_SALTBYTES
     cipherLen := cipherLen
     numHelpers := numHelpers
     nonces := some rows.1.1
     masks := some rows.1.2.1
     ciphers := some rows.1.2.2 }, rows.2)

/-- The function `freeHelperData`. -/
def freeHelperData (h : HelperData) : HelperData :=
  if h.nonces.isSome && h.masks.isSome && h.ciphers.isSome then
    { h with nonces := none, masks := none, ciphers := none }
  else h

/-- The function `round` of `math.h`: to the nearest integer, halves away from zero. -/
noncomputable def cRound (x : ℝ) : ℤ :=
  if 0 ≤ x then ⌊x + 1 / 2⌋ else ⌈x - 1 / 2⌉

/-- The value `helpers` of `initFEProperties`, over the reals: the formula of the
source with `size_t bits = length * 8` and exact real arithmetic in place of
`double` arithmetic.  The `double` value of the C code can differ from it by
floating-point rounding, and is infinite or NaN for some `repErr` (0, negative,
subnormal). -/
noncomputable def helpersReal (length hamErr : Nat) (repErr : ℝ) : ℝ :=
  let bits : Nat := (length * 8) % SIZE_MOD
  let exp : ℝ := (hamErr : ℝ) / Real.log (bits : ℝ)
  (bits : ℝ) ^ exp * Real.logb 2 (2 / repErr)

/-- The conversion `(size_t) x` of an integer-valued `double`: defined when the
value is representable. -/
def toSizeT (r : ℤ) : Option Nat :=
  if 0 ≤ r ∧ r < (SIZE_MOD : ℤ) then some r.toNat else none

/-- The function `initFEProperties`, with `helpers` taken over the reals
(`helpersReal`); `none` when the conversion of the rounded `helpers` to `size_t`
is not defined.  The fields other than `numHelpers` are computed in `size_t`
arithmetic, as in the source. -/
noncomputable def initFEProperties (length hamErr : Nat) (repErr : ℝ) : Option FEProperties :=
  match toSizeT (cRound (helpersReal length hamErr repErr)) with
  | none => none
  | some n =>
    some { length := length
           hamErr := hamErr
           repErr := repErr
           secLen := 2
           nonceLen := crypto_pwhash_SALTBYTES
           cipherLen := (length + 2) % SIZE_MOD
           numHelpers := n }

/-- The first loop of both operations: `vector[j] = value[j] & h->masks[i][j]` for `j < length`. -/
def maskValue (value : Bytes) (masks : Option (List Bytes)) (i length : Nat) : Option Bytes :=
  fillBytes (fun j =>
    match value[j]?, at2 masks i j with
    | some a, some m => some ((a &&& m) % 256)
    | _, _ => none) 0 length

/-- The bytes that a successful `crypto_pwhash` call leaves in an output buffer of `n` bytes. -/
def digestBytes (d : Nat → Nat) (n : Nat) : Bytes :=
  (List.range n).map (fun j => d j % 256)

/-- A value of type `int` after wrap-around. -/
def wrapInt (x : ℤ) : ℤ := (x + 2 ^ 31) % 2 ^ 32 - 2 ^ 31

/-- The loop `for (s = lo; s < lo + n; s++) sum += plain[s]` of `feReproduce`. -/
def sumTrailing (plain : Bytes) : Nat → Nat → ℤ → Option ℤ
  | _, 0, sum => some sum
  | s, n + 1, sum =>
    match plain[s]? with
    | none => none
    | some b => sumTrailing plain (s + 1) n (wrapInt (sum + (b : ℤ)))

/-- The helper loop of `feReproduce` from helper `i` on, `n` helpers to go:
the return code and the contents of the key buffer. -/
def reproduceLoop (kdf : KDF) (value key : Bytes) (h : HelperData) :
    Nat → Nat → Option (ℤ × Bytes)
  | _, 0 => some (0, key)
  | i, n + 1 =>
    match maskValue value h.masks i h.length with
    | none => none
    | some vector =>
      match rowAt h.nonces i with
      | none => none
      | some salt =>
        match kdf salt vector h.cipherLen with
        | none => some (-3, key)
        | some d =>
          match fillBytes (fun j =>
              match (digestBytes d h.cipherLen)[j]?, at2 h.ciphers i j with
              | some x, some c => some ((x ^^^ c) % 256)
              | _, _ => none) 0 h.cipherLen with
          | none => none
          | some plain =>
            match sumTrailing plain h.length (h.cipherLen - h.length) 0 with
            | none => none
            | some sum =>
              if sum = 0 then
                match fillBytes (fun j => if j < key.length then plain[j]? else none) 0 h.length with
                | none => none
                | some out => some (0, out ++ key.drop h.length)
              else reproduceLoop kdf value key h (i + 1) n

/-- The function `feReproduce`: the return code and the contents of the key
buffer after the call (`none` for a null `key`). -/
def feReproduce (kdf : KDF) (value key : Option Bytes) (len : Nat) (h : Option HelperData) :
    Option (ℤ × Option Bytes) :=
  match value, key, h with
  | some value, some key, some h =>
    if h.length ≠ len then some (-2, some key)
    else
      match reproduceLoop kdf value key h 0 h.numHelpers with
      | none => none
      | some r => some (r.1, some r.2)
  | _, _, _ => some (-1, key)

/-- What a call of `feGenerate` leaves behind: the return code, the contents of
the key buffer, the helper data and the tape position. -/
structure GenResult where
  ret : ℤ
  key : Option Bytes
  h : Option HelperData
  pos : Nat
  deriving DecidableEq

/-- The array `key_padded` of `feGenerate` after its two initialisation loops. -/
def padKey (key : Bytes) (length secLen : Nat) : Option Bytes :=
  let size := (length + secLen) % SIZE_MOD
  match fillBytes (fun i => if i < size then key[i]? else none) 0 length with
  | none => none
  | some head => some (head ++ List.replicate (size - length) 0)

/-- The last loop of the body of `feGenerate`, on a cipher row that holds the
digest: `ciphers[i][j] = key_padded[j] ^ ciphers[i][j]` for `j < n`. -/
def lockRow (keyPadded digest : Bytes) (n : Nat) : Option Bytes :=
  fillBytes (fun j =>
    match keyPadded[j]?, digest[j]? with
    | some k, some c => some ((k ^^^ c) % 256)
    | _, _ => none) 0 n

/-- The helper loop of `feGenerate` from helper `i` on, `n` helpers to go: the
return code and the helper data.  A failing `crypto_pwhash` call is taken to
leave its output row as it was. -/
def generateLoop (kdf : KDF) (value keyPadded : Bytes) (p : FEProperties) :
    HelperData → Nat → Nat → Option (ℤ × HelperData)
  | h, _, 0 => some (0, h)
  | h, i, n + 1 =>
    match maskValue value h.masks i p.length with
    | none => none
    | some vector =>
      match rowAt h.nonces i, rowAt h.ciphers i with
      | some salt, some row =>
        if row.length < p.cipherLen then none
        else
          match kdf salt vector p.cipherLen with
          | none => some (-3, h)
          | some d =>
            match lockRow keyPadded (digestBytes d p.cipherLen) p.cipherLen with
            | none => none
            | some locked =>
              let rows := Option.map (fun rs => rs.set i (locked ++ row.drop p.cipherLen)) h.ciphers
              generateLoop kdf value keyPadded p { h with ciphers := rows } (i + 1) n
      | _, _ => none

/-- The function `feGenerate`, started at tape position `pos`. -/
def feGenerate (kdf : KDF) (tape : Tape) (pos : Nat) (value key : Option Bytes) (len : Nat)
    (h : Option HelperData) (p : Option FEProperties) : Option GenResult :=
  match value, key, h, p with
  | some value, some key, some h, some p =>
    if p.length ≠ len then some ⟨-2, some key, some h, pos⟩
    else
      let a := allocateHelperData tape pos (freeHelperData h) p.length p.cipherLen p.numHelpers
      if key.length < len then none
      else
        let k := randombytes_buf tape a.2 len
        let key1 := k.1 ++ key.drop len
        match padKey key1 p.length p.secLen with
        | none => none
        | some keyPadded =>
          match generateLoop kdf value keyPadded p a.1 0 p.numHelpers with
          | none => none
          | some r => some ⟨r.1, some key1, some r.2, k.2⟩
  | _, _, _, _ => some ⟨-1, key, h, pos⟩

/-- Bytewise `a & b`, stored as bytes. -/
def andBytes (a b : Bytes) : Bytes := List.zipWith (fun x y => (x &&& y) % 256) a b

/-- Bytewise `a ^ b`, stored as bytes. -/
def xorBytes (a b : Bytes) : Bytes := List.zipWith (fun x y => (x ^^^ y) % 256) a b

/-- The shape of allocated helper data: three arrays of `numHelpers` rows, the
salts of `nonceLen` bytes, the masks of `length` bytes, the ciphers of
`cipherLen` bytes. -/
def WellShaped (h : HelperData) : Prop :=
  match h.nonces, h.masks, h.ciphers with
  | some ns, some ms, some cs =>
    ns.length = h.numHelpers ∧ ms.length = h.numHelpers ∧ cs.length = h.numHelpers ∧
      (∀ s ∈ ns, s.length = h.nonceLen) ∧ (∀ m ∈ ms, m.length = h.length) ∧
      (∀ c ∈ cs, c.length = h.cipherLen)
  | _, _, _ => False

instance (h : HelperData) : Decidable (WellShaped h) := by
  unfold WellShaped
  split <;> infer_instance

/-- The candidate plain text of helper `i` for a reading `value`:
`KDF (salt[i], value AND mask[i], cipherLen) XOR cipher[i]`; `none` when the
key derivation fails (or the helper has no rows). -/
def plainText (kdf : KDF) (value : Bytes) (h : HelperData) (i : Nat) : Option Bytes :=
  match rowAt h.nonces i, rowAt h.masks i, rowAt h.ciphers i with
  | some salt, some mask, some cipher =>
    match kdf salt (andBytes value mask) h.cipherLen with
    | none => none
    | some d => some (xorBytes (digestBytes d h.cipherLen) cipher)
  | _, _, _ => none

/-- All bytes of `plain` from position `length` on are zero. -/
def TrailingZero (plain : Bytes) (length : Nat) : Prop :=
  ∀ b ∈ plain.drop length, b = 0

instance (plain : Bytes) (length : Nat) : Decidable (TrailingZero plain length) := by
  unfold TrailingZero
  infer_instance

/-- A toy key derivation function for the concrete runs: it never fails, and
byte `j` of its output mixes the salt, the password and `j`. -/
def demoKdf : KDF := fun salt passwd n => some (fun j => salt.sum + 3 * passwd.sum + 7 * j + n)

/-- A key derivation function whose output bytes from position 16 on are all
zero, whatever the password. -/
def collidingKdf : KDF := fun _ passwd _ => some (fun j => if j < 16 then passwd.sum + j else 0)

/-- A tape for the concrete runs with two helpers of 16 bytes: the first mask
is all ones, the second mask clears the two low bits of byte 1. -/
def demoTape : Tape := fun k =>
  if k = 49 then 252
  else if (16 ≤ k ∧ k < 32) ∨ (48 ≤ k ∧ k < 64) then 255
  else (37 * k + 11) % 256

/-- Helper data after `initHelperData`, all sizes zero. -/
def emptyHelperData : HelperData := ⟨0, 0, 0, 0, none, none, none⟩

/-- The config of the tests (`length = 16`, `hamErr = 4`, `secLen = 2`), with two helpers. -/
def demoProps (repErr : ℝ) : FEProperties := ⟨16, 4, repErr, 2, 16, 18, 2⟩

/-- The enrolled value `"AABBCCDDAABBCCDD"` of `testReproduceBad`. -/
def fingerprintOrig : Bytes := [65, 65, 66, 66, 67, 67, 68, 68, 65, 65, 66, 66, 67, 67, 68, 68]

/-- The reading `"ABBBCCDDAABBCCDD"` of `testReproduceBad`. -/
def fingerprintGood : Bytes := [65, 66, 66, 66, 67, 67, 68, 68, 65, 65, 66, 66, 67, 67, 68, 68]

/-- The reading `"A0B00CDDAABBCCDD"` of `testReproduceBad`. -/
def fingerprintBad : Bytes := [65, 48, 66, 48, 48, 67, 68, 68, 65, 65, 66, 66, 67, 67, 68, 68]

/-- A key buffer of 16 zero bytes (`memset (key, 0, len)`). -/
def zeroKey : Bytes := List.replicate 16 0

/-- The key that `feGenerate` draws from `demoTape` for `demoProps`. -/
def demoKey : Bytes := [75, 112, 149, 186, 223, 4, 41, 78, 115, 152, 189, 226, 7, 44, 81, 118]

/-- The salts and masks that `allocateHelperData` draws from `demoTape` for
`demoProps`, with the given cipher rows. -/
def demoHelperData (ciphers : List Bytes) : HelperData :=
  { length := 16
    nonceLen := 16
    cipherLen := 18
    numHelpers := 2
    nonces := some
      [[11, 48, 85, 122, 159, 196, 233, 14, 51, 88, 125, 162, 199, 236, 17, 54],
       [171, 208, 245, 26, 63, 100, 137, 174, 211, 248, 29, 66, 103, 140, 177, 214]]
    masks := some
      [[255, 255, 255, 255, 255, 255, 255, 255, 255, 255, 255, 255, 255, 255, 255, 255],
       [255, 252, 255, 255, 255, 255, 255, 255, 255, 255, 255, 255, 255, 255, 255, 255]]
    ciphers := some ciphers }

/-- The helper data that `feGenerate` builds for `fingerprintOrig` with `demoKdf`. -/
def demoEnrolled : HelperData :=
  demoHelperData
    [[217, 233, 53, 29, 113, 177, 149, 141, 185, 73, 101, 61, 225, 193, 165, 141, 2, 9],
     [196, 230, 8, 30, 116, 182, 144, 142, 180, 86, 104, 62, 228, 198, 160, 142, 255, 6]]

/-- The helper data that `feGenerate` builds for `fingerprintOrig` with `collidingKdf`. -/
def collidingEnrolled : HelperData :=
  demoHelperData
    [[99, 89, 191, 145, 243, 41, 7, 97, 67, 169, 143, 209, 51, 25, 103, 65, 0, 0],
     [108, 88, 188, 144, 244, 40, 4, 96, 92, 168, 140, 208, 52, 24, 100, 64, 0, 0]]

/-- A config of the sizes of `testAllocateHelperData`: `length = 3`,
`cipherLen = 6`, two helpers. -/
def smallProps (repErr : ℝ) : FEProperties := ⟨3, 1, repErr, 3, 16, 6, 2⟩

/-- The helper data that `feGenerate` builds for the value `[65, 66, 67]` with
`demoKdf`, `demoTape` and `smallProps`. -/
def smallEnrolled : HelperData :=
  { length := 3
    nonceLen := 16
    cipherLen := 6
    numHelpers := 2
    nonces := some
      [[11, 48, 85, 122, 159, 196, 233, 14, 51, 88, 125, 162, 199, 236, 17, 54],
       [255, 255, 255, 255, 255, 255, 255, 255, 255, 255, 255, 255, 255, 171, 208, 245]]
    masks := some [[255, 255, 255], [26, 63, 100]]
    ciphers := some [[233, 201, 189, 117, 124, 131], [166, 152, 238, 68, 75, 82]] }

/-- The helper data `demoEnrolled` with a third helper appended, all of whose rows are zero. -/
def demoEnrolledExtended : HelperData :=
  { length := 16
    nonceLen := 16
    cipherLen := 18
    numHelpers := 3
    nonces := demoEnrolled.nonces.map (fun rows => rows ++ [List.replicate 16 0])
    masks := demoEnrolled.masks.map (fun rows => rows ++ [List.replicate 16 0])
    ciphers := demoEnrolled.ciphers.map (fun rows => rows ++ [List.replicate 18 0]) }

/-- Number of bit positions `t < 8` in which the bytes `a` and `b` differ. -/
def bitDiff (a b : Nat) : Nat := ((List.range 8).filter (fun t => (a ^^^ b).testBit t)).length

/-- Hamming distance of two byte strings of the same length: the number of
differing bit positions. -/
def hammingDistance (v w : Bytes) : Nat := (List.zipWith bitDiff v w).sum

/-- A mask of `length` bytes as a byte string. -/
def maskBytes {length : Nat} (m : Fin length → Fin 256) : Bytes :=
  List.ofFn (fun j => (m j).val)

/-- The tuples of `n` masks of `length` bytes none of which selects only bits
on which `v` and `w` agree: no `i` has `v AND m_i = w AND m_i`. -/
def lockedOut (length n : Nat) (v w : Bytes) : Finset (Fin n → Fin length → Fin 256) :=
  Finset.univ.filter
    (fun ms => ∀ i, andBytes v (maskBytes (ms i)) ≠ andBytes w (maskBytes (ms i)))

/-- The fraction of the tuples of `n` masks of `length` bytes that are in `lockedOut`. -/
def failFraction (length n : Nat) (v w : Bytes) : ℚ :=
  ((lockedOut length n v w).card : ℚ) / (Fintype.card (Fin n → Fin length → Fin 256) : ℚ)

/-- The one-byte masks `b` with `a AND b = c AND b`. -/
def fitSet (a c : Nat) : Finset (Fin 256) :=
  Finset.univ.filter (fun b : Fin 256 => (a &&& b.val) % 256 = (c &&& b.val) % 256)

/-- The toy key derivation function `demoKdf`, made to fail on every salt
whose first byte is `bad`. -/
def failingKdf (bad : Nat) : KDF := fun salt passwd n =>
  if salt.head? = some bad then none else demoKdf salt passwd n

/-- The enrolled value with bytes 1 and 2 exchanged, `"ABABCCDDAABBCCDD"`: it
has the same byte sum as `fingerprintOrig`. -/
def fingerprintSwapped : Bytes :=
  [65, 66, 65, 66, 67, 67, 68, 68, 65, 65, 66, 66, 67, 67, 68, 68]

/-- Helper data whose cipher rows are shorter than the value: `length = 3`,
`cipherLen = 2`, one helper. -/
def shortCipherData : HelperData :=
  { length := 3
    nonceLen := 16
    cipherLen := 2
    numHelpers := 1
    nonces := some [[11, 48, 85, 122, 159, 196, 233, 14, 51, 88, 125, 162, 199, 236, 17, 54]]
    masks := some [[255, 255, 255]]
    ciphers := some [[0, 0]] }

/-- The digest that `collidingKdf` returns for the password `passwd`. -/
def collidingDigest (passwd : Bytes) : Nat → Nat :=
  fun j => if j < 16 then passwd.sum + j else 0

/-! Lemmas on the loops of the embedding. -/

theorem fillBytes_eq_some_iff (body : Nat → Option Nat) (n j : Nat) (l : Bytes) :
    fillBytes body j n = some l ↔ l.length = n ∧ ∀ k, k < n → body (j + k) = l[k]? := by
  induction n generalizing j l with
  | zero =>
    simp only [fillBytes, Option.some.injEq]
    constructor
    · intro h
      subst h
      exact ⟨rfl, fun k hk => absurd hk (Nat.not_lt_zero k)⟩
    · intro h
      exact (List.length_eq_zero.mp h.1).symm
  | succ n ih =>
    simp only [fillBytes]
    constructor
    · intro h
      cases hb : body j with
      | none => rw [hb] at h; simp at h
      | some b =>
        rw [hb] at h
        cases hr : fillBytes body (j + 1) n with
        | none => rw [hr] at h; simp at h
        | some rest =>
          rw [hr] at h
          simp only [Option.some.injEq] at h
          subst h
          obtain ⟨h1, h2⟩ := (ih (j + 1) rest).mp hr
          refine ⟨by simp [h1], ?_⟩
          intro k hk
          cases k with
          | zero => simpa using hb
          | succ k =>
            have := h2 k (by omega)
            simp only [List.getElem?_cons_succ]
            rw [← this]
            congr 1
            omega
    · rintro ⟨h1, h2⟩
      cases l with
      | nil => simp at h1
      | cons b rest =>
        have hb : body j = some b := by simpa using h2 0 (by omega)
        have hr : fillBytes body (j + 1) n = some rest := by
          apply (ih (j + 1) rest).mpr
          refine ⟨by simpa using h1, ?_⟩
          intro k hk
          have := h2 (k + 1) (by omega)
          simp only [List.getElem?_cons_succ] at this
          rw [← this]
          congr 1
          omega
        rw [hb, hr]

theorem fillBytes_eq_none_of (body : Nat → Option Nat) (n k : Nat) (hk : k < n)
    (hb : body k = none) : fillBytes body 0 n = none := by
  cases hr : fillBytes body 0 n with
  | none => rfl
  | some l =>
    obtain ⟨h1, h2⟩ := (fillBytes_eq_some_iff body n 0 l).mp hr
    have := h2 k hk
    rw [Nat.zero_add, hb] at this
    have hlt : k < l.length := by omega
    rw [List.getElem?_eq_getElem hlt] at this
    simp at this

theorem rowAt_some (rows : List Bytes) (i : Nat) : rowAt (some rows) i = rows[i]? := rfl

theorem at2_of_row (a : Option (List Bytes)) (i j : Nat) (row : Bytes)
    (h : rowAt a i = some row) : at2 a i j = row[j]? := by
  cases a with
  | none => simp [rowAt] at h
  | some rows =>
    simp only [rowAt] at h
    simp only [at2, h]

theorem maskValue_eq (value : Bytes) (masks : Option (List Bytes)) (i n : Nat) (mask : Bytes)
    (hrow : rowAt masks i = some mask) (hv : n ≤ value.length) (hm : mask.length = n) :
    maskValue value masks i n = some (andBytes value mask) := by
  unfold maskValue
  rw [fillBytes_eq_some_iff]
  refine ⟨by simp [andBytes, hv, hm], ?_⟩
  intro k _
  simp only [Nat.zero_add, at2_of_row masks i k mask hrow, andBytes, List.getElem?_zipWith]
  cases value[k]? <;> cases mask[k]? <;> rfl

theorem xorFill_eq (a b : Bytes) (n : Nat) (ha : a.length = n) (hb : b.length = n) :
    fillBytes (fun j =>
      match a[j]?, b[j]? with
      | some x, some c => some ((x ^^^ c) % 256)
      | _, _ => none) 0 n = some (xorBytes a b) := by
  rw [fillBytes_eq_some_iff]
  refine ⟨by simp [xorBytes, ha, hb], ?_⟩
  intro k _
  simp only [Nat.zero_add, xorBytes, List.getElem?_zipWith]
  cases a[k]? <;> cases b[k]? <;> rfl

theorem digestBytes_length (d : Nat → Nat) (n : Nat) : (digestBytes d n).length = n := by
  simp [digestBytes]

theorem digestBytes_getElem? (d : Nat → Nat) (n j : Nat) (hj : j < n) :
    (digestBytes d n)[j]? = some (d j % 256) := by
  simp [digestBytes, List.getElem?_map, List.getElem?_range hj]

theorem keyWrite_some (key plain : Bytes) (n : Nat) (hk : n ≤ key.length) (hp : n ≤ plain.length) :
    fillBytes (fun j => if j < key.length then plain[j]? else none) 0 n = some (plain.take n) := by
  rw [fillBytes_eq_some_iff]
  refine ⟨by simp [hp], ?_⟩
  intro k hkn
  have : k < key.length := by omega
  simp [this, List.getElem?_take, hkn]

theorem keyWrite_none (key plain : Bytes) (n : Nat) (hk : key.length < n) :
    fillBytes (fun j => if j < key.length then plain[j]? else none) 0 n = none := by
  apply fillBytes_eq_none_of _ n key.length hk
  simp

theorem wrapInt_of_small (x : ℤ) (h0 : 0 ≤ x) (h1 : x < 2 ^ 31) : wrapInt x = x := by
  unfold wrapInt
  norm_num at h1 ⊢
  omega

theorem sumTrailing_spec (plain : Bytes) (n lo : Nat) (acc : ℤ)
    (hb : ∀ b ∈ plain, b < 256) (hlen : lo + n ≤ plain.length) (h0 : 0 ≤ acc)
    (hbound : acc + 255 * (n : ℤ) < 2 ^ 31) :
    ∃ r, sumTrailing plain lo n acc = some r ∧ acc ≤ r ∧
      (r = acc ↔ ∀ k, k < n → plain[lo + k]? = some 0) := by
  induction n generalizing lo acc with
  | zero =>
    refine ⟨acc, rfl, le_refl _, ?_⟩
    simp
  | succ n ih =>
    have hlo : lo < plain.length := by omega
    have hbyte : plain[lo] < 256 := hb _ (List.getElem_mem hlo)
    have hget : plain[lo]? = some plain[lo] := List.getElem?_eq_getElem hlo
    have hw : wrapInt (acc + (plain[lo] : ℤ)) = acc + (plain[lo] : ℤ) := by
      apply wrapInt_of_small
      · omega
      · push_cast at hbound
        omega
    obtain ⟨r, hr, hle, hiff⟩ := ih (lo + 1) (acc + (plain[lo] : ℤ)) (by omega) (by omega)
      (by push_cast at hbound ⊢; omega)
    refine ⟨r, ?_, by omega, ?_⟩
    · simp only [sumTrailing, hget, hw, hr]
    · constructor
      · intro hra
        have hz : plain[lo] = 0 := by omega
        have hrest := hiff.mp (by omega)
        intro k hk
        cases k with
        | zero => simp [hget, hz]
        | succ k =>
          have := hrest k (by omega)
          rw [← this]
          congr 1
          omega
      · intro hall
        have hz : plain[lo]? = some 0 := by simpa using hall 0 (by omega)
        rw [hget] at hz
        have hz0 : plain[lo] = 0 := by simpa using hz
        have : r = acc + (plain[lo] : ℤ) := by
          apply hiff.mpr
          intro k hk
          have := hall (k + 1) (by omega)
          rw [← this]
          congr 1
          omega
        rw [this, hz0]
        simp

theorem trailingZero_iff (plain : Bytes) (length : Nat) :
    TrailingZero plain length ↔
      ∀ k, k < plain.length - length → plain[length + k]? = some 0 := by
  unfold TrailingZero
  constructor
  · intro h k hk
    have hlt : length + k < plain.length := by omega
    rw [List.getElem?_eq_getElem hlt]
    congr 1
    apply h
    have : (plain.drop length)[k]? = some plain[length + k] := by
      rw [List.getElem?_drop, List.getElem?_eq_getElem hlt]
    exact List.mem_iff_getElem?.mpr ⟨k, this⟩
  · intro h b hbm
    obtain ⟨k, hk⟩ := List.mem_iff_getElem?.mp hbm
    rw [List.getElem?_drop] at hk
    have hlt : length + k < plain.length := by
      by_contra hc
      rw [List.getElem?_eq_none (by omega)] at hk
      simp at hk
    have := h k (by omega)
    rw [hk] at this
    simpa using this

theorem xorBytes_lt (a b : Bytes) : ∀ x ∈ xorBytes a b, x < 256 := by
  intro x hx
  unfold xorBytes at hx
  obtain ⟨k, hk⟩ := List.mem_iff_getElem?.mp hx
  rw [List.getElem?_zipWith] at hk
  cases ha : a[k]? <;> cases hb : b[k]? <;> simp [ha, hb] at hk
  subst hk
  exact Nat.mod_lt _ (by decide)

theorem sumTrailing_zero_iff (plain : Bytes) (length : Nat)
    (hb : ∀ b ∈ plain, b < 256) (hle : length ≤ plain.length)
    (hbound : (plain.length - length) * 255 < 2 ^ 31) :
    ∃ r, sumTrailing plain length (plain.length - length) 0 = some r ∧
      (r = 0 ↔ TrailingZero plain length) := by
  obtain ⟨r, hr, _, hiff⟩ := sumTrailing_spec plain (plain.length - length) length 0 hb
    (by omega) (le_refl _) (by
      have : ((plain.length - length : ℕ) : ℤ) * 255 < 2 ^ 31 := by exact_mod_cast hbound
      omega)
  exact ⟨r, hr, by rw [trailingZero_iff]; exact hiff⟩

theorem wellShaped_rows (h : HelperData) (hs : WellShaped h) (i : Nat) (hi : i < h.numHelpers) :
    ∃ salt mask cipher, rowAt h.nonces i = some salt ∧ rowAt h.masks i = some mask ∧
      rowAt h.ciphers i = some cipher ∧ salt.length = h.nonceLen ∧ mask.length = h.length ∧
      cipher.length = h.cipherLen := by
  unfold WellShaped at hs
  cases hn : h.nonces with
  | none => simp [hn] at hs
  | some ns =>
    cases hm : h.masks with
    | none => simp [hn, hm] at hs
    | some ms =>
      cases hc : h.ciphers with
      | none => simp [hn, hm, hc] at hs
      | some cs =>
        simp only [hn, hm, hc] at hs
        obtain ⟨h1, h2, h3, h4, h5, h6⟩ := hs
        have i1 : i < ns.length := by omega
        have i2 : i < ms.length := by omega
        have i3 : i < cs.length := by omega
        refine ⟨ns[i], ms[i], cs[i], ?_, ?_, ?_, h4 _ (List.getElem_mem i1),
          h5 _ (List.getElem_mem i2), h6 _ (List.getElem_mem i3)⟩
        · simp [rowAt, List.getElem?_eq_getElem i1]
        · simp [rowAt, List.getElem?_eq_getElem i2]
        · simp [rowAt, List.getElem?_eq_getElem i3]

theorem xorBytes_length (a b : Bytes) (n : Nat) (ha : a.length = n) (hb : b.length = n) :
    (xorBytes a b).length = n := by
  simp [xorBytes, ha, hb]

theorem sumTrailing_allZero (plain : Bytes) (n lo : Nat)
    (hz : ∀ k, k < n → plain[lo + k]? = some 0) : sumTrailing plain lo n 0 = some 0 := by
  induction n generalizing lo with
  | zero => rfl
  | succ n ih =>
    have h0 : plain[lo]? = some 0 := by simpa using hz 0 (by omega)
    have hrest : sumTrailing plain (lo + 1) n 0 = some 0 := by
      apply ih
      intro k hk
      have := hz (k + 1) (by omega)
      rw [← this]
      congr 1
      omega
    simp only [sumTrailing, h0]
    have : wrapInt (0 + ((0 : ℕ) : ℤ)) = 0 := by
      unfold wrapInt
      norm_num
    rw [this, hrest]

theorem reproduceLoop_rows (kdf : KDF) (value key : Bytes) (h : HelperData) (i n : Nat)
    (salt mask cipher : Bytes) (hn : rowAt h.nonces i = some salt)
    (hm : rowAt h.masks i = some mask) (hc : rowAt h.ciphers i = some cipher)
    (hml : mask.length = h.length) (hcl : cipher.length = h.cipherLen)
    (hle : h.length ≤ h.cipherLen) (hv : h.length ≤ value.length) :
    reproduceLoop kdf value key h i (n + 1) =
      match plainText kdf value h i with
      | none => some (-3, key)
      | some plain =>
        match sumTrailing plain h.length (h.cipherLen - h.length) 0 with
        | none => none
        | some sum =>
          if sum = 0 then
            (if h.length ≤ key.length then some (0, plain.take h.length ++ key.drop h.length)
             else none)
          else reproduceLoop kdf value key h (i + 1) n := by
  simp only [reproduceLoop, maskValue_eq value h.masks i h.length mask hm hv hml, hn, plainText,
    hm, hc]
  cases hk : kdf salt (andBytes value mask) h.cipherLen with
  | none => rfl
  | some d =>
    simp only [at2_of_row h.ciphers i _ cipher hc]
    rw [xorFill_eq (digestBytes d h.cipherLen) cipher h.cipherLen (digestBytes_length d _) hcl]
    have hpl : (xorBytes (digestBytes d h.cipherLen) cipher).length = h.cipherLen :=
      xorBytes_length _ _ _ (digestBytes_length d _) hcl
    simp only
    cases hsum : sumTrailing (xorBytes (digestBytes d h.cipherLen) cipher) h.length
        (h.cipherLen - h.length) 0 with
    | none => rfl
    | some r =>
      simp only
      by_cases hz : r = 0
      · simp only [hz, if_true]
        by_cases hkl : h.length ≤ key.length
        · rw [keyWrite_some key _ h.length hkl (by omega)]
          simp [hkl]
        · rw [keyWrite_none key _ h.length (by omega)]
          simp [hkl]
      · simp only [hz, if_false]

theorem plainText_length (kdf : KDF) (value : Bytes) (h : HelperData) (i : Nat) (plain : Bytes)
    (hs : WellShaped h) (hi : i < h.numHelpers) (hp : plainText kdf value h i = some plain) :
    plain.length = h.cipherLen ∧ ∀ b ∈ plain, b < 256 := by
  obtain ⟨salt, mask, cipher, hn, hm, hc, _, _, hcl⟩ := wellShaped_rows h hs i hi
  simp only [plainText, hn, hm, hc] at hp
  cases hk : kdf salt (andBytes value mask) h.cipherLen with
  | none => simp [hk] at hp
  | some d =>
    simp only [hk, Option.some.injEq] at hp
    subst hp
    exact ⟨xorBytes_length _ _ _ (digestBytes_length d _) hcl, xorBytes_lt _ _⟩

theorem reproduceLoop_step (kdf : KDF) (value key : Bytes) (h : HelperData) (i n : Nat)
    (hs : WellShaped h) (hle : h.length ≤ h.cipherLen)
    (hsum : (h.cipherLen - h.length) * 255 < 2 ^ 31) (hv : h.length ≤ value.length)
    (hi : i < h.numHelpers) :
    reproduceLoop kdf value key h i (n + 1) =
      match plainText kdf value h i with
      | none => some (-3, key)
      | some plain =>
        if TrailingZero plain h.length then
          (if h.length ≤ key.length then some (0, plain.take h.length ++ key.drop h.length)
           else none)
        else reproduceLoop kdf value key h (i + 1) n := by
  obtain ⟨salt, mask, cipher, hn, hm, hc, _, hml, hcl⟩ := wellShaped_rows h hs i hi
  rw [reproduceLoop_rows kdf value key h i n salt mask cipher hn hm hc hml hcl hle hv]
  cases hp : plainText kdf value h i with
  | none => rfl
  | some plain =>
    obtain ⟨hpl, hpb⟩ := plainText_length kdf value h i plain hs hi hp
    obtain ⟨r, hr, hiff⟩ := sumTrailing_zero_iff plain h.length hpb (by omega)
      (by rw [hpl]; exact hsum)
    rw [hpl] at hr
    simp only [hr]
    by_cases hz : r = 0
    · simp only [hz, if_true, hiff.mp hz]
    · have htz : ¬ TrailingZero plain h.length := fun hc => hz (hiff.mpr hc)
      simp only [hz, if_false, htz]

theorem rowAt_set (a : Option (List Bytes)) (i k : Nat) (row x : Bytes)
    (h : rowAt a i = some row) :
    rowAt (Option.map (fun rs => rs.set i x) a) k = if k = i then some x else rowAt a k := by
  cases a with
  | none => simp [rowAt] at h
  | some rows =>
    simp only [rowAt] at h
    have hi : i < rows.length := by
      by_contra hc
      rw [List.getElem?_eq_none (by omega)] at h
      simp at h
    simp only [Option.map, rowAt, List.getElem?_set]
    by_cases hk : k = i
    · subst hk
      simp [hi]
    · have : ¬ i = k := fun e => hk e.symm
      simp [hk, this]

theorem generateLoop_spec (kdf : KDF) (value keyPadded : Bytes) (p : FEProperties) (n : Nat) :
    ∀ (h : HelperData) (i : Nat) (h' : HelperData),
      generateLoop kdf value keyPadded p h i n = some (0, h') →
      h'.length = h.length ∧ h'.nonceLen = h.nonceLen ∧ h'.cipherLen = h.cipherLen ∧
      h'.numHelpers = h.numHelpers ∧ h'.nonces = h.nonces ∧ h'.masks = h.masks ∧
      (∀ cs, h.ciphers = some cs → ∃ cs', h'.ciphers = some cs' ∧ cs'.length = cs.length) ∧
      (∀ k, k < i ∨ i + n ≤ k → rowAt h'.ciphers k = rowAt h.ciphers k) ∧
      (∀ k, i ≤ k → k < i + n → ∃ vector salt row d locked,
        maskValue value h.masks k p.length = some vector ∧ rowAt h.nonces k = some salt ∧
        rowAt h.ciphers k = some row ∧ p.cipherLen ≤ row.length ∧
        kdf salt vector p.cipherLen = some d ∧
        lockRow keyPadded (digestBytes d p.cipherLen) p.cipherLen = some locked ∧
        rowAt h'.ciphers k = some (locked ++ row.drop p.cipherLen)) := by
  induction n with
  | zero =>
    intro h i h' hgen
    simp only [generateLoop, Option.some.injEq, Prod.mk.injEq, true_and] at hgen
    subst hgen
    refine ⟨rfl, rfl, rfl, rfl, rfl, rfl, fun cs hcs => ⟨cs, hcs, rfl⟩, fun _ _ => rfl, ?_⟩
    intro k h1 h2
    omega
  | succ n ih =>
    intro h i h' hgen
    simp only [generateLoop] at hgen
    cases hv : maskValue value h.masks i p.length with
    | none => simp [hv] at hgen
    | some vector =>
      cases hs : rowAt h.nonces i with
      | none => simp [hv, hs] at hgen
      | some salt =>
        cases hr : rowAt h.ciphers i with
        | none => simp [hv, hs, hr] at hgen
        | some row =>
          simp only [hv, hs, hr] at hgen
          by_cases hlen : row.length < p.cipherLen
          · simp [hlen] at hgen
          · simp only [hlen, if_false] at hgen
            cases hk : kdf salt vector p.cipherLen with
            | none => simp [hk] at hgen
            | some d =>
              simp only [hk] at hgen
              cases hl : lockRow keyPadded (digestBytes d p.cipherLen) p.cipherLen with
              | none => simp [hl] at hgen
              | some locked =>
                simp only [hl] at hgen
                obtain ⟨e1, e2, e3, e4, e5, e6, e9, e7, e8⟩ := ih _ (i + 1) h' hgen
                refine ⟨e1, e2, e3, e4, e5, e6, ?_, ?_, ?_⟩
                · intro cs hcs
                  obtain ⟨cs', h1, h2⟩ := e9 (cs.set i (locked ++ row.drop p.cipherLen))
                    (by simp [hcs])
                  exact ⟨cs', h1, by simpa using h2⟩
                · intro k hk'
                  rw [e7 k (by omega)]
                  simp only
                  rw [rowAt_set h.ciphers i k row _ hr]
                  have : k ≠ i := by omega
                  simp [this]
                · intro k hk1 hk2
                  by_cases hki : k = i
                  · subst hki
                    refine ⟨vector, salt, row, d, locked, hv, hs, hr, by omega, hk, hl, ?_⟩
                    rw [e7 k (by omega)]
                    simp only
                    rw [rowAt_set h.ciphers k k row _ hr]
                    simp
                  · obtain ⟨vector', salt', row', d', locked', f1, f2, f3, f4, f5, f6, f7⟩ :=
                      e8 k (by omega) (by omega)
                    simp only at f1 f2 f3
                    rw [rowAt_set h.ciphers i k row _ hr] at f3
                    simp only [hki, if_false] at f3
                    exact ⟨vector', salt', row', d', locked', f1, f2, f3, f4, f5, f6, f7⟩

theorem allocateRows_shape (tape : Tape) (nonceLen length cipherLen n : Nat) :
    ∀ pos, (allocateRows tape nonceLen length cipherLen n pos).1.1.length = n ∧
      (allocateRows tape nonceLen length cipherLen n pos).1.2.1.length = n ∧
      (allocateRows tape nonceLen length cipherLen n pos).1.2.2.length = n ∧
      (∀ s ∈ (allocateRows tape nonceLen length cipherLen n pos).1.1, s.length = nonceLen) ∧
      (∀ m ∈ (allocateRows tape nonceLen length cipherLen n pos).1.2.1, m.length = length) ∧
      (∀ c ∈ (allocateRows tape nonceLen length cipherLen n pos).1.2.2,
        c = List.replicate cipherLen 0) := by
  induction n with
  | zero =>
    intro pos
    simp [allocateRows]
  | succ n ih =>
    intro pos
    obtain ⟨h1, h2, h3, h4, h5, h6⟩ :=
      ih (randombytes_buf tape (randombytes_buf tape pos nonceLen).2 length).2
    simp only [allocateRows, List.length_cons, h1, h2, h3, List.mem_cons, true_and]
    refine ⟨?_, ?_, ?_⟩
    · rintro s (hs | hs)
      · simp [hs, randombytes_buf]
      · exact h4 s hs
    · rintro m (hm | hm)
      · simp [hm, randombytes_buf]
      · exact h5 m hm
    · rintro c (hc | hc)
      · exact hc
      · exact h6 c hc

theorem padKey_spec (key1 : Bytes) (length secLen : Nat) (kp : Bytes)
    (h : padKey key1 length secLen = some kp) :
    length ≤ key1.length ∧ (length = 0 ∨ length ≤ (length + secLen) % SIZE_MOD) ∧
      kp = key1.take length ++ List.replicate ((length + secLen) % SIZE_MOD - length) 0 := by
  unfold padKey at h
  simp only at h
  cases hf : fillBytes (fun i => if i < (length + secLen) % SIZE_MOD then key1[i]? else none)
      0 length with
  | none => simp [hf] at h
  | some head =>
    simp only [hf, Option.some.injEq] at h
    obtain ⟨h1, h2⟩ := (fillBytes_eq_some_iff _ _ _ _).mp hf
    have hall : ∀ k, k < length → k < (length + secLen) % SIZE_MOD ∧ key1[k]? = head[k]? := by
      intro k hk
      have := h2 k hk
      simp only [Nat.zero_add] at this
      by_cases hc : k < (length + secLen) % SIZE_MOD
      · simp only [hc, if_true] at this
        exact ⟨hc, this⟩
      · simp only [hc, if_false] at this
        rw [List.getElem?_eq_getElem (by omega)] at this
        simp at this
    have hlen : length ≤ key1.length := by
      by_contra hc
      have hk := (hall key1.length (by omega)).2
      rw [List.getElem?_eq_none (le_refl _), List.getElem?_eq_getElem (by omega)] at hk
      simp at hk
    refine ⟨hlen, ?_, ?_⟩
    · by_cases h0 : length = 0
      · exact Or.inl h0
      · right
        have := (hall (length - 1) (by omega)).1
        omega
    · rw [← h]
      congr 1
      apply List.ext_getElem?
      intro k
      by_cases hk : k < length
      · rw [← (hall k hk).2, List.getElem?_take, if_pos hk]
      · rw [List.getElem?_eq_none (by omega), List.getElem?_eq_none (by simp; omega)]

theorem zipWith_congr_left (f : Nat → Nat → Nat) (a a' d : Bytes)
    (h : ∀ j, j < d.length → a[j]? = a'[j]?) : List.zipWith f a d = List.zipWith f a' d := by
  apply List.ext_getElem?
  intro j
  simp only [List.getElem?_zipWith]
  by_cases hj : j < d.length
  · rw [h j hj]
  · rw [List.getElem?_eq_none (show d.length ≤ j by omega)]
    cases a[j]? <;> cases a'[j]? <;> rfl

theorem lockRow_spec (kp digest : Bytes) (n : Nat) (locked : Bytes) (hd : digest.length = n)
    (h : lockRow kp digest n = some locked) :
    n ≤ kp.length ∧ locked = xorBytes kp digest := by
  unfold lockRow at h
  obtain ⟨h1, h2⟩ := (fillBytes_eq_some_iff _ _ _ _).mp h
  have hlen : n ≤ kp.length := by
    by_contra hc
    have hk := h2 kp.length (by omega)
    simp only [Nat.zero_add] at hk
    rw [List.getElem?_eq_none (le_refl _)] at hk
    simp at hk
    omega
  refine ⟨hlen, ?_⟩
  apply List.ext_getElem?
  intro k
  by_cases hk : k < n
  · rw [← h2 k hk]
    simp only [Nat.zero_add, xorBytes, List.getElem?_zipWith]
    cases kp[k]? <;> cases digest[k]? <;> rfl
  · rw [List.getElem?_eq_none (by omega), List.getElem?_eq_none (by simp [xorBytes]; omega)]

theorem randombytes_buf_length (tape : Tape) (pos n : Nat) :
    (randombytes_buf tape pos n).1.length = n := by
  simp [randombytes_buf]

theorem randombytes_buf_lt (tape : Tape) (pos n : Nat) :
    ∀ b ∈ (randombytes_buf tape pos n).1, b < 256 := by
  intro b hb
  simp only [randombytes_buf, List.mem_map] at hb
  obtain ⟨j, _, hj⟩ := hb
  rw [← hj]
  exact Nat.mod_lt _ (by decide)

theorem maskValue_length_le (value : Bytes) (masks : Option (List Bytes)) (i n : Nat)
    (vector : Bytes) (h : maskValue value masks i n = some vector) : n ≤ value.length := by
  unfold maskValue at h
  obtain ⟨h1, h2⟩ := (fillBytes_eq_some_iff _ _ _ _).mp h
  by_contra hc
  have hk := h2 value.length (by omega)
  simp only [Nat.zero_add] at hk
  rw [List.getElem?_eq_none (le_refl _)] at hk
  simp at hk
  omega

theorem allocateHelperData_wellShaped (tape : Tape) (pos : Nat) (h : HelperData)
    (length cipherLen numHelpers : Nat) :
    WellShaped (allocateHelperData tape pos h length cipherLen numHelpers).1 := by
  obtain ⟨h1, h2, h3, h4, h5, h6⟩ :=
    allocateRows_shape tape crypto_pwhash_SALTBYTES length cipherLen numHelpers pos
  simp only [WellShaped, allocateHelperData]
  refine ⟨h1, h2, h3, h4, h5, ?_⟩
  intro c hc
  rw [h6 c hc]
  simp

theorem feGenerate_success (kdf : KDF) (tape : Tape) (pos : Nat) (value key : Bytes) (len : Nat)
    (h0 : HelperData) (p : FEProperties) (r : GenResult)
    (hgen : feGenerate kdf tape pos (some value) (some key) len (some h0) (some p) = some r)
    (hret : r.ret = 0) :
    p.length = len ∧ len ≤ key.length ∧
    ∃ h' k, r.h = some h' ∧ r.key = some (k ++ key.drop len) ∧ k.length = len ∧
      (∀ b ∈ k, b < 256) ∧
      h'.length = p.length ∧ h'.nonceLen = crypto_pwhash_SALTBYTES ∧
      h'.cipherLen = p.cipherLen ∧ h'.numHelpers = p.numHelpers ∧ WellShaped h' ∧
      ∀ i, i < p.numHelpers → ∃ salt mask d,
        rowAt h'.nonces i = some salt ∧ rowAt h'.masks i = some mask ∧
        mask.length = p.length ∧ p.length ≤ value.length ∧
        p.cipherLen ≤ p.length + p.secLen ∧
        kdf salt (andBytes value mask) p.cipherLen = some d ∧
        rowAt h'.ciphers i =
          some (xorBytes (k ++ List.replicate p.secLen 0) (digestBytes d p.cipherLen)) := by
  unfold feGenerate at hgen
  simp only at hgen
  by_cases hl : p.length = len
  swap
  · simp only [ne_eq, hl, not_false_eq_true, if_true, Option.some.injEq] at hgen
    rw [← hgen] at hret
    simp at hret
  simp only [ne_eq, hl, not_true_eq_false, if_false] at hgen
  by_cases hkl : key.length < len
  · simp [hkl] at hgen
  simp only [hkl, if_false] at hgen
  have hws := allocateHelperData_wellShaped tape pos (freeHelperData h0) len p.cipherLen
    p.numHelpers
  have hf1 : (allocateHelperData tape pos (freeHelperData h0) len p.cipherLen
    p.numHelpers).1.length = len := rfl
  have hf2 : (allocateHelperData tape pos (freeHelperData h0) len p.cipherLen
    p.numHelpers).1.nonceLen = crypto_pwhash_SALTBYTES := rfl
  have hf3 : (allocateHelperData tape pos (freeHelperData h0) len p.cipherLen
    p.numHelpers).1.cipherLen = p.cipherLen := rfl
  have hf4 : (allocateHelperData tape pos (freeHelperData h0) len p.cipherLen
    p.numHelpers).1.numHelpers = p.numHelpers := rfl
  generalize allocateHelperData tape pos (freeHelperData h0) len p.cipherLen p.numHelpers = a
    at hgen hws hf1 hf2 hf3 hf4
  have hklen := randombytes_buf_length tape a.2 len
  have hkb := randombytes_buf_lt tape a.2 len
  generalize (randombytes_buf tape a.2 len).1 = k at hgen hklen hkb
  cases hpad : padKey (k ++ List.drop len key) len p.secLen with
  | none => simp [hpad] at hgen
  | some kp =>
    simp only [hpad] at hgen
    cases hloop : generateLoop kdf value kp p a.1 0 p.numHelpers with
    | none => simp [hloop] at hgen
    | some res =>
      obtain ⟨ret, h'⟩ := res
      simp only [hloop, Option.some.injEq] at hgen
      subst hgen
      simp only at hret
      subst hret
      obtain ⟨e1, e2, e3, e4, e5, e6, e7, _, e9⟩ :=
        generateLoop_spec kdf value kp p p.numHelpers a.1 0 h' hloop
      obtain ⟨_, hsize, hkp⟩ := padKey_spec _ _ _ _ hpad
      have htake : List.take len (k ++ List.drop len key) = k := by
        rw [List.take_append_of_le_length (by omega), List.take_of_length_le (by omega)]
      rw [htake] at hkp
      have hrows : ∀ i, i < p.numHelpers → ∃ salt mask d,
          rowAt h'.nonces i = some salt ∧ rowAt h'.masks i = some mask ∧
          mask.length = len ∧ len ≤ value.length ∧
          p.cipherLen ≤ len + p.secLen ∧
          kdf salt (andBytes value mask) p.cipherLen = some d ∧
          rowAt h'.ciphers i =
            some (xorBytes (k ++ List.replicate p.secLen 0) (digestBytes d p.cipherLen)) := by
        intro i hi
        obtain ⟨vector, salt, row, d, locked, f1, f2, f3, _, f5, f6, f7⟩ :=
          e9 i (by omega) (by omega)
        obtain ⟨salt', mask, cipher, g1, g2, g3, _, g5, g6⟩ :=
          wellShaped_rows a.1 hws i (by omega)
        rw [hl] at f1
        have hvl := maskValue_length_le _ _ _ _ _ f1
        rw [maskValue_eq value a.1.masks i len mask g2 hvl (by omega)] at f1
        simp only [Option.some.injEq] at f1
        subst f1
        rw [g3] at f3
        simp only [Option.some.injEq] at f3
        subst f3
        obtain ⟨l1, l2⟩ := lockRow_spec kp _ _ locked (digestBytes_length d _) f6
        have hkpl : kp.length = len + ((len + p.secLen) % SIZE_MOD - len) := by
          rw [hkp]
          simp [hklen]
        have hmod : (len + p.secLen) % SIZE_MOD ≤ len + p.secLen := Nat.mod_le _ _
        have hcl : p.cipherLen ≤ len + p.secLen := by omega
        refine ⟨salt, mask, d, by rw [e5]; exact f2, by rw [e6]; exact g2, by omega, hvl, hcl,
          f5, ?_⟩
        rw [f7, List.drop_of_length_le (by omega), List.append_nil, l2]
        congr 1
        unfold xorBytes
        apply zipWith_congr_left
        intro j hj
        rw [digestBytes_length] at hj
        rw [hkp]
        by_cases hjk : j < k.length
        · rw [List.getElem?_append_left hjk, List.getElem?_append_left hjk]
        · rw [List.getElem?_append_right (by omega), List.getElem?_append_right (by omega)]
          rw [List.getElem?_replicate, List.getElem?_replicate]
          have c1 : j - k.length < (len + p.secLen) % SIZE_MOD - len := by omega
          have c2 : j - k.length < p.secLen := by omega
          simp [c1, c2]
      have hshape : WellShaped h' := by
        unfold WellShaped at hws ⊢
        rw [e5, e6, e1, e2, e3, e4]
        cases hn : a.1.nonces with
        | none => simp [hn] at hws
        | some ns =>
          cases hm : a.1.masks with
          | none => simp [hn, hm] at hws
          | some ms =>
            cases hc : a.1.ciphers with
            | none => simp [hn, hm, hc] at hws
            | some cs =>
              simp only [hn, hm, hc] at hws
              obtain ⟨w1, w2, w3, w4, w5, _⟩ := hws
              obtain ⟨cs', hcs', hcl'⟩ := e7 cs hc
              simp only [hcs']
              refine ⟨w1, w2, by omega, w4, w5, ?_⟩
              intro c hcm
              obtain ⟨i, hi, hci⟩ := List.getElem_of_mem hcm
              obtain ⟨_, _, d, _, _, _, _, q5, _, q7⟩ := hrows i (by omega)
              rw [hcs', rowAt_some, List.getElem?_eq_getElem hi, hci] at q7
              simp only [Option.some.injEq] at q7
              rw [q7, hf3]
              simp only [xorBytes, List.length_zipWith, List.length_append, List.length_replicate,
                digestBytes_length, hklen]
              omega
      refine ⟨hl, by omega, h', k, rfl, rfl, hklen, hkb, by omega, by omega, by omega, by omega,
        hshape, ?_⟩
      rw [hl]
      exact hrows
theorem xor_cancel_byte (x c : Nat) (hx : x < 256) (hc : c < 256) :
    (c ^^^ ((x ^^^ c) % 256)) % 256 = x := by
  have h1 : x ^^^ c < 256 := Nat.xor_lt_two_pow (n := 8) hx hc
  rw [Nat.mod_eq_of_lt h1, Nat.xor_comm x c, ← Nat.xor_assoc, Nat.xor_self, Nat.zero_xor,
    Nat.mod_eq_of_lt hx]

theorem xorBytes_unlock (a d : Bytes) (ha : ∀ b ∈ a, b < 256) (hd : ∀ b ∈ d, b < 256)
    (hlen : d.length ≤ a.length) : xorBytes d (xorBytes a d) = a.take d.length := by
  apply List.ext_getElem?
  intro j
  simp only [xorBytes, List.getElem?_zipWith, List.getElem?_take]
  by_cases hj : j < d.length
  · have hja : j < a.length := by omega
    rw [List.getElem?_eq_getElem hj, List.getElem?_eq_getElem hja]
    simp only [hj, if_true, Option.some.injEq]
    exact xor_cancel_byte _ _ (ha _ (List.getElem_mem hja)) (hd _ (List.getElem_mem hj))
  · rw [List.getElem?_eq_none (show d.length ≤ j by omega)]
    simp [hj]

theorem digestBytes_lt (d : Nat → Nat) (n : Nat) : ∀ b ∈ digestBytes d n, b < 256 := by
  intro b hb
  simp only [digestBytes, List.mem_map] at hb
  obtain ⟨j, _, hj⟩ := hb
  rw [← hj]
  exact Nat.mod_lt _ (by decide)

/-- The padded key `key || zeros (secLen)`, cut to the `cipherLen` bytes of a cipher row. -/
theorem paddedKey_props (k : Bytes) (secLen cipherLen : Nat) (hle : k.length ≤ cipherLen) :
    TrailingZero ((k ++ List.replicate secLen 0).take cipherLen) k.length ∧
      ((k ++ List.replicate secLen 0).take cipherLen).take k.length = k := by
  constructor
  · intro b hb
    rw [List.drop_take, List.drop_left] at hb
    exact List.eq_of_mem_replicate (List.mem_of_mem_take hb)
  · rw [List.take_take, Nat.min_eq_left hle, List.take_left]

theorem plainText_of_locked (kdf : KDF) (reading : Bytes) (h : HelperData) (i : Nat)
    (salt mask : Bytes) (d : Nat → Nat) (k : Bytes) (secLen : Nat)
    (hn : rowAt h.nonces i = some salt) (hm : rowAt h.masks i = some mask)
    (hk : kdf salt (andBytes reading mask) h.cipherLen = some d)
    (hc : rowAt h.ciphers i =
      some (xorBytes (k ++ List.replicate secLen 0) (digestBytes d h.cipherLen)))
    (hkb : ∀ b ∈ k, b < 256) (hcl : h.cipherLen ≤ k.length + secLen) :
    plainText kdf reading h i = some ((k ++ List.replicate secLen 0).take h.cipherLen) := by
  simp only [plainText, hn, hm, hc, hk]
  rw [xorBytes_unlock _ _ _ (digestBytes_lt d _) (by simp [digestBytes_length]; omega),
    digestBytes_length]
  intro b hb
  rcases List.mem_append.mp hb with h1 | h1
  · exact hkb b h1
  · rw [List.eq_of_mem_replicate h1]
    decide

theorem reproduceLoop_unlock (kdf : KDF) (value key : Bytes) (h : HelperData) (i n : Nat)
    (salt mask cipher plain : Bytes) (hn : rowAt h.nonces i = some salt)
    (hm : rowAt h.masks i = some mask) (hc : rowAt h.ciphers i = some cipher)
    (hml : mask.length = h.length) (hcl : cipher.length = h.cipherLen)
    (hle : h.length ≤ h.cipherLen) (hv : h.length ≤ value.length)
    (hkey : h.length ≤ key.length)
    (hp : plainText kdf value h i = some plain) (hpl : plain.length = h.cipherLen)
    (hz : TrailingZero plain h.length) :
    reproduceLoop kdf value key h i (n + 1) =
      some (0, plain.take h.length ++ key.drop h.length) := by
  rw [reproduceLoop_rows kdf value key h i n salt mask cipher hn hm hc hml hcl hle hv, hp]
  have hsum : sumTrailing plain h.length (h.cipherLen - h.length) 0 = some 0 := by
    apply sumTrailing_allZero
    intro k hk
    exact (trailingZero_iff plain h.length).mp hz k (by omega)
  simp [hsum, hkey]

theorem reproduceLoop_search (kdf : KDF) (value key : Bytes) (h : HelperData) (k : Bytes)
    (t : Nat) (hs : WellShaped h) (hle : h.length ≤ h.cipherLen)
    (hsum : (h.cipherLen - h.length) * 255 < 2 ^ 31) (hv : h.length ≤ value.length)
    (hkey : h.length ≤ key.length) (ht : t < h.numHelpers)
    (hall : ∀ j, j ≤ t → ∃ pl, plainText kdf value h j = some pl ∧
      (TrailingZero pl h.length → pl.take h.length = k))
    (hlast : ∃ pl, plainText kdf value h t = some pl ∧ TrailingZero pl h.length) :
    ∀ m i, i + m = t →
      reproduceLoop kdf value key h i (h.numHelpers - i) = some (0, k ++ key.drop h.length) := by
  intro m
  induction m with
  | zero =>
    intro i hi
    have hit : i = t := by omega
    subst hit
    obtain ⟨n, hn⟩ : ∃ n, h.numHelpers - i = n + 1 := ⟨h.numHelpers - i - 1, by omega⟩
    obtain ⟨pl, hp, hz⟩ := hlast
    obtain ⟨pl', hp', hk⟩ := hall i (le_refl _)
    rw [hp] at hp'
    simp only [Option.some.injEq] at hp'
    subst hp'
    rw [hn, reproduceLoop_step kdf value key h i n hs hle hsum hv ht, hp]
    simp [hz, hkey, hk hz]
  | succ m ih =>
    intro i hi
    obtain ⟨n, hn⟩ : ∃ n, h.numHelpers - i = n + 1 := ⟨h.numHelpers - i - 1, by omega⟩
    obtain ⟨pl, hp, hk⟩ := hall i (by omega)
    rw [hn, reproduceLoop_step kdf value key h i n hs hle hsum hv (by omega), hp]
    by_cases hz : TrailingZero pl h.length
    · simp [hz, hkey, hk hz]
    · have hn' : n = h.numHelpers - (i + 1) := by omega
      simp only [hz, if_false]
      rw [hn']
      exact ih (i + 1) (by omega)

theorem feReproduce_some (kdf : KDF) (value key : Bytes) (h : HelperData) :
    feReproduce kdf (some value) (some key) h.length (some h) =
      match reproduceLoop kdf value key h 0 h.numHelpers with
      | none => none
      | some r => some (r.1, some r.2) := by
  simp [feReproduce]

theorem reproduce_enrolled (kdf : KDF) (value reading key2 : Bytes) (h : HelperData) (k : Bytes)
    (secLen i : Nat) (hs : WellShaped h) (hle : h.length ≤ h.cipherLen)
    (hsum : (h.cipherLen - h.length) * 255 < 2 ^ 31) (hread : h.length ≤ reading.length)
    (hkey2 : h.length ≤ key2.length) (hi : i < h.numHelpers) (hkl : k.length = h.length)
    (hkb : ∀ b ∈ k, b < 256) (hcl : h.cipherLen ≤ k.length + secLen)
    (hrows : ∀ j, j < h.numHelpers → ∃ salt mask d,
      rowAt h.nonces j = some salt ∧ rowAt h.masks j = some mask ∧
      kdf salt (andBytes value mask) h.cipherLen = some d ∧
      rowAt h.ciphers j =
        some (xorBytes (k ++ List.replicate secLen 0) (digestBytes d h.cipherLen)))
    (hmatch : ∀ mask, rowAt h.masks i = some mask →
      andBytes reading mask = andBytes value mask)
    (hbefore : ∀ j, j < i → ∃ pl, plainText kdf reading h j = some pl ∧
      (TrailingZero pl h.length → ∀ mask, rowAt h.masks j = some mask →
        andBytes reading mask = andBytes value mask)) :
    feReproduce kdf (some reading) (some key2) h.length (some h) =
      some (0, some (k ++ key2.drop h.length)) := by
  have hagree : ∀ j, j < h.numHelpers →
      (∀ mask, rowAt h.masks j = some mask → andBytes reading mask = andBytes value mask) →
      plainText kdf reading h j = some ((k ++ List.replicate secLen 0).take h.cipherLen) := by
    intro j hj hm
    obtain ⟨salt, mask, d, g1, g2, g3, g4⟩ := hrows j hj
    rw [← hm mask g2] at g3
    exact plainText_of_locked kdf reading h j salt mask d k secLen g1 g2 g3 g4 hkb hcl
  obtain ⟨t1, t2⟩ := paddedKey_props k secLen h.cipherLen (by omega)
  rw [hkl] at t1 t2
  have hloop := reproduceLoop_search kdf reading key2 h k i hs hle hsum hread hkey2 hi
    (by
      intro j hj
      by_cases hji : j = i
      · subst hji
        exact ⟨_, hagree j hi hmatch, fun _ => t2⟩
      · obtain ⟨pl, hp, hz⟩ := hbefore j (by omega)
        refine ⟨pl, hp, fun htz => ?_⟩
        have := hagree j (by omega) (hz htz)
        rw [hp] at this
        simp only [Option.some.injEq] at this
        rw [this]
        exact t2)
    ⟨_, hagree i hi hmatch, t1⟩ i 0 (by omega)
  rw [feReproduce_some]
  simp only [Nat.sub_zero] at hloop
  rw [hloop]

theorem reproduceLoop_idem (kdf : KDF) (value : Bytes) (h : HelperData) (n : Nat) :
    ∀ (i : Nat) (key k1 : Bytes) (c : ℤ),
      reproduceLoop kdf value key h i n = some (c, k1) →
      reproduceLoop kdf value k1 h i n = some (c, k1) := by
  induction n with
  | zero =>
    intro i key k1 c hr
    simp only [reproduceLoop, Option.some.injEq, Prod.mk.injEq] at hr
    simp [reproduceLoop, hr.1]
  | succ n ih =>
    intro i key k1 c hr
    simp only [reproduceLoop] at hr ⊢
    cases hv : maskValue value h.masks i h.length with
    | none => simp [hv] at hr
    | some vector =>
      cases hs : rowAt h.nonces i with
      | none => simp [hv, hs] at hr
      | some salt =>
        simp only [hv, hs] at hr ⊢
        cases hk : kdf salt vector h.cipherLen with
        | none =>
          simp only [hk, Option.some.injEq, Prod.mk.injEq] at hr
          simp [hr.1]
        | some d =>
          simp only [hk] at hr ⊢
          cases hpl : fillBytes (fun j =>
              match (digestBytes d h.cipherLen)[j]?, at2 h.ciphers i j with
              | some x, some c => some ((x ^^^ c) % 256)
              | _, _ => none) 0 h.cipherLen with
          | none => simp [hpl] at hr
          | some plain =>
            simp only [hpl] at hr ⊢
            cases hsm : sumTrailing plain h.length (h.cipherLen - h.length) 0 with
            | none => simp [hsm] at hr
            | some sum =>
              simp only [hsm] at hr ⊢
              by_cases hz : sum = 0
              · simp only [hz, if_true] at hr ⊢
                cases hw : fillBytes (fun j => if j < key.length then plain[j]? else none)
                    0 h.length with
                | none => simp [hw] at hr
                | some out =>
                  simp only [hw, Option.some.injEq, Prod.mk.injEq] at hr
                  obtain ⟨hc, hk1⟩ := hr
                  obtain ⟨o1, o2⟩ := (fillBytes_eq_some_iff _ _ _ _).mp hw
                  have hlen : h.length ≤ key.length := by
                    by_contra hcon
                    have := o2 key.length (by omega)
                    simp only [Nat.zero_add, lt_irrefl, if_false] at this
                    rw [List.getElem?_eq_getElem (by omega)] at this
                    simp at this
                  have hk1len : k1.length = key.length := by
                    rw [← hk1]
                    simp [o1]
                    omega
                  have hdrop : k1.drop h.length = key.drop h.length := by
                    rw [← hk1, ← o1, List.drop_left]
                  rw [hk1len, hw]
                  simp only [hdrop, hk1, hc]
              · simp only [hz, if_false] at hr ⊢
                exact ih (i + 1) key k1 c hr

theorem plainText_congr (kdf : KDF) (value : Bytes) (h h2 : HelperData) (i : Nat)
    (hcl : h2.cipherLen = h.cipherLen) (hn : rowAt h2.nonces i = rowAt h.nonces i)
    (hm : rowAt h2.masks i = rowAt h.masks i) (hc : rowAt h2.ciphers i = rowAt h.ciphers i) :
    plainText kdf value h2 i = plainText kdf value h i := by
  simp only [plainText, hcl, hn, hm, hc]

theorem reproduce_firstUnlock (kdf : KDF) (value key : Bytes) (h : HelperData) (j : Nat)
    (plain : Bytes) (hs : WellShaped h) (hle : h.length ≤ h.cipherLen)
    (hsum : (h.cipherLen - h.length) * 255 < 2 ^ 31) (hv : h.length ≤ value.length)
    (hkey : key.length = h.length) (hj : j < h.numHelpers)
    (hbefore : ∀ i, i < j → ∃ pl, plainText kdf value h i = some pl ∧
      ¬ TrailingZero pl h.length)
    (hp : plainText kdf value h j = some plain) (hz : TrailingZero plain h.length) :
    feReproduce kdf (some value) (some key) h.length (some h) =
      some (0, some (plain.take h.length)) := by
  have hloop := reproduceLoop_search kdf value key h (plain.take h.length) j hs hle hsum hv
    (by omega) hj
    (by
      intro i hi
      by_cases hij : i = j
      · subst hij
        exact ⟨plain, hp, fun _ => rfl⟩
      · obtain ⟨pl, h1, h2⟩ := hbefore i (by omega)
        exact ⟨pl, h1, fun hc => absurd hc h2⟩)
    ⟨plain, hp, hz⟩ j 0 (by omega)
  rw [feReproduce_some]
  simp only [Nat.sub_zero] at hloop
  rw [hloop, List.drop_of_length_le (by omega), List.append_nil]

theorem rpow_div_log (b t : ℝ) (hb : 1 < b) : b ^ (t / Real.log b) = Real.exp t := by
  have hlog : 0 < Real.log b := Real.log_pos hb
  rw [Real.rpow_def_of_pos (by linarith), mul_div_cancel₀ _ (ne_of_gt hlog)]

theorem cRound_eq_of_bounds (x : ℝ) (z : ℤ) (h0 : 0 ≤ x) (h1 : (z : ℝ) - 1 / 2 ≤ x)
    (h2 : x < (z : ℝ) + 1 / 2) : cRound x = z := by
  unfold cRound
  rw [if_pos h0, Int.floor_eq_iff]
  constructor <;> linarith

theorem exp_four_bounds : (54.59 : ℝ) < Real.exp 4 ∧ Real.exp 4 < 54.6 := by
  have h4 : Real.exp 4 = Real.exp 1 ^ 4 := by
    rw [← Real.exp_nat_mul]
    norm_num
  have hlo := Real.exp_one_gt_d9
  have hhi := Real.exp_one_lt_d9
  have hpos : (0 : ℝ) ≤ 2.7182818283 := by norm_num
  constructor
  · calc (54.59 : ℝ) < 2.7182818283 ^ 4 := by norm_num
      _ < Real.exp 1 ^ 4 := pow_lt_pow_left₀ hlo hpos (by norm_num)
      _ = Real.exp 4 := h4.symm
  · calc Real.exp 4 = Real.exp 1 ^ 4 := h4
      _ < 2.7182818286 ^ 4 := pow_lt_pow_left₀ hhi (Real.exp_pos 1).le (by norm_num)
      _ < 54.6 := by norm_num

theorem two_rpow_lt_of_pow (a b : ℕ) (y : ℝ) (hb : 0 < b) (hy : 0 ≤ y)
    (h : (2 : ℝ) ^ a < y ^ b) : (2 : ℝ) ^ ((a : ℝ) / (b : ℝ)) < y := by
  by_contra hc
  push_neg at hc
  have h1 : y ^ b ≤ ((2 : ℝ) ^ ((a : ℝ) / (b : ℝ))) ^ b := pow_le_pow_left₀ hy hc b
  have h2 : ((2 : ℝ) ^ ((a : ℝ) / (b : ℝ))) ^ b = (2 : ℝ) ^ a := by
    rw [← Real.rpow_natCast, ← Real.rpow_mul (by norm_num),
      div_mul_cancel₀ _ (by exact_mod_cast hb.ne'), Real.rpow_natCast]
  linarith

theorem lt_two_rpow_of_pow (a b : ℕ) (y : ℝ) (hb : 0 < b)
    (h : y ^ b < (2 : ℝ) ^ a) : y < (2 : ℝ) ^ ((a : ℝ) / (b : ℝ)) := by
  by_contra hc
  push_neg at hc
  have hpos : (0 : ℝ) ≤ (2 : ℝ) ^ ((a : ℝ) / (b : ℝ)) := Real.rpow_nonneg (by norm_num) _
  have h1 : ((2 : ℝ) ^ ((a : ℝ) / (b : ℝ))) ^ b ≤ y ^ b := pow_le_pow_left₀ hpos hc b
  have h2 : ((2 : ℝ) ^ ((a : ℝ) / (b : ℝ))) ^ b = (2 : ℝ) ^ a := by
    rw [← Real.rpow_natCast, ← Real.rpow_mul (by norm_num),
      div_mul_cancel₀ _ (by exact_mod_cast hb.ne'), Real.rpow_natCast]
  linarith

theorem logb_two_2000_bounds :
    ((307 : ℝ) / 28 < Real.logb 2 2000) ∧ (Real.logb 2 2000 < (439 : ℝ) / 40) := by
  constructor
  · rw [Real.lt_logb_iff_rpow_lt (by norm_num) (by norm_num)]
    have := two_rpow_lt_of_pow 307 28 2000 (by norm_num) (by norm_num) (by norm_num)
    simpa using this
  · rw [Real.logb_lt_iff_lt_rpow (by norm_num) (by norm_num)]
    have := lt_two_rpow_of_pow 439 40 2000 (by norm_num) (by norm_num)
    simpa using this

theorem helpers_regression_bounds :
    (598.5 : ℝ) ≤ Real.exp 4 * Real.logb 2 2000 ∧ Real.exp 4 * Real.logb 2 2000 < 599.5 := by
  obtain ⟨e1, e2⟩ := exp_four_bounds
  obtain ⟨l1, l2⟩ := logb_two_2000_bounds
  constructor
  · nlinarith
  · nlinarith

theorem toSizeT_of_bounds (r : ℤ) (h0 : 0 ≤ r) (h1 : r < (SIZE_MOD : ℤ)) :
    toSizeT r = some r.toNat := by
  simp [toSizeT, h0, h1]

theorem helpersReal_of_bits (length hamErr : ℕ) (repErr : ℝ)
    (hb : 1 < (length * 8) % SIZE_MOD) :
    helpersReal length hamErr repErr = Real.exp hamErr * Real.logb 2 (2 / repErr) := by
  unfold helpersReal
  simp only
  rw [rpow_div_log _ _ (by exact_mod_cast hb)]

theorem bits_rpow_ge_one (bits hamErr : ℕ) :
    (1 : ℝ) ≤ (bits : ℝ) ^ ((hamErr : ℝ) / Real.log (bits : ℝ)) := by
  rcases Nat.eq_zero_or_pos bits with h0 | hpos
  · subst h0
    simp
  · have h1 : (1 : ℝ) ≤ (bits : ℝ) := by exact_mod_cast hpos
    exact Real.one_le_rpow h1 (div_nonneg (Nat.cast_nonneg _) (Real.log_nonneg h1))

theorem one_lt_logb_two (repErr : ℝ) (h0 : 0 < repErr) (h1 : repErr < 1) :
    1 < Real.logb 2 (2 / repErr) := by
  rw [Real.lt_logb_iff_rpow_lt (by norm_num) (by positivity), Real.rpow_one,
    lt_div_iff₀ h0]
  linarith

theorem one_lt_helpersReal (length hamErr : ℕ) (repErr : ℝ) (h0 : 0 < repErr)
    (h1 : repErr < 1) : 1 < helpersReal length hamErr repErr := by
  unfold helpersReal
  simp only
  have ha := bits_rpow_ge_one ((length * 8) % SIZE_MOD) hamErr
  have hb := one_lt_logb_two repErr h0 h1
  nlinarith

theorem one_le_cRound (x : ℝ) (hx : 1 < x) : 1 ≤ cRound x := by
  unfold cRound
  rw [if_pos (by linarith), Int.le_floor]
  push_cast
  linarith

set_option maxRecDepth 1000000 in
set_option maxHeartbeats 4000000 in
theorem card_disjoint_masks : ∀ x : Fin 256,
    (Finset.univ.filter (fun m : Fin 256 => x.val &&& m.val = 0)).card =
      2 ^ (8 - ((List.range 8).filter (fun t => x.val.testBit t)).length) := by
  decide

theorem card_disjoint_masks_nat (x : Nat) (hx : x < 256) :
    (Finset.univ.filter (fun m : Fin 256 => x &&& m.val = 0)).card =
      2 ^ (8 - ((List.range 8).filter (fun t => x.testBit t)).length) :=
  card_disjoint_masks ⟨x, hx⟩

theorem and_eq_and_iff (a c b : Nat) (hb : b < 256) :
    (a &&& b) % 256 = (c &&& b) % 256 ↔ ((a ^^^ c) % 256) &&& b = 0 := by
  have h1 : a &&& b < 256 := Nat.and_lt_two_pow a (n := 8) hb
  have h2 : c &&& b < 256 := Nat.and_lt_two_pow c (n := 8) hb
  rw [Nat.mod_eq_of_lt h1, Nat.mod_eq_of_lt h2]
  have hhi : ∀ t, 8 ≤ t → b.testBit t = false := by
    intro t ht
    apply Nat.testBit_lt_two_pow
    calc b < 2 ^ 8 := hb
      _ ≤ 2 ^ t := Nat.pow_le_pow_right (by norm_num) ht
  have hmod : (256 : ℕ) = 2 ^ 8 := by norm_num
  constructor
  · intro h
    apply Nat.eq_of_testBit_eq
    intro t
    have ht := congrArg (fun z => z.testBit t) h
    simp only [Nat.testBit_and] at ht
    rw [hmod]
    simp only [Nat.testBit_and, Nat.testBit_mod_two_pow, Nat.testBit_xor, Nat.zero_testBit]
    by_cases h8 : t < 8
    · simp only [h8, decide_True, Bool.true_and]
      revert ht
      cases a.testBit t <;> cases c.testBit t <;> cases b.testBit t <;> simp
    · simp [h8]
  · intro h
    apply Nat.eq_of_testBit_eq
    intro t
    have ht := congrArg (fun z => z.testBit t) h
    rw [hmod] at ht
    simp only [Nat.testBit_and, Nat.testBit_mod_two_pow, Nat.testBit_xor,
      Nat.zero_testBit] at ht
    simp only [Nat.testBit_and]
    by_cases h8 : t < 8
    · simp only [h8, decide_True, Bool.true_and] at ht
      revert ht
      cases a.testBit t <;> cases c.testBit t <;> cases b.testBit t <;> simp
    · rw [hhi t (by omega)]
      simp

theorem bitDiff_eq_mod (a c : Nat) :
    bitDiff a c = ((List.range 8).filter (fun t => ((a ^^^ c) % 256).testBit t)).length := by
  unfold bitDiff
  congr 1
  apply List.filter_congr
  intro t ht
  have h8 : t < 8 := List.mem_range.mp ht
  have hmod : (256 : ℕ) = 2 ^ 8 := by norm_num
  rw [hmod, Nat.testBit_mod_two_pow]
  simp [h8]

theorem card_fitting_byte (a c : Nat) : (fitSet a c).card = 2 ^ (8 - bitDiff a c) := by
  unfold fitSet
  have hx : (a ^^^ c) % 256 < 256 := Nat.mod_lt _ (by norm_num)
  have hset : Finset.univ.filter
      (fun b : Fin 256 => (a &&& b.val) % 256 = (c &&& b.val) % 256) =
      Finset.univ.filter (fun m : Fin 256 => ((a ^^^ c) % 256) &&& m.val = 0) :=
    Finset.filter_congr (fun b _ => and_eq_and_iff a c b.val b.isLt)
  rw [hset, bitDiff_eq_mod]
  exact card_disjoint_masks_nat _ hx

theorem bitDiff_le (a c : Nat) : bitDiff a c ≤ 8 := by
  unfold bitDiff
  calc ((List.range 8).filter _).length ≤ (List.range 8).length := List.length_filter_le _ _
    _ = 8 := by simp

theorem getElem?_eq_some_getD (l : Bytes) (j : Nat) (h : j < l.length) :
    l[j]? = some (l.getD j 0) := by
  rw [List.getElem?_eq_getElem h, List.getD_eq_getElem l 0 h]

theorem maskBytes_getElem? {L : Nat} (m : Fin L → Fin 256) (j : Fin L) :
    (maskBytes m)[j.val]? = some (m j).val := by
  have hlt : j.val < (maskBytes m).length := by simp [maskBytes]
  rw [List.getElem?_eq_getElem hlt]
  simp [maskBytes]

theorem fits_iff (L : Nat) (v w : Bytes) (hv : v.length = L) (hw : w.length = L)
    (m : Fin L → Fin 256) :
    andBytes v (maskBytes m) = andBytes w (maskBytes m) ↔
      ∀ j : Fin L, m j ∈ fitSet (v.getD j 0) (w.getD j 0) := by
  have hentry : ∀ (u : Bytes), u.length = L → ∀ j : Fin L,
      (andBytes u (maskBytes m))[j.val]? = some ((u.getD j 0 &&& (m j).val) % 256) := by
    intro u hu j
    simp only [andBytes, List.getElem?_zipWith, maskBytes_getElem? m j,
      getElem?_eq_some_getD u j.val (by rw [hu]; exact j.isLt)]
  constructor
  · intro h j
    have h1 := hentry v hv j
    have h2 := hentry w hw j
    rw [h] at h1
    rw [h1] at h2
    simp only [fitSet, Finset.mem_filter, Finset.mem_univ, true_and]
    exact Option.some.inj h2
  · intro h
    apply List.ext_getElem?
    intro k
    by_cases hk : k < L
    · have h1 := hentry v hv ⟨k, hk⟩
      have h2 := hentry w hw ⟨k, hk⟩
      have hj := h ⟨k, hk⟩
      simp only [fitSet, Finset.mem_filter, Finset.mem_univ, true_and] at hj
      simp only at h1 h2
      rw [h1, h2, hj]
    · rw [List.getElem?_eq_none (by simp [andBytes, maskBytes, hv]; omega),
        List.getElem?_eq_none (by simp [andBytes, maskBytes, hw]; omega)]

theorem hammingDistance_eq_sum (L : Nat) (v w : Bytes) (hv : v.length = L) (hw : w.length = L) :
    hammingDistance v w = ∑ j : Fin L, bitDiff (v.getD j 0) (w.getD j 0) := by
  have : List.zipWith bitDiff v w =
      List.ofFn (fun j : Fin L => bitDiff (v.getD j 0) (w.getD j 0)) := by
    apply List.ext_getElem?
    intro k
    by_cases hk : k < L
    · rw [List.getElem?_zipWith, getElem?_eq_some_getD v k (by omega),
        getElem?_eq_some_getD w k (by omega),
        List.getElem?_eq_getElem (by simp; exact hk)]
      simp
    · rw [List.getElem?_eq_none (by simp [hv, hw]; omega),
        List.getElem?_eq_none (by simp; omega)]
  rw [hammingDistance, this, List.sum_ofFn]

theorem hammingDistance_le (L : Nat) (v w : Bytes) (hv : v.length = L) (hw : w.length = L) :
    hammingDistance v w ≤ 8 * L := by
  rw [hammingDistance_eq_sum L v w hv hw]
  calc ∑ j : Fin L, bitDiff (v.getD j 0) (w.getD j 0) ≤ ∑ _j : Fin L, 8 :=
        Finset.sum_le_sum (fun j _ => bitDiff_le _ _)
    _ = 8 * L := by simp [mul_comm]

theorem card_fitting_masks (L : Nat) (v w : Bytes) (hv : v.length = L) (hw : w.length = L) :
    (Finset.univ.filter (fun m : Fin L → Fin 256 =>
      andBytes v (maskBytes m) = andBytes w (maskBytes m))).card =
      2 ^ (8 * L - hammingDistance v w) := by
  have hset : Finset.univ.filter (fun m : Fin L → Fin 256 =>
      andBytes v (maskBytes m) = andBytes w (maskBytes m)) =
      Fintype.piFinset (fun j : Fin L => fitSet (v.getD j 0) (w.getD j 0)) := by
    ext m
    simp only [Finset.mem_filter, Finset.mem_univ, true_and, Fintype.mem_piFinset]
    exact fits_iff L v w hv hw m
  rw [hset, Fintype.card_piFinset]
  have hcard : ∀ j : Fin L, (fitSet (v.getD j 0) (w.getD j 0)).card =
      2 ^ (8 - bitDiff (v.getD j 0) (w.getD j 0)) := fun j => card_fitting_byte _ _
  rw [Finset.prod_congr rfl (fun j _ => hcard j), Finset.prod_pow_eq_pow_sum]
  congr 1
  rw [hammingDistance_eq_sum L v w hv hw]
  have hsum : ∑ j : Fin L, (8 - bitDiff (v.getD j 0) (w.getD j 0)) +
      ∑ j : Fin L, bitDiff (v.getD j 0) (w.getD j 0) = 8 * L := by
    rw [← Finset.sum_add_distrib]
    have : ∀ j : Fin L, 8 - bitDiff (v.getD j 0) (w.getD j 0) +
        bitDiff (v.getD j 0) (w.getD j 0) = 8 :=
      fun j => Nat.sub_add_cancel (bitDiff_le _ _)
    rw [Finset.sum_congr rfl (fun j _ => this j)]
    simp [mul_comm]
  omega

theorem card_lockedOut (L n : Nat) (v w : Bytes) (hv : v.length = L) (hw : w.length = L) :
    (lockedOut L n v w).card = (256 ^ L - 2 ^ (8 * L - hammingDistance v w)) ^ n := by
  have hset : lockedOut L n v w =
      Fintype.piFinset (fun _ : Fin n => Finset.univ.filter (fun m : Fin L → Fin 256 =>
        ¬ andBytes v (maskBytes m) = andBytes w (maskBytes m))) := by
    ext ms
    simp [lockedOut, Fintype.mem_piFinset]
  have hneg : (Finset.univ.filter (fun m : Fin L → Fin 256 =>
      ¬ andBytes v (maskBytes m) = andBytes w (maskBytes m))).card =
      256 ^ L - 2 ^ (8 * L - hammingDistance v w) := by
    have hadd := Finset.filter_card_add_filter_neg_card_eq_card (s := Finset.univ)
      (fun m : Fin L → Fin 256 => andBytes v (maskBytes m) = andBytes w (maskBytes m))
    rw [card_fitting_masks L v w hv hw, Finset.card_univ] at hadd
    have hall : Fintype.card (Fin L → Fin 256) = 256 ^ L := by
      rw [Fintype.card_fun, Fintype.card_fin, Fintype.card_fin]
    omega
  rw [hset, Fintype.card_piFinset_const, hneg]

theorem failFraction_eq (L n : Nat) (v w : Bytes) (hv : v.length = L) (hw : w.length = L) :
    failFraction L n v w = (1 - 1 / 2 ^ hammingDistance v w) ^ n := by
  have hd := hammingDistance_le L v w hv hw
  have hall : Fintype.card (Fin n → Fin L → Fin 256) = (256 ^ L) ^ n := by
    rw [Fintype.card_fun, Fintype.card_fun, Fintype.card_fin, Fintype.card_fin,
      Fintype.card_fin]
  have hpow : (256 : ℕ) ^ L = 2 ^ (8 * L - hammingDistance v w) * 2 ^ hammingDistance v w := by
    rw [← pow_add, Nat.sub_add_cancel hd, pow_mul]
    norm_num
  have hle : 2 ^ (8 * L - hammingDistance v w) ≤ 256 ^ L := by
    rw [hpow]
    exact Nat.le_mul_of_pos_right _ (by positivity)
  unfold failFraction
  rw [card_lockedOut L n v w hv hw, hall]
  push_cast [hle]
  rw [← div_pow]
  congr 1
  have hq : ((256 : ℚ) ^ L) = 2 ^ (8 * L - hammingDistance v w) * 2 ^ hammingDistance v w := by
    exact_mod_cast hpow
  rw [hq]
  field_simp
  ring

theorem two_pow_le_exp (t : ℕ) : (2 : ℝ) ^ t ≤ Real.exp t := by
  have h2 : (2 : ℝ) ≤ Real.exp 1 := by
    have := Real.exp_one_gt_d9
    norm_num at this ⊢
    linarith
  calc (2 : ℝ) ^ t ≤ Real.exp 1 ^ t := pow_le_pow_left₀ (by norm_num) h2 t
    _ = Real.exp t := by rw [← Real.exp_nat_mul, mul_one]

theorem logb_two_ge (δ : ℝ) (h0 : 0 < δ) (h1 : δ < 1) :
    1 - Real.log δ ≤ Real.logb 2 (2 / δ) := by
  have hlog2 : 0 < Real.log 2 := Real.log_pos (by norm_num)
  have hlog2' : Real.log 2 < 1 := by
    have := Real.log_two_lt_d9
    norm_num at this ⊢
    linarith
  have hneg : Real.log δ < 0 := Real.log_neg h0 h1
  rw [Real.logb, Real.log_div (by norm_num) (ne_of_gt h0), le_div_iff₀ hlog2]
  nlinarith

theorem locked_fraction_bound (t d n : ℕ) (δ : ℝ) (h0 : 0 < δ) (h1 : δ < 1) (hd : d ≤ t)
    (hn : (n : ℤ) = cRound (Real.exp t * Real.logb 2 (2 / δ))) :
    ((1 : ℝ) - 1 / 2 ^ d) ^ n ≤ δ := by
  have hB := logb_two_ge δ h0 h1
  have hneg : Real.log δ < 0 := Real.log_neg h0 h1
  have hE := two_pow_le_exp t
  have hY : (1 : ℝ) ≤ 2 ^ t := one_le_pow₀ (by norm_num)
  have hx : 0 ≤ Real.exp t * Real.logb 2 (2 / δ) := by
    apply mul_nonneg (Real.exp_pos _).le
    linarith
  have hnr : Real.exp t * Real.logb 2 (2 / δ) - 1 / 2 < (n : ℝ) := by
    have hfl := Int.lt_floor_add_one (Real.exp t * Real.logb 2 (2 / δ) + 1 / 2)
    unfold cRound at hn
    rw [if_pos hx] at hn
    have hcast : ((n : ℤ) : ℝ) = (n : ℝ) := by norm_cast
    rw [← hn, hcast] at hfl
    linarith
  have hprod : (2 : ℝ) ^ t * (1 - Real.log δ) ≤ Real.exp t * Real.logb 2 (2 / δ) :=
    mul_le_mul hE hB (by linarith) (Real.exp_pos _).le
  have hny : -Real.log δ ≤ (n : ℝ) * (1 / 2 ^ t) := by
    rw [mul_one_div, le_div_iff₀ (by positivity)]
    nlinarith
  have hq0 : (0 : ℝ) ≤ 1 - 1 / 2 ^ d := by
    have : (1 : ℝ) / 2 ^ d ≤ 1 := by
      rw [div_le_one (by positivity)]
      exact one_le_pow₀ (by norm_num)
    linarith
  have hq1 : (1 : ℝ) - 1 / 2 ^ d ≤ 1 - 1 / 2 ^ t := by
    have : (1 : ℝ) / 2 ^ t ≤ 1 / 2 ^ d :=
      one_div_le_one_div_of_le (by positivity) (pow_le_pow_right₀ (by norm_num) hd)
    linarith
  have hq2 : (1 : ℝ) - 1 / 2 ^ t ≤ Real.exp (-(1 / 2 ^ t)) := by
    have := Real.add_one_le_exp (-((1 : ℝ) / 2 ^ t))
    linarith
  calc ((1 : ℝ) - 1 / 2 ^ d) ^ n ≤ (Real.exp (-(1 / 2 ^ t))) ^ n :=
        pow_le_pow_left₀ hq0 (le_trans hq1 hq2) n
    _ = Real.exp ((n : ℝ) * (-(1 / 2 ^ t))) := (Real.exp_nat_mul _ n).symm
    _ ≤ Real.exp (Real.log δ) := Real.exp_le_exp.mpr (by linarith)
    _ = δ := Real.exp_log h0

theorem hammingDistance_cons (a b : Nat) (v w : Bytes) :
    hammingDistance (a :: v) (b :: w) = bitDiff a b + hammingDistance v w := by
  simp [hammingDistance]

theorem hammingDistance_self_zero (k : Nat) :
    hammingDistance (List.replicate k 0) (List.replicate k 0) = 0 := by
  induction k with
  | zero => rfl
  | succ k ih =>
    rw [List.replicate_succ, hammingDistance_cons, ih]
    rfl

theorem failFraction_three_bits (k : Nat) :
    hammingDistance (List.replicate (k + 1) 0) (7 :: List.replicate k 0) = 3 ∧
      failFraction (k + 1) 2 (List.replicate (k + 1) 0) (7 :: List.replicate k 0) = 49 / 64 := by
  have hd : hammingDistance (List.replicate (k + 1) 0) (7 :: List.replicate k 0) = 3 := by
    rw [List.replicate_succ, hammingDistance_cons, hammingDistance_self_zero]
    rfl
  refine ⟨hd, ?_⟩
  rw [failFraction_eq (k + 1) 2 _ _ (by simp) (by simp), hd]
  norm_num

theorem helpersReal_of_no_bits (length hamErr : ℕ) (repErr : ℝ)
    (hb : (length * 8) % SIZE_MOD = 0) :
    helpersReal length hamErr repErr = Real.logb 2 (2 / repErr) := by
  unfold helpersReal
  simp [hb]

theorem cRound_helpers_regression : cRound (helpersReal 16 4 0.001) = 599 := by
  have hh : helpersReal 16 4 0.001 = Real.exp 4 * Real.logb 2 2000 := by
    rw [helpersReal_of_bits 16 4 0.001 (by decide)]
    norm_num
  obtain ⟨b1, b2⟩ := helpers_regression_bounds
  rw [hh]
  apply cRound_eq_of_bounds
  · linarith
  · norm_num at b1 ⊢
    linarith
  · norm_num at b2 ⊢
    linarith

theorem cRound_mono (x y : ℝ) (h : x ≤ y) : cRound x ≤ cRound y := by
  unfold cRound
  by_cases hx : 0 ≤ x
  · rw [if_pos hx, if_pos (le_trans hx h)]
    exact Int.floor_le_floor (by linarith)
  · rw [if_neg hx]
    by_cases hy : 0 ≤ y
    · rw [if_pos hy]
      have h1 : ⌈x - 1 / 2⌉ ≤ 0 := by
        rw [Int.ceil_le]
        push_cast
        linarith
      have h2 : (0 : ℤ) ≤ ⌊y + 1 / 2⌋ := by
        rw [Int.le_floor]
        push_cast
        linarith
      omega
    · rw [if_neg hy]
      exact Int.ceil_le_ceil (by linarith)

theorem helpersReal_mono_hamErr (length t t' : ℕ) (repErr : ℝ) (h0 : 0 < repErr)
    (h1 : repErr < 1) (ht : t ≤ t') :
    helpersReal length t repErr ≤ helpersReal length t' repErr := by
  unfold helpersReal
  simp only
  have hB := one_lt_logb_two repErr h0 h1
  apply mul_le_mul_of_nonneg_right _ (by linarith)
  rcases Nat.eq_zero_or_pos ((length * 8) % SIZE_MOD) with hz | hpos
  · rw [hz]
    simp
  · have hb : (1 : ℝ) ≤ (((length * 8) % SIZE_MOD : ℕ) : ℝ) := by exact_mod_cast hpos
    apply Real.rpow_le_rpow_of_exponent_le hb
    apply div_le_div_of_nonneg_right _ (Real.log_nonneg hb)
    exact_mod_cast ht

theorem helpersReal_anti_repErr (length t : ℕ) (e e' : ℝ) (h0 : 0 < e) (he : e ≤ e') :
    helpersReal length t e' ≤ helpersReal length t e := by
  unfold helpersReal
  simp only
  have hA := bits_rpow_ge_one ((length * 8) % SIZE_MOD) t
  apply mul_le_mul_of_nonneg_left _ (by linarith)
  have h0' : 0 < e' := lt_of_lt_of_le h0 he
  apply Real.logb_le_logb_of_le (by norm_num) (by positivity)
  exact div_le_div_of_nonneg_left (by norm_num) h0 he

theorem initFEProperties_of_round (length hamErr : ℕ) (repErr : ℝ)
    (h0 : 0 ≤ cRound (helpersReal length hamErr repErr))
    (h1 : cRound (helpersReal length hamErr repErr) < 2 ^ 64) :
    initFEProperties length hamErr repErr =
      some { length := length, hamErr := hamErr, repErr := repErr, secLen := 2,
             nonceLen := crypto_pwhash_SALTBYTES, cipherLen := (length + 2) % SIZE_MOD,
             numHelpers := (cRound (helpersReal length hamErr repErr)).toNat } := by
  unfold initFEProperties
  rw [toSizeT_of_bounds _ h0 (by simpa [SIZE_MOD] using h1)]

theorem initFEProperties_numHelpers (length hamErr : ℕ) (repErr : ℝ) (p : FEProperties)
    (h : initFEProperties length hamErr repErr = some p) :
    (p.numHelpers : ℤ) = cRound (helpersReal length hamErr repErr) := by
  unfold initFEProperties at h
  unfold toSizeT at h
  by_cases hr : 0 ≤ cRound (helpersReal length hamErr repErr) ∧
      cRound (helpersReal length hamErr repErr) < (SIZE_MOD : ℤ)
  · simp only [hr, and_self, if_true, Option.some.injEq] at h
    rw [← h]
    exact Int.toNat_of_nonneg hr.1
  · simp [hr] at h

theorem plainText_none_of_kdf (kdf : KDF) (value : Bytes) (h : HelperData) (i : Nat)
    (salt mask : Bytes) (hn : rowAt h.nonces i = some salt) (hm : rowAt h.masks i = some mask)
    (hk : kdf salt (andBytes value mask) h.cipherLen = none) :
    plainText kdf value h i = none := by
  unfold plainText
  rw [hn, hm]
  cases rowAt h.ciphers i with
  | none => rfl
  | some c => simp [hk]

theorem reproduceLoop_skip (kdf : KDF) (value key : Bytes) (h : HelperData) (t : Nat)
    (hs : WellShaped h) (hle : h.length ≤ h.cipherLen)
    (hsum : (h.cipherLen - h.length) * 255 < 2 ^ 31) (hv : h.length ≤ value.length)
    (ht : t ≤ h.numHelpers)
    (hnone : ∀ j, j < t → ∃ pl, plainText kdf value h j = some pl ∧
      ¬ TrailingZero pl h.length) :
    ∀ m i, i + m = t →
      reproduceLoop kdf value key h i (h.numHelpers - i) =
        reproduceLoop kdf value key h t (h.numHelpers - t) := by
  intro m
  induction m with
  | zero =>
    intro i hi
    have hit : i = t := by omega
    rw [hit]
  | succ m ih =>
    intro i hi
    obtain ⟨n, hn⟩ : ∃ n, h.numHelpers - i = n + 1 := ⟨h.numHelpers - i - 1, by omega⟩
    obtain ⟨pl, hp, hz⟩ := hnone i (by omega)
    rw [hn, reproduceLoop_step kdf value key h i n hs hle hsum hv (by omega), hp]
    have hn' : n = h.numHelpers - (i + 1) := by omega
    simp only [hz, if_false]
    rw [hn']
    exact ih (i + 1) (by omega)

theorem reproduce_exhausted (kdf : KDF) (value key : Bytes) (h : HelperData)
    (hs : WellShaped h) (hle : h.length ≤ h.cipherLen)
    (hsum : (h.cipherLen - h.length) * 255 < 2 ^ 31) (hv : h.length ≤ value.length)
    (hnone : ∀ j, j < h.numHelpers → ∃ pl, plainText kdf value h j = some pl ∧
      ¬ TrailingZero pl h.length) :
    feReproduce kdf (some value) (some key) h.length (some h) = some (0, some key) := by
  have hskip := reproduceLoop_skip kdf value key h h.numHelpers hs hle hsum hv (le_refl _)
    hnone h.numHelpers 0 (by omega)
  simp only [Nat.sub_zero, Nat.sub_self] at hskip
  rw [feReproduce_some, hskip]
  simp [reproduceLoop]

theorem reproduce_kdfFailure (kdf : KDF) (value key : Bytes) (h : HelperData) (i : Nat)
    (hs : WellShaped h) (hle : h.length ≤ h.cipherLen)
    (hsum : (h.cipherLen - h.length) * 255 < 2 ^ 31) (hv : h.length ≤ value.length)
    (hi : i < h.numHelpers)
    (hbefore : ∀ j, j < i → ∃ pl, plainText kdf value h j = some pl ∧
      ¬ TrailingZero pl h.length)
    (hfail : plainText kdf value h i = none) :
    feReproduce kdf (some value) (some key) h.length (some h) = some (-3, some key) := by
  have hskip := reproduceLoop_skip kdf value key h i hs hle hsum hv (by omega)
    hbefore i 0 (by omega)
  simp only [Nat.sub_zero] at hskip
  obtain ⟨n, hn⟩ : ∃ n, h.numHelpers - i = n + 1 := ⟨h.numHelpers - i - 1, by omega⟩
  rw [feReproduce_some, hskip, hn, reproduceLoop_step kdf value key h i n hs hle hsum hv hi,
    hfail]

theorem map_length_set (cs : List Bytes) (i : Nat) (row x : Bytes) (hrow : cs[i]? = some row)
    (hx : x.length = row.length) :
    (cs.set i x).map List.length = cs.map List.length := by
  apply List.ext_getElem?
  intro k
  simp only [List.getElem?_map, List.getElem?_set]
  by_cases hik : i = k
  · subst hik
    have hi : i < cs.length := by
      by_contra hc
      rw [List.getElem?_eq_none (by omega)] at hrow
      simp at hrow
    simp [hi, hrow, hx]
  · simp [hik]

theorem lockRow_length (kp digest : Bytes) (n : Nat) (locked : Bytes)
    (h : lockRow kp digest n = some locked) : locked.length = n := by
  unfold lockRow at h
  exact ((fillBytes_eq_some_iff _ _ _ _).mp h).1

theorem generateLoop_frame (kdf : KDF) (value keyPadded : Bytes) (p : FEProperties) (n : Nat) :
    ∀ (h : HelperData) (i : Nat) (c : ℤ) (h' : HelperData),
      generateLoop kdf value keyPadded p h i n = some (c, h') →
      (c = 0 ∨ c = -3) ∧ h'.length = h.length ∧ h'.nonceLen = h.nonceLen ∧
      h'.cipherLen = h.cipherLen ∧ h'.numHelpers = h.numHelpers ∧ h'.nonces = h.nonces ∧
      h'.masks = h.masks ∧
      (∀ cs, h.ciphers = some cs →
        ∃ cs', h'.ciphers = some cs' ∧ cs'.map List.length = cs.map List.length) := by
  induction n with
  | zero =>
    intro h i c h' hgen
    simp only [generateLoop, Option.some.injEq, Prod.mk.injEq] at hgen
    obtain ⟨hc, hh⟩ := hgen
    subst hh
    exact ⟨Or.inl hc.symm, rfl, rfl, rfl, rfl, rfl, rfl, fun cs hcs => ⟨cs, hcs, rfl⟩⟩
  | succ n ih =>
    intro h i c h' hgen
    simp only [generateLoop] at hgen
    cases hv : maskValue value h.masks i p.length with
    | none => simp [hv] at hgen
    | some vector =>
      cases hs : rowAt h.nonces i with
      | none => simp [hv, hs] at hgen
      | some salt =>
        cases hr : rowAt h.ciphers i with
        | none => simp [hv, hs, hr] at hgen
        | some row =>
          simp only [hv, hs, hr] at hgen
          by_cases hlen : row.length < p.cipherLen
          · simp [hlen] at hgen
          · simp only [hlen, if_false] at hgen
            cases hk : kdf salt vector p.cipherLen with
            | none =>
              simp only [hk, Option.some.injEq, Prod.mk.injEq] at hgen
              obtain ⟨hc, hh⟩ := hgen
              subst hh
              exact ⟨Or.inr hc.symm, rfl, rfl, rfl, rfl, rfl, rfl,
                fun cs hcs => ⟨cs, hcs, rfl⟩⟩
            | some d =>
              simp only [hk] at hgen
              cases hl : lockRow keyPadded (digestBytes d p.cipherLen) p.cipherLen with
              | none => simp [hl] at hgen
              | some locked =>
                simp only [hl] at hgen
                obtain ⟨e0, e1, e2, e3, e4, e5, e6, e7⟩ := ih _ (i + 1) c h' hgen
                refine ⟨e0, e1, e2, e3, e4, e5, e6, ?_⟩
                intro cs hcs
                obtain ⟨cs', h1, h2⟩ := e7 (cs.set i (locked ++ row.drop p.cipherLen))
                  (by simp [hcs])
                refine ⟨cs', h1, ?_⟩
                rw [h2]
                have hrow : cs[i]? = some row := by
                  rw [hcs] at hr
                  exact hr
                apply map_length_set cs i row _ hrow
                rw [List.length_append, lockRow_length _ _ _ _ hl, List.length_drop]
                omega

theorem allocateRows_rows (tape : Tape) (nonceLen length cipherLen n : Nat) :
    ∀ pos, (allocateRows tape nonceLen length cipherLen n pos).2 =
        pos + n * (nonceLen + length) ∧
      ∀ i, i < n →
        (allocateRows tape nonceLen length cipherLen n pos).1.1[i]? =
          some (randombytes_buf tape (pos + i * (nonceLen + length)) nonceLen).1 ∧
        (allocateRows tape nonceLen length cipherLen n pos).1.2.1[i]? =
          some (randombytes_buf tape (pos + i * (nonceLen + length) + nonceLen) length).1 := by
  induction n with
  | zero =>
    intro pos
    exact ⟨by simp [allocateRows], fun i hi => absurd hi (Nat.not_lt_zero i)⟩
  | succ n ih =>
    intro pos
    obtain ⟨h1, h2⟩ := ih (pos + nonceLen + length)
    have hp : (randombytes_buf tape (randombytes_buf tape pos nonceLen).2 length).2 =
        pos + nonceLen + length := rfl
    constructor
    · simp only [allocateRows, hp, h1]
      ring
    · intro i hi
      cases i with
      | zero =>
        simp [allocateRows]
        rfl
      | succ i =>
        obtain ⟨a, b⟩ := h2 i (by omega)
        simp only [allocateRows, hp, List.getElem?_cons_succ, a, b]
        constructor
        · congr 3
          ring
        · congr 3
          ring

theorem feGenerate_result (kdf : KDF) (tape : Tape) (pos : Nat) (value key : Bytes)
    (h0 : HelperData) (p : FEProperties) (r : GenResult)
    (hgen : feGenerate kdf tape pos (some value) (some key) p.length (some h0) (some p) =
      some r) :
    (r.ret = 0 ∨ r.ret = -3) ∧ p.length ≤ key.length ∧
      r.key = some ((randombytes_buf tape
        (pos + p.numHelpers * (crypto_pwhash_SALTBYTES + p.length)) p.length).1 ++
          key.drop p.length) ∧
      r.pos = pos + p.numHelpers * (crypto_pwhash_SALTBYTES + p.length) + p.length ∧
      ∃ h', r.h = some h' ∧ h'.length = p.length ∧ h'.nonceLen = crypto_pwhash_SALTBYTES ∧
        h'.cipherLen = p.cipherLen ∧ h'.numHelpers = p.numHelpers ∧ WellShaped h' ∧
        h'.nonces = some (allocateRows tape crypto_pwhash_SALTBYTES p.length p.cipherLen
          p.numHelpers pos).1.1 ∧
        h'.masks = some (allocateRows tape crypto_pwhash_SALTBYTES p.length p.cipherLen
          p.numHelpers pos).1.2.1 ∧
        ∀ i, i < p.numHelpers →
          rowAt h'.nonces i = some (randombytes_buf tape
            (pos + i * (crypto_pwhash_SALTBYTES + p.length)) crypto_pwhash_SALTBYTES).1 ∧
          rowAt h'.masks i = some (randombytes_buf tape
            (pos + i * (crypto_pwhash_SALTBYTES + p.length) + crypto_pwhash_SALTBYTES)
            p.length).1 := by
  unfold feGenerate at hgen
  simp only [ne_eq, not_true_eq_false, if_false] at hgen
  by_cases hkl : key.length < p.length
  · simp [hkl] at hgen
  simp only [hkl, if_false] at hgen
  have hws := allocateHelperData_wellShaped tape pos (freeHelperData h0) p.length p.cipherLen
    p.numHelpers
  obtain ⟨hpos, hrows⟩ := allocateRows_rows tape crypto_pwhash_SALTBYTES p.length p.cipherLen
    p.numHelpers pos
  have hf1 : (allocateHelperData tape pos (freeHelperData h0) p.length p.cipherLen
    p.numHelpers).1.length = p.length := rfl
  have hf2 : (allocateHelperData tape pos (freeHelperData h0) p.length p.cipherLen
    p.numHelpers).1.nonceLen = crypto_pwhash_SALTBYTES := rfl
  have hf3 : (allocateHelperData tape pos (freeHelperData h0) p.length p.cipherLen
    p.numHelpers).1.cipherLen = p.cipherLen := rfl
  have hf4 : (allocateHelperData tape pos (freeHelperData h0) p.length p.cipherLen
    p.numHelpers).1.numHelpers = p.numHelpers := rfl
  have hf5 : (allocateHelperData tape pos (freeHelperData h0) p.length p.cipherLen
    p.numHelpers).2 = pos + p.numHelpers * (crypto_pwhash_SALTBYTES + p.length) := hpos
  have hf6 : ∀ i, i < p.numHelpers →
      rowAt (allocateHelperData tape pos (freeHelperData h0) p.length p.cipherLen
        p.numHelpers).1.nonces i = some (randombytes_buf tape
          (pos + i * (crypto_pwhash_SALTBYTES + p.length)) crypto_pwhash_SALTBYTES).1 ∧
      rowAt (allocateHelperData tape pos (freeHelperData h0) p.length p.cipherLen
        p.numHelpers).1.masks i = some (randombytes_buf tape
          (pos + i * (crypto_pwhash_SALTBYTES + p.length) + crypto_pwhash_SALTBYTES)
          p.length).1 := hrows
  have hf7 : (allocateHelperData tape pos (freeHelperData h0) p.length p.cipherLen
    p.numHelpers).1.nonces = some (allocateRows tape crypto_pwhash_SALTBYTES p.length
      p.cipherLen p.numHelpers pos).1.1 := rfl
  have hf8 : (allocateHelperData tape pos (freeHelperData h0) p.length p.cipherLen
    p.numHelpers).1.masks = some (allocateRows tape crypto_pwhash_SALTBYTES p.length
      p.cipherLen p.numHelpers pos).1.2.1 := rfl
  generalize allocateHelperData tape pos (freeHelperData h0) p.length p.cipherLen
    p.numHelpers = a at hgen hws hf1 hf2 hf3 hf4 hf5 hf6 hf7 hf8
  cases hpad : padKey ((randombytes_buf tape a.2 p.length).1 ++ List.drop p.length key)
      p.length p.secLen with
  | none => simp [hpad] at hgen
  | some kp =>
    simp only [hpad] at hgen
    cases hloop : generateLoop kdf value kp p a.1 0 p.numHelpers with
    | none => simp [hloop] at hgen
    | some res =>
      obtain ⟨c, h'⟩ := res
      simp only [hloop, Option.some.injEq] at hgen
      subst hgen
      obtain ⟨e0, e1, e2, e3, e4, e5, e6, e7⟩ :=
        generateLoop_frame kdf value kp p p.numHelpers a.1 0 c h' hloop
      have hshape : WellShaped h' := by
        unfold WellShaped at hws ⊢
        rw [e5, e6, e1, e2, e3, e4]
        cases hn : a.1.nonces with
        | none => simp [hn] at hws
        | some ns =>
          cases hm : a.1.masks with
          | none => simp [hn, hm] at hws
          | some ms =>
            cases hc : a.1.ciphers with
            | none => simp [hn, hm, hc] at hws
            | some cs =>
              simp only [hn, hm, hc] at hws
              obtain ⟨w1, w2, w3, w4, w5, w6⟩ := hws
              obtain ⟨cs', hcs', hmap⟩ := e7 cs hc
              have hlen' : cs'.length = cs.length := by
                have := congrArg List.length hmap
                simpa using this
              simp only [hcs']
              refine ⟨w1, w2, by omega, w4, w5, ?_⟩
              intro row hrow
              have hmem : row.length ∈ cs'.map List.length := List.mem_map_of_mem _ hrow
              rw [hmap] at hmem
              obtain ⟨row0, hrow0, hlen0⟩ := List.mem_map.mp hmem
              rw [← hlen0]
              exact w6 row0 hrow0
      refine ⟨e0, by omega, by simp only [hf5], by simp only [randombytes_buf, hf5], h', rfl,
        by omega, by omega, by omega, by omega, hshape, by rw [e5, hf7], by rw [e6, hf8], ?_⟩
      intro i hi
      rw [e5, e6]
      exact hf6 i hi

theorem xor_byte_cancel (a b c : Nat) (ha : a < 256) (hb : b < 256) (hc : c < 256)
    (h : (a ^^^ c) % 256 = (b ^^^ c) % 256) : a = b := by
  have h1 : a ^^^ c < 256 := Nat.xor_lt_two_pow (n := 8) ha hc
  have h2 : b ^^^ c < 256 := Nat.xor_lt_two_pow (n := 8) hb hc
  rw [Nat.mod_eq_of_lt h1, Nat.mod_eq_of_lt h2] at h
  have := congrArg (fun z => z ^^^ c) h
  simp only [Nat.xor_assoc, Nat.xor_self, Nat.xor_zero] at this
  exact this

theorem xorBytes_cancel (a b c : Bytes) (n : Nat) (hla : a.length = n) (hlb : b.length = n)
    (hlc : c.length = n) (ha : ∀ x ∈ a, x < 256) (hb : ∀ x ∈ b, x < 256)
    (hc : ∀ x ∈ c, x < 256) (h : xorBytes a c = xorBytes b c) : a = b := by
  apply List.ext_getElem?
  intro k
  by_cases hk : k < n
  · have ka : k < a.length := by omega
    have kb : k < b.length := by omega
    have kc : k < c.length := by omega
    have hk' := congrArg (fun l => l[k]?) h
    simp only [xorBytes, List.getElem?_zipWith, List.getElem?_eq_getElem ka,
      List.getElem?_eq_getElem kb, List.getElem?_eq_getElem kc, Option.some.injEq] at hk'
    rw [List.getElem?_eq_getElem ka, List.getElem?_eq_getElem kb]
    congr 1
    exact xor_byte_cancel _ _ _ (ha _ (List.getElem_mem ka)) (hb _ (List.getElem_mem kb))
      (hc _ (List.getElem_mem kc)) hk'
  · rw [List.getElem?_eq_none (by omega), List.getElem?_eq_none (by omega)]

theorem plainText_locked_iff (kdf : KDF) (reading : Bytes) (h : HelperData) (i : Nat)
    (salt mask : Bytes) (d : Nat → Nat) (k : Bytes) (secLen : Nat)
    (hn : rowAt h.nonces i = some salt) (hm : rowAt h.masks i = some mask)
    (hc : rowAt h.ciphers i =
      some (xorBytes (k ++ List.replicate secLen 0) (digestBytes d h.cipherLen)))
    (hkb : ∀ b ∈ k, b < 256) (hcl : h.cipherLen ≤ k.length + secLen) :
    plainText kdf reading h i = some ((k ++ List.replicate secLen 0).take h.cipherLen) ↔
      ∃ d', kdf salt (andBytes reading mask) h.cipherLen = some d' ∧
        digestBytes d' h.cipherLen = digestBytes d h.cipherLen := by
  have hpad : ∀ b ∈ k ++ List.replicate secLen 0, b < 256 := by
    intro b hb
    rcases List.mem_append.mp hb with h1 | h1
    · exact hkb b h1
    · rw [List.eq_of_mem_replicate h1]
      decide
  have hunlock : xorBytes (digestBytes d h.cipherLen)
      (xorBytes (k ++ List.replicate secLen 0) (digestBytes d h.cipherLen)) =
      (k ++ List.replicate secLen 0).take h.cipherLen := by
    rw [xorBytes_unlock _ _ hpad (digestBytes_lt d _) (by simp [digestBytes_length]; omega),
      digestBytes_length]
  have hclen : (xorBytes (k ++ List.replicate secLen 0) (digestBytes d h.cipherLen)).length =
      h.cipherLen := by
    simp only [xorBytes, List.length_zipWith, List.length_append, List.length_replicate,
      digestBytes_length]
    omega
  simp only [plainText, hn, hm, hc]
  cases hk : kdf salt (andBytes reading mask) h.cipherLen with
  | none => simp
  | some d' =>
    simp only [Option.some.injEq, exists_eq_left']
    constructor
    · intro hp
      rw [← hunlock] at hp
      exact xorBytes_cancel _ _ _ h.cipherLen (digestBytes_length _ _) (digestBytes_length _ _)
        hclen (digestBytes_lt _ _) (digestBytes_lt _ _) (xorBytes_lt _ _) hp
    · intro hd
      rw [hd, hunlock]

theorem bits_gt_one (length : ℕ) (hb : (length * 8) % 2 ^ 64 ≠ 0) :
    1 < (length * 8) % SIZE_MOD := by
  simp only [SIZE_MOD]
  omega

theorem exp_le_two_pow (t : ℕ) (ht : t ≤ 32) : Real.exp t ≤ 2 ^ 47 := by
  have h1 : Real.exp (t : ℝ) ≤ Real.exp 32 := by
    apply Real.exp_le_exp.mpr
    exact_mod_cast ht
  have h32 : Real.exp 32 = Real.exp 1 ^ 32 := by
    rw [← Real.exp_nat_mul]
    norm_num
  have hhi : Real.exp 1 ≤ 2.72 := by
    have := Real.exp_one_lt_d9
    norm_num at this ⊢
    linarith
  calc Real.exp (t : ℝ) ≤ Real.exp 32 := h1
    _ = Real.exp 1 ^ 32 := h32
    _ ≤ 2.72 ^ 32 := pow_le_pow_left₀ (Real.exp_pos 1).le hhi 32
    _ ≤ 2 ^ 47 := by norm_num

theorem logb_two_bounds (repErr : ℝ) (hlo : 1 / 2 ^ 1022 ≤ repErr) (hhi : repErr ≤ 2) :
    0 ≤ Real.logb 2 (2 / repErr) ∧ Real.logb 2 (2 / repErr) ≤ 1023 := by
  have hpos : 0 < repErr := lt_of_lt_of_le (by positivity) hlo
  have h1 : 1 ≤ 2 / repErr := by
    rw [le_div_iff₀ hpos]
    linarith
  have h2 : 2 / repErr ≤ 2 ^ 1023 := by
    rw [div_le_iff₀ hpos]
    have h3 : (2 : ℝ) ^ 1023 * (1 / 2 ^ 1022) = 2 := by
      rw [pow_succ]
      field_simp
    calc (2 : ℝ) = 2 ^ 1023 * (1 / 2 ^ 1022) := h3.symm
      _ ≤ 2 ^ 1023 * repErr := mul_le_mul_of_nonneg_left hlo (by positivity)
  constructor
  · exact Real.logb_nonneg (by norm_num) h1
  · rw [Real.logb_le_iff_le_rpow (by norm_num) (by positivity)]
    have h4 : (2 : ℝ) ^ (1023 : ℝ) = 2 ^ 1023 := by
      rw [← Real.rpow_natCast]
      norm_num
    rw [h4]
    exact h2

theorem helpersReal_bounds (length hamErr : ℕ) (repErr : ℝ) (hh : hamErr ≤ 32)
    (hlo : 1 / 2 ^ 1022 ≤ repErr) (hhi : repErr ≤ 2) :
    0 ≤ helpersReal length hamErr repErr ∧ helpersReal length hamErr repErr ≤ 2 ^ 47 * 1023 := by
  obtain ⟨l0, l1⟩ := logb_two_bounds repErr hlo hhi
  by_cases hb : (length * 8) % 2 ^ 64 = 0
  · rw [helpersReal_of_no_bits _ _ _ (by simpa [SIZE_MOD] using hb)]
    constructor
    · exact l0
    · have : (1023 : ℝ) ≤ 2 ^ 47 * 1023 := by norm_num
      linarith
  · rw [helpersReal_of_bits _ _ _ (bits_gt_one length hb)]
    have e0 := Real.exp_pos (hamErr : ℝ)
    have e1 := exp_le_two_pow hamErr hh
    constructor
    · positivity
    · exact mul_le_mul e1 l1 l0 (by positivity)

theorem cRound_bounds (x : ℝ) (h0 : 0 ≤ x) (h1 : x ≤ 2 ^ 47 * 1023) :
    0 ≤ cRound x ∧ cRound x < 2 ^ 64 := by
  unfold cRound
  rw [if_pos h0]
  constructor
  · rw [Int.le_floor]
    push_cast
    linarith
  · rw [Int.floor_lt]
    push_cast
    have : (2 : ℝ) ^ 47 * 1023 + 1 / 2 < 2 ^ 64 := by norm_num
    linarith

theorem initFEProperties_exists (length hamErr : ℕ) (repErr : ℝ) (hh : hamErr ≤ 32)
    (hlo : 1 / 2 ^ 1022 ≤ repErr) (hhi : repErr ≤ 2) :
    initFEProperties length hamErr repErr =
      some { length := length, hamErr := hamErr, repErr := repErr, secLen := 2,
             nonceLen := 16, cipherLen := (length + 2) % 2 ^ 64,
             numHelpers := (cRound (helpersReal length hamErr repErr)).toNat } := by
  obtain ⟨b0, b1⟩ := helpersReal_bounds length hamErr repErr hh hlo hhi
  obtain ⟨c0, c1⟩ := cRound_bounds _ b0 b1
  rw [initFEProperties_of_round length hamErr repErr c0 c1]
  simp [crypto_pwhash_SALTBYTES, SIZE_MOD]

theorem initFEProperties_fields (length hamErr : ℕ) (repErr : ℝ) (p : FEProperties)
    (h : initFEProperties length hamErr repErr = some p) :
    p.length = length ∧ p.hamErr = hamErr ∧ p.repErr = repErr ∧ p.secLen = 2 ∧
      p.nonceLen = 16 ∧ p.cipherLen = (length + 2) % 2 ^ 64 := by
  unfold initFEProperties at h
  cases hn : toSizeT (cRound (helpersReal length hamErr repErr)) with
  | none => simp [hn] at h
  | some n =>
    simp only [hn, Option.some.injEq] at h
    rw [← h]
    simp [crypto_pwhash_SALTBYTES, SIZE_MOD]

theorem helpersReal_zero_of_two (length hamErr : ℕ) :
    helpersReal length hamErr 2 = 0 := by
  unfold helpersReal
  simp

theorem sumTrailing_some (plain : Bytes) (n : Nat) :
    ∀ (lo : Nat) (acc : ℤ), lo + n ≤ plain.length → ∃ r, sumTrailing plain lo n acc = some r := by
  induction n with
  | zero =>
    intro lo acc _
    exact ⟨acc, rfl⟩
  | succ n ih =>
    intro lo acc hlen
    have hlo : lo < plain.length := by omega
    simp only [sumTrailing, List.getElem?_eq_getElem hlo]
    exact ih (lo + 1) _ (by omega)

theorem reproduceLoop_safe (kdf : KDF) (value key : Bytes) (h : HelperData)
    (hs : WellShaped h) (hle : h.length ≤ h.cipherLen) (hv : h.length ≤ value.length)
    (hkey : h.length ≤ key.length) (n : Nat) :
    ∀ i, i + n ≤ h.numHelpers → ∃ r, reproduceLoop kdf value key h i n = some r := by
  induction n with
  | zero =>
    intro i _
    exact ⟨(0, key), rfl⟩
  | succ n ih =>
    intro i hi
    obtain ⟨salt, mask, cipher, hn, hm, hc, _, hml, hcl⟩ := wellShaped_rows h hs i (by omega)
    rw [reproduceLoop_rows kdf value key h i n salt mask cipher hn hm hc hml hcl hle hv]
    cases hp : plainText kdf value h i with
    | none => exact ⟨_, rfl⟩
    | some plain =>
      obtain ⟨hpl, _⟩ := plainText_length kdf value h i plain hs (by omega) hp
      obtain ⟨r, hr⟩ := sumTrailing_some plain (h.cipherLen - h.length) h.length 0 (by omega)
      simp only [hr]
      by_cases hz : r = 0
      · simp only [hz, if_true, hkey]
        exact ⟨_, rfl⟩
      · simp only [hz, if_false]
        exact ih (i + 1) (by omega)

theorem keyWrite_short (key plain : Bytes) (n : Nat) (hp : plain.length < n) :
    fillBytes (fun j => if j < key.length then plain[j]? else none) 0 n = none := by
  apply fillBytes_eq_none_of _ n plain.length hp
  simp

theorem reproduceLoop_short (kdf : KDF) (value key : Bytes) (h : HelperData) (n : Nat)
    (hs : WellShaped h) (hlt : h.cipherLen < h.length) (hv : h.length ≤ value.length)
    (h0 : 0 < h.numHelpers) (hp : plainText kdf value h 0 ≠ none) :
    reproduceLoop kdf value key h 0 (n + 1) = none := by
  obtain ⟨salt, mask, cipher, hn, hm, hc, _, hml, hcl⟩ := wellShaped_rows h hs 0 h0
  simp only [plainText, hn, hm, hc] at hp
  simp only [reproduceLoop, maskValue_eq value h.masks 0 h.length mask hm hv hml, hn]
  cases hk : kdf salt (andBytes value mask) h.cipherLen with
  | none => simp [hk] at hp
  | some d =>
    simp only [at2_of_row h.ciphers 0 _ cipher hc]
    rw [xorFill_eq (digestBytes d h.cipherLen) cipher h.cipherLen (digestBytes_length d _) hcl]
    have hpl : (xorBytes (digestBytes d h.cipherLen) cipher).length = h.cipherLen :=
      xorBytes_length _ _ _ (digestBytes_length d _) hcl
    have hn0 : h.cipherLen - h.length = 0 := by omega
    simp only [hn0, sumTrailing, if_true]
    rw [keyWrite_short key _ h.length (by omega)]

theorem reproduceLoop_frame (kdf : KDF) (value key : Bytes) (h : HelperData) (n : Nat) :
    ∀ (i : Nat) (c : ℤ) (k1 : Bytes), reproduceLoop kdf value key h i n = some (c, k1) →
      k1 = key ∨ (c = 0 ∧ ∃ out, out.length = h.length ∧ k1 = out ++ key.drop h.length) := by
  induction n with
  | zero =>
    intro i c k1 hr
    simp only [reproduceLoop, Option.some.injEq, Prod.mk.injEq] at hr
    exact Or.inl hr.2.symm
  | succ n ih =>
    intro i c k1 hr
    simp only [reproduceLoop] at hr
    cases hv : maskValue value h.masks i h.length with
    | none => simp [hv] at hr
    | some vector =>
      cases hs : rowAt h.nonces i with
      | none => simp [hv, hs] at hr
      | some salt =>
        simp only [hv, hs] at hr
        cases hk : kdf salt vector h.cipherLen with
        | none =>
          simp only [hk, Option.some.injEq, Prod.mk.injEq] at hr
          exact Or.inl hr.2.symm
        | some d =>
          simp only [hk] at hr
          split at hr
          · simp at hr
          · split at hr
            · simp at hr
            · split at hr
              · split at hr
                · simp at hr
                · rename_i out hw
                  simp only [Option.some.injEq, Prod.mk.injEq] at hr
                  obtain ⟨o1, _⟩ := (fillBytes_eq_some_iff _ _ _ _).mp hw
                  exact Or.inr ⟨hr.1.symm, out, o1, hr.2.symm⟩
              · exact ih (i + 1) c k1 hr

theorem reproduceLoop_unlocked (kdf : KDF) (value key : Bytes) (h : HelperData)
    (hs : WellShaped h) (hle : h.length ≤ h.cipherLen)
    (hsum : (h.cipherLen - h.length) * 255 < 2 ^ 31) (hv : h.length ≤ value.length) (n : Nat) :
    ∀ (i : Nat) (c : ℤ) (k1 : Bytes), i + n ≤ h.numHelpers →
      reproduceLoop kdf value key h i n = some (c, k1) →
      k1 = key ∨ (c = 0 ∧ ∃ j pl, i ≤ j ∧ j < i + n ∧ plainText kdf value h j = some pl ∧
        TrailingZero pl h.length ∧ k1 = pl.take h.length ++ key.drop h.length) := by
  induction n with
  | zero =>
    intro i c k1 _ hr
    simp only [reproduceLoop, Option.some.injEq, Prod.mk.injEq] at hr
    exact Or.inl hr.2.symm
  | succ n ih =>
    intro i c k1 hi hr
    rw [reproduceLoop_step kdf value key h i n hs hle hsum hv (by omega)] at hr
    cases hp : plainText kdf value h i with
    | none =>
      simp only [hp, Option.some.injEq, Prod.mk.injEq] at hr
      exact Or.inl hr.2.symm
    | some plain =>
      simp only [hp] at hr
      by_cases hz : TrailingZero plain h.length
      · simp only [hz, if_true] at hr
        by_cases hkl : h.length ≤ key.length
        · simp only [hkl, if_true, Option.some.injEq, Prod.mk.injEq] at hr
          exact Or.inr ⟨hr.1.symm, i, plain, le_refl _, by omega, hp, hz, hr.2.symm⟩
        · simp [hkl] at hr
      · simp only [hz, if_false] at hr
        rcases ih (i + 1) c k1 (by omega) hr with hk | ⟨hc, j, pl, h1, h2, h3, h4, h5⟩
        · exact Or.inl hk
        · exact Or.inr ⟨hc, j, pl, by omega, by omega, h3, h4, h5⟩

theorem xor_rotate_byte (x y z : Nat) (hx : x < 256) (hy : y < 256) (hz : z < 256) :
    (z ^^^ ((x ^^^ y) % 256)) % 256 = (x ^^^ ((y ^^^ z) % 256)) % 256 := by
  have h1 : x ^^^ y < 256 := Nat.xor_lt_two_pow (n := 8) hx hy
  have h2 : y ^^^ z < 256 := Nat.xor_lt_two_pow (n := 8) hy hz
  rw [Nat.mod_eq_of_lt h1, Nat.mod_eq_of_lt h2, Nat.xor_comm z, Nat.xor_assoc]

theorem xorBytes_rotate (a : Bytes) :
    ∀ (b c : Bytes), (∀ x ∈ a, x < 256) → (∀ x ∈ b, x < 256) → (∀ x ∈ c, x < 256) →
      xorBytes c (xorBytes a b) = xorBytes a (xorBytes b c) := by
  induction a with
  | nil =>
    intro b c _ _ _
    simp [xorBytes]
  | cons x a ih =>
    intro b c ha hb hc
    cases b with
    | nil => simp [xorBytes]
    | cons y b =>
      cases c with
      | nil => simp [xorBytes]
      | cons z c =>
        have hx : x < 256 := ha x (List.mem_cons_self _ _)
        have hy : y < 256 := hb y (List.mem_cons_self _ _)
        have hz : z < 256 := hc z (List.mem_cons_self _ _)
        have ht := ih b c (fun w hw => ha w (List.mem_cons_of_mem _ hw))
          (fun w hw => hb w (List.mem_cons_of_mem _ hw))
          (fun w hw => hc w (List.mem_cons_of_mem _ hw))
        simp only [xorBytes, List.zipWith_cons_cons] at ht ⊢
        rw [ht, xor_rotate_byte x y z hx hy hz]

theorem xorBytes_take (a b : Bytes) (n : Nat) :
    (xorBytes a b).take n = xorBytes (a.take n) (b.take n) := by
  simp [xorBytes, List.take_zipWith]

theorem xorBytes_drop (a b : Bytes) (n : Nat) :
    (xorBytes a b).drop n = xorBytes (a.drop n) (b.drop n) := by
  simp [xorBytes, List.drop_zipWith]

theorem xor_eq_left_byte (x y z : Nat) (hy : y < 256) (hz : z < 256) (hx : x < 256) :
    (x ^^^ ((y ^^^ z) % 256)) % 256 = x ↔ y = z := by
  have h1 : y ^^^ z < 256 := Nat.xor_lt_two_pow (n := 8) hy hz
  have h2 : x ^^^ (y ^^^ z) < 256 := Nat.xor_lt_two_pow (n := 8) hx h1
  rw [Nat.mod_eq_of_lt h1, Nat.mod_eq_of_lt h2]
  constructor
  · intro h
    have := congrArg (fun w => x ^^^ w) h
    simp only [← Nat.xor_assoc, Nat.xor_self, Nat.zero_xor] at this
    exact Nat.xor_eq_zero.mp this
  · intro h
    rw [h, Nat.xor_self, Nat.xor_zero]

theorem xorBytes_eq_left_iff (k : Bytes) :
    ∀ (a b : Bytes), (∀ x ∈ k, x < 256) → (∀ x ∈ a, x < 256) → (∀ x ∈ b, x < 256) →
      a.length = k.length → b.length = k.length →
      (xorBytes k (xorBytes a b) = k ↔ a = b) := by
  induction k with
  | nil =>
    intro a b _ _ _ hla hlb
    have ha0 : a = [] := List.length_eq_zero.mp (by simpa using hla)
    have hb0 : b = [] := List.length_eq_zero.mp (by simpa using hlb)
    simp [xorBytes, ha0, hb0]
  | cons x k ih =>
    intro a b hk ha hb hla hlb
    cases a with
    | nil => simp at hla
    | cons y a =>
      cases b with
      | nil => simp at hlb
      | cons z b =>
        have hx : x < 256 := hk x (List.mem_cons_self _ _)
        have hy : y < 256 := ha y (List.mem_cons_self _ _)
        have hz : z < 256 := hb z (List.mem_cons_self _ _)
        have ht := ih a b (fun w hw => hk w (List.mem_cons_of_mem _ hw))
          (fun w hw => ha w (List.mem_cons_of_mem _ hw))
          (fun w hw => hb w (List.mem_cons_of_mem _ hw))
          (by simpa using hla) (by simpa using hlb)
        simp only [xorBytes, List.zipWith_cons_cons, List.cons.injEq] at ht ⊢
        rw [ht, xor_eq_left_byte x y z hy hz hx]

theorem xor_zero_byte (y z : Nat) (hy : y < 256) (hz : z < 256) :
    (0 ^^^ ((y ^^^ z) % 256)) % 256 = 0 ↔ y = z := by
  have h1 : y ^^^ z < 256 := Nat.xor_lt_two_pow (n := 8) hy hz
  rw [Nat.zero_xor, Nat.mod_mod, Nat.mod_eq_of_lt h1]
  exact Nat.xor_eq_zero

theorem xorBytes_zero_iff (a : Bytes) :
    ∀ (b : Bytes) (n : Nat), (∀ x ∈ a, x < 256) → (∀ x ∈ b, x < 256) →
      a.length = b.length → a.length ≤ n →
      ((∀ x ∈ xorBytes (List.replicate n 0) (xorBytes a b), x = 0) ↔ a = b) := by
  induction a with
  | nil =>
    intro b n _ _ hl _
    have hb0 : b = [] := List.length_eq_zero.mp (by simpa using hl.symm)
    simp [xorBytes, hb0]
  | cons y a ih =>
    intro b n ha hb hl hn
    cases b with
    | nil => simp at hl
    | cons z b =>
      cases n with
      | zero => simp at hn
      | succ n =>
        have hy : y < 256 := ha y (List.mem_cons_self _ _)
        have hz : z < 256 := hb z (List.mem_cons_self _ _)
        have ht := ih b n (fun w hw => ha w (List.mem_cons_of_mem _ hw))
          (fun w hw => hb w (List.mem_cons_of_mem _ hw))
          (by simpa using hl) (by simpa using hn)
        simp only [xorBytes, List.replicate_succ, List.zipWith_cons_cons, List.mem_cons,
          forall_eq_or_imp, List.cons.injEq] at ht ⊢
        rw [ht, xor_zero_byte y z hy hz]

theorem plainText_generated (kdf : KDF) (reading : Bytes) (h : HelperData) (i : Nat)
    (salt mask : Bytes) (d d' : Nat → Nat) (k : Bytes) (secLen : Nat)
    (hn : rowAt h.nonces i = some salt) (hm : rowAt h.masks i = some mask)
    (hc : rowAt h.ciphers i =
      some (xorBytes (k ++ List.replicate secLen 0) (digestBytes d h.cipherLen)))
    (hk : kdf salt (andBytes reading mask) h.cipherLen = some d')
    (hkb : ∀ b ∈ k, b < 256) :
    plainText kdf reading h i =
      some (xorBytes (k ++ List.replicate secLen 0)
        (xorBytes (digestBytes d h.cipherLen) (digestBytes d' h.cipherLen))) := by
  have hpad : ∀ b ∈ k ++ List.replicate secLen 0, b < 256 := by
    intro b hb
    rcases List.mem_append.mp hb with h1 | h2
    · exact hkb b h1
    · rw [(List.mem_replicate.mp h2).2]
      decide
  simp only [plainText, hn, hm, hc, hk]
  rw [xorBytes_rotate _ _ _ hpad (digestBytes_lt d _) (digestBytes_lt d' _)]

theorem paddedXor_take (k a b : Bytes) (secLen : Nat) :
    (xorBytes (k ++ List.replicate secLen 0) (xorBytes a b)).take k.length =
      xorBytes k ((xorBytes a b).take k.length) := by
  rw [xorBytes_take, List.take_left]

theorem paddedXor_trailing (k a b : Bytes) (secLen : Nat) (ha : ∀ x ∈ a, x < 256)
    (hb : ∀ x ∈ b, x < 256) (hl : a.length = b.length) (hn : a.length ≤ k.length + secLen) :
    TrailingZero (xorBytes (k ++ List.replicate secLen 0) (xorBytes a b)) k.length ↔
      a.drop k.length = b.drop k.length := by
  unfold TrailingZero
  rw [xorBytes_drop, List.drop_left, xorBytes_drop]
  exact xorBytes_zero_iff _ _ _ (fun x hx => ha x (List.mem_of_mem_drop hx))
    (fun x hx => hb x (List.mem_of_mem_drop hx)) (by simp [hl]) (by simp; omega)

theorem paddedXor_key_iff (k a b : Bytes) (hk : ∀ x ∈ k, x < 256) (ha : ∀ x ∈ a, x < 256)
    (hb : ∀ x ∈ b, x < 256) (hla : k.length ≤ a.length) (hlb : k.length ≤ b.length) :
    xorBytes k ((xorBytes a b).take k.length) = k ↔ a.take k.length = b.take k.length := by
  rw [xorBytes_take]
  exact xorBytes_eq_left_iff _ _ _ hk (fun x hx => ha x (List.mem_of_mem_take hx))
    (fun x hx => hb x (List.mem_of_mem_take hx)) (by simp; omega) (by simp; omega)

/-! The claims. -/

theorem demo_generate :
    feGenerate demoKdf demoTape 0 (some fingerprintOrig) (some zeroKey) 16
      (some emptyHelperData) (some (demoProps (1 / 1000))) =
      some ⟨0, some demoKey, some demoEnrolled, 80⟩ := by
  decide

theorem colliding_generate :
    feGenerate collidingKdf demoTape 0 (some fingerprintOrig) (some zeroKey) 16
      (some emptyHelperData) (some (demoProps (1 / 1000))) =
      some ⟨0, some demoKey, some collidingEnrolled, 80⟩ := by
  decide

theorem small_generate :
    feGenerate demoKdf demoTape 0 (some [65, 66, 67]) (some [0, 0, 0]) 3
      (some emptyHelperData) (some (smallProps (1 / 1000))) =
      some ⟨0, some [137, 174, 211], some smallEnrolled, 41⟩ := by
  decide

theorem small_generate_other :
    feGenerate demoKdf demoTape 0 (some [65, 66, 68]) (some [0, 0, 0]) 3
      (some demoEnrolled) (some (smallProps (1 / 1000))) =
      some ⟨0, some [137, 174, 211],
        some { smallEnrolled with
          ciphers := some [[234, 196, 162, 120, 127, 134], [178, 236, 154, 80, 87, 94]] },
        41⟩ := by
  decide

theorem small_generate_failing :
    feGenerate (failingKdf 11) demoTape 0 (some [65, 66, 67]) (some [0, 0, 0]) 3
      (some emptyHelperData) (some (smallProps (1 / 1000))) =
      some ⟨-3, some [137, 174, 211],
        some { smallEnrolled with ciphers := some [List.replicate 6 0, List.replicate 6 0] },
        41⟩ := by
  decide

/-- C1 (round trip).  For every config with `numHelpers >= 1` (whose cipher
rows are at least as long as the value, as `cipherLen = length + secLen` makes
them), every value read with the configured length, every tape and every key
derivation function: if `feGenerate` returns 0 with key `k` and helper data
`r.h`, then `feReproduce` on the same value and `r.h` returns 0 and writes
exactly `k` into its key buffer. -/
theorem feGenerate_feReproduce_roundTrip (kdf : KDF) (tape : Tape) (pos : Nat)
    (value key key2 : Bytes) (h0 : HelperData) (p : FEProperties) (r : GenResult)
    (hnum : 1 ≤ p.numHelpers) (hcfg : p.length ≤ p.cipherLen)
    (hkey : key.length = p.length) (hkey2 : key2.length = p.length)
    (hgen : feGenerate kdf tape pos (some value) (some key) p.length (some h0) (some p) = some r)
    (hret : r.ret = 0) :
    ∃ k, r.key = some k ∧
      feReproduce kdf (some value) (some key2) p.length r.h = some (0, some k) := by
  obtain ⟨_, _, h', k, e1, e2, e3, e4, f1, _, f3, f4, hws, hrows⟩ :=
    feGenerate_success kdf tape pos value key p.length h0 p r hgen hret
  obtain ⟨salt, mask, d, g1, g2, g3, g4, g5, g6, g7⟩ := hrows 0 (by omega)
  refine ⟨k, ?_, ?_⟩
  · rw [e2, List.drop_of_length_le (by omega), List.append_nil]
  · rw [← f3] at g6 g7
    have hpt := plainText_of_locked kdf value h' 0 salt mask d k p.secLen g1 g2 g6 g7 e4
      (by omega)
    obtain ⟨t1, t2⟩ := paddedKey_props k p.secLen h'.cipherLen (by omega)
    obtain ⟨n, hn⟩ : ∃ n, h'.numHelpers = n + 1 := ⟨p.numHelpers - 1, by omega⟩
    have hloop := reproduceLoop_unlock kdf value key2 h' 0 n salt mask _ _ g1 g2 g7
      (by omega) (by simp [xorBytes, digestBytes_length]; omega) (by omega) (by omega)
      (by omega) hpt (by simp; omega) (by rw [f1, ← e3]; exact t1)
    rw [e1]
    simp only [feReproduce, f1, ne_eq, not_true_eq_false, if_false, hn, hloop]
    rw [← e3, t2, List.drop_of_length_le (by omega), List.append_nil]

/-- Witness of C1: the enrolment of `fingerprintOrig` with two helpers, and
its reproduction from the same value. -/
theorem feGenerate_feReproduce_roundTrip_witness :
    ∃ k, (some demoKey : Option Bytes) = some k ∧
      feReproduce demoKdf (some fingerprintOrig) (some zeroKey) 16 (some demoEnrolled) =
        some (0, some k) :=
  feGenerate_feReproduce_roundTrip demoKdf demoTape 0 fingerprintOrig zeroKey zeroKey
    emptyHelperData (demoProps (1 / 1000)) ⟨0, some demoKey, some demoEnrolled, 80⟩
    (by decide) (by decide) (by decide) (by decide) demo_generate rfl

/-- C2, counterexample.  With a key derivation function whose trailing output
bytes do not depend on the password, `"AABBCCDDAABBCCDD"` is enrolled with two
helpers; the mask of helper 1 selects only bits on which the reading
`"ABBBCCDDAABBCCDD"` agrees with the enrolled value, yet `feReproduce` stops at
helper 0 and returns 0 with a key that is not the enrolled key. -/
theorem closeReading_counterexample :
    feGenerate collidingKdf demoTape 0 (some fingerprintOrig) (some zeroKey) 16
        (some emptyHelperData) (some (demoProps (1 / 1000))) =
      some ⟨0, some demoKey, some collidingEnrolled, 80⟩ ∧
    (rowAt collidingEnrolled.masks 1 =
        some [255, 252, 255, 255, 255, 255, 255, 255, 255, 255, 255, 255, 255, 255, 255, 255] ∧
      andBytes fingerprintGood
          [255, 252, 255, 255, 255, 255, 255, 255, 255, 255, 255, 255, 255, 255, 255, 255] =
        andBytes fingerprintOrig
          [255, 252, 255, 255, 255, 255, 255, 255, 255, 255, 255, 255, 255, 255, 255, 255]) ∧
    feReproduce collidingKdf (some fingerprintGood) (some zeroKey) 16 (some collidingEnrolled) =
      some (0, some [74, 115, 148, 189, 222, 7, 40, 81, 114, 155, 188, 229, 6, 47, 80, 121]) ∧
    [74, 115, 148, 189, 222, 7, 40, 81, 114, 155, 188, 229, 6, 47, 80, 121] ≠ demoKey := by
  refine ⟨colliding_generate, ⟨by decide, by decide⟩, by decide, by decide⟩

/-- C2, amended (close readings reproduce the key).  Let `feGenerate` return 0
with key `k` and helper data `h` for a config whose cipher rows are at least as
long as the value and whose security margin cannot make the `int` accumulator
wrap.  For a reading of the same length, if the mask of some helper `i` selects
only bits on which reading and enrolled value agree, and every helper before
`i` has a key derivation that succeeds and a candidate plain text that either
has a nonzero trailing byte or belongs to a mask that also selects only
agreeing bits, then `feReproduce` returns 0 and writes `k`. -/
theorem feReproduce_closeReading (kdf : KDF) (tape : Tape) (pos : Nat)
    (value reading key key2 : Bytes) (h0 : HelperData) (p : FEProperties) (r : GenResult)
    (i : Nat) (hcfg : p.length ≤ p.cipherLen)
    (hsum : (p.cipherLen - p.length) * 255 < 2 ^ 31)
    (hkey : key.length = p.length) (hkey2 : key2.length = p.length)
    (hread : reading.length = p.length)
    (hgen : feGenerate kdf tape pos (some value) (some key) p.length (some h0) (some p) = some r)
    (hret : r.ret = 0) (hi : i < p.numHelpers)
    (hmatch : ∀ h mask, r.h = some h → rowAt h.masks i = some mask →
      andBytes reading mask = andBytes value mask)
    (hbefore : ∀ h j, r.h = some h → j < i →
      ∃ pl, plainText kdf reading h j = some pl ∧
        (TrailingZero pl p.length → ∀ mask, rowAt h.masks j = some mask →
          andBytes reading mask = andBytes value mask)) :
    ∃ k, r.key = some k ∧
      feReproduce kdf (some reading) (some key2) p.length r.h = some (0, some k) := by
  obtain ⟨_, _, h', k, e1, e2, e3, e4, f1, _, f3, f4, hws, hrows⟩ :=
    feGenerate_success kdf tape pos value key p.length h0 p r hgen hret
  refine ⟨k, ?_, ?_⟩
  · rw [e2, List.drop_of_length_le (by omega), List.append_nil]
  · have hcl : h'.cipherLen ≤ k.length + p.secLen := by
      obtain ⟨_, _, _, _, _, _, _, g5, _, _⟩ := hrows i hi
      omega
    have := reproduce_enrolled kdf value reading key2 h' k p.secLen i hws (by omega)
      (by rw [f1, f3]; exact hsum) (by omega) (by omega) (by omega) (by omega) e4 hcl
      (by
        intro j hj
        obtain ⟨salt, mask, d, g1, g2, _, _, _, g6, g7⟩ := hrows j (by omega)
        exact ⟨salt, mask, d, g1, g2, by rw [f3]; exact g6, by rw [f3]; exact g7⟩)
      (hmatch h' · e1)
      (by
        intro j hj
        obtain ⟨pl, hp, hz⟩ := hbefore h' j e1 hj
        exact ⟨pl, hp, by rw [f1]; exact hz⟩)
    rw [e1, ← f1, this, List.drop_of_length_le (by omega), List.append_nil]

/-- Witness of C2, amended: `"AABBCCDDAABBCCDD"` is enrolled with two helpers
and reproduced from `"ABBBCCDDAABBCCDD"`; helper 0 does not unlock, the mask of
helper 1 hides the two flipped bits. -/
theorem feReproduce_closeReading_witness :
    ∃ k, (some demoKey : Option Bytes) = some k ∧
      feReproduce demoKdf (some fingerprintGood) (some zeroKey) 16 (some demoEnrolled) =
        some (0, some k) :=
  feReproduce_closeReading demoKdf demoTape 0 fingerprintOrig fingerprintGood zeroKey zeroKey
    emptyHelperData (demoProps (1 / 1000)) ⟨0, some demoKey, some demoEnrolled, 80⟩ 1
    (by decide) (by decide) (by decide) (by decide) (by decide) demo_generate rfl (by decide)
    (by
      intro h mask hh hm
      simp only [Option.some.injEq] at hh
      subst hh
      have : mask = [255, 252, 255, 255, 255, 255, 255, 255, 255, 255, 255, 255, 255, 255,
          255, 255] := by
        have h2 : rowAt demoEnrolled.masks 1 = some [255, 252, 255, 255, 255, 255, 255, 255,
          255, 255, 255, 255, 255, 255, 255, 255] := by decide
        rw [h2] at hm
        exact (Option.some.inj hm).symm
      subst this
      decide)
    (by
      intro h j hh hj
      simp only [Option.some.injEq] at hh
      subst hh
      have hj0 : j = 0 := by omega
      subst hj0
      refine ⟨[76, 117, 150, 183, 192, 9, 42, 75, 116, 157, 190, 223, 8, 49, 82, 115, 7, 5],
        by decide, fun hz => absurd hz (by decide)⟩)

/-- C3, the code at a failing input.  For the helper data enrolled from
`"AABBCCDDAABBCCDD"` and the reading `"A0B00CDDAABBCCDD"` of `testReproduceBad`,
both key derivations succeed and neither candidate plain text has all-zero
trailing bytes, yet `feReproduce` returns the success code 0 (and leaves the key
buffer as it was), where the claim, the header and the tests ask for a negative
code. -/
theorem feReproduce_noMatch_returns_zero :
    plainText demoKdf fingerprintBad demoEnrolled 0 =
        some [41, 30, 203, 24, 125, 162, 143, 172, 145, 102, 83, 0, 165, 138, 247, 212, 98, 110] ∧
      ¬ TrailingZero
        [41, 30, 203, 24, 125, 162, 143, 172, 145, 102, 83, 0, 165, 138, 247, 212, 98, 110] 16 ∧
      plainText demoKdf fingerprintBad demoEnrolled 1 =
        some [52, 17, 246, 27, 120, 165, 138, 175, 156, 121, 94, 3, 160, 141, 242, 215, 159, 97] ∧
      ¬ TrailingZero
        [52, 17, 246, 27, 120, 165, 138, 175, 156, 121, 94, 3, 160, 141, 242, 215, 159, 97] 16 ∧
      demoEnrolled.numHelpers = 2 ∧
      feReproduce demoKdf (some fingerprintBad) (some zeroKey) 16 (some demoEnrolled) =
        some (0, some zeroKey) := by
  refine ⟨by decide, by decide, by decide, by decide, rfl, by decide⟩

/-- C5 (idempotent, deterministic reproduction).  For every value, helper data,
key derivation function and initial contents of the key buffer (null pointers
and malformed helper data included), a second call of `feReproduce` with the
same value and helper data, on the key buffer as the first call left it, gives
the same return code and leaves the same bytes in the key buffer as the first
call did: running the two calls in sequence is the same as running one.  (Two
calls on equal arguments give equal results by construction, `feReproduce` and
the key derivation being functions.) -/
theorem feReproduce_idempotent (kdf : KDF) (value key : Option Bytes) (len : Nat)
    (h : Option HelperData) :
    (feReproduce kdf value key len h).bind (fun r => feReproduce kdf value r.2 len h) =
      feReproduce kdf value key len h := by
  cases value with
  | none => simp [feReproduce]
  | some value =>
    cases key with
    | none => simp [feReproduce]
    | some key =>
      cases h with
      | none => simp [feReproduce]
      | some h =>
        by_cases hl : h.length = len
        · simp only [feReproduce, ne_eq, hl, not_true_eq_false, if_false]
          cases hr : reproduceLoop kdf value key h 0 h.numHelpers with
          | none => simp
          | some res =>
            obtain ⟨c, k1⟩ := res
            have := reproduceLoop_idem kdf value h h.numHelpers 0 key k1 c hr
            simp [hl, this]
        · simp [feReproduce, hl]

/-- C6 (locker construction).  For every run of `feGenerate` that returns 0
with key `k` and helper data `h`, and every helper index `i < numHelpers`, the
cipher row `i` of `h` is `(k followed by secLen zero bytes) XOR
KDF (salt[i], value AND mask[i], cipherLen)`, bytewise, and has `cipherLen` bytes. -/
theorem feGenerate_locker (kdf : KDF) (tape : Tape) (pos : Nat) (value key : Bytes)
    (h0 : HelperData) (p : FEProperties) (r : GenResult) (i : Nat)
    (hkey : key.length = p.length)
    (hgen : feGenerate kdf tape pos (some value) (some key) p.length (some h0) (some p) = some r)
    (hret : r.ret = 0) (hi : i < p.numHelpers) :
    ∃ k h salt mask d, r.key = some k ∧ k.length = p.length ∧ r.h = some h ∧
      rowAt h.nonces i = some salt ∧ rowAt h.masks i = some mask ∧
      kdf salt (andBytes value mask) p.cipherLen = some d ∧
      rowAt h.ciphers i =
        some (xorBytes (k ++ List.replicate p.secLen 0) (digestBytes d p.cipherLen)) ∧
      (xorBytes (k ++ List.replicate p.secLen 0) (digestBytes d p.cipherLen)).length =
        p.cipherLen := by
  obtain ⟨_, _, h', k, e1, e2, e3, _, _, _, _, _, _, hrows⟩ :=
    feGenerate_success kdf tape pos value key p.length h0 p r hgen hret
  obtain ⟨salt, mask, d, g1, g2, _, _, g5, g6, g7⟩ := hrows i hi
  refine ⟨k, h', salt, mask, d, ?_, e3, e1, g1, g2, g6, g7, ?_⟩
  · rw [e2, List.drop_of_length_le (by omega), List.append_nil]
  · simp only [xorBytes, List.length_zipWith, List.length_append, List.length_replicate,
      digestBytes_length, e3]
    omega

/-- Witness of C6: helper 1 of the enrolment of `[65, 66, 67]` with `smallProps`. -/
theorem feGenerate_locker_witness :
    ∃ k h salt mask d, (some [137, 174, 211] : Option Bytes) = some k ∧ k.length = 3 ∧
      some smallEnrolled = some h ∧
      rowAt h.nonces 1 = some salt ∧ rowAt h.masks 1 = some mask ∧
      demoKdf salt (andBytes [65, 66, 67] mask) 6 = some d ∧
      rowAt h.ciphers 1 = some (xorBytes (k ++ List.replicate 3 0) (digestBytes d 6)) ∧
      (xorBytes (k ++ List.replicate 3 0) (digestBytes d 6)).length = 6 :=
  feGenerate_locker demoKdf demoTape 0 [65, 66, 67] [0, 0, 0] emptyHelperData
    (smallProps (1 / 1000)) ⟨0, some [137, 174, 211], some smallEnrolled, 41⟩ 1
    (by decide) small_generate rfl (by decide)

/-- C7 (first-unlock search).  For every value and well-shaped helper data `h`
(cipher rows at least as long as the value, security margin too short for the
`int` accumulator to wrap): if `j` is the lowest helper index whose candidate
plain text `plain = KDF (salt[j], value AND mask[j], cipherLen) XOR cipher[j]`
has all bytes at positions `length .. cipherLen - 1` equal to zero, the key
derivation succeeding for the helpers up to `j`, then `feReproduce` returns 0
and its key output is the leading `length` bytes of `plain`; and the same holds
for every well-shaped helper data `h2` of the same sizes that agrees with `h`
on the helpers up to `j`, whatever its later helpers are. -/
theorem feReproduce_firstUnlock (kdf : KDF) (value key : Bytes) (h h2 : HelperData) (j : Nat)
    (plain : Bytes) (hs : WellShaped h) (hle : h.length ≤ h.cipherLen)
    (hsum : (h.cipherLen - h.length) * 255 < 2 ^ 31) (hv : value.length = h.length)
    (hkey : key.length = h.length) (hj : j < h.numHelpers)
    (hbefore : ∀ i, i < j → ∃ pl, plainText kdf value h i = some pl ∧
      ¬ TrailingZero pl h.length)
    (hp : plainText kdf value h j = some plain) (hz : TrailingZero plain h.length)
    (hs2 : WellShaped h2) (hlen2 : h2.length = h.length) (hcl2 : h2.cipherLen = h.cipherLen)
    (hj2 : j < h2.numHelpers)
    (hsame : ∀ i, i ≤ j → rowAt h2.nonces i = rowAt h.nonces i ∧
      rowAt h2.masks i = rowAt h.masks i ∧ rowAt h2.ciphers i = rowAt h.ciphers i) :
    feReproduce kdf (some value) (some key) h.length (some h) =
        some (0, some (plain.take h.length)) ∧
      feReproduce kdf (some value) (some key) h.length (some h2) =
        some (0, some (plain.take h.length)) := by
  constructor
  · exact reproduce_firstUnlock kdf value key h j plain hs hle hsum (by omega) hkey hj hbefore
      hp hz
  · have hpt : ∀ i, i ≤ j → plainText kdf value h2 i = plainText kdf value h i := by
      intro i hi
      obtain ⟨a, b, c⟩ := hsame i hi
      exact plainText_congr kdf value h h2 i hcl2 a b c
    have := reproduce_firstUnlock kdf value key h2 j plain hs2 (by omega)
      (by rw [hcl2, hlen2]; exact hsum) (by omega) (by omega) hj2
      (by
        intro i hi
        rw [hpt i (by omega), hlen2]
        exact hbefore i hi)
      (by rw [hpt j (le_refl _)]; exact hp) (by rw [hlen2]; exact hz)
    rw [hlen2] at this
    exact this

/-- Witness of C7: the reading `"ABBBCCDDAABBCCDD"` on `demoEnrolled`, where
helper 0 stays locked and helper 1 unlocks, and on `demoEnrolledExtended`, which
has one more helper. -/
theorem feReproduce_firstUnlock_witness :
    feReproduce demoKdf (some fingerprintGood) (some zeroKey) demoEnrolled.length
        (some demoEnrolled) =
        some (0, some (List.take demoEnrolled.length
          [75, 112, 149, 186, 223, 4, 41, 78, 115, 152, 189, 226, 7, 44, 81, 118, 0, 0])) ∧
      feReproduce demoKdf (some fingerprintGood) (some zeroKey) demoEnrolled.length
        (some demoEnrolledExtended) =
        some (0, some (List.take demoEnrolled.length
          [75, 112, 149, 186, 223, 4, 41, 78, 115, 152, 189, 226, 7, 44, 81, 118, 0, 0])) :=
  feReproduce_firstUnlock demoKdf fingerprintGood zeroKey demoEnrolled demoEnrolledExtended 1
    [75, 112, 149, 186, 223, 4, 41, 78, 115, 152, 189, 226, 7, 44, 81, 118, 0, 0]
    (by decide) (by decide) (by decide) (by decide) (by decide) (by decide)
    (by
      intro i hi
      have hi0 : i = 0 := by omega
      subst hi0
      exact ⟨[76, 117, 150, 183, 192, 9, 42, 75, 116, 157, 190, 223, 8, 49, 82, 115, 7, 5],
        by decide, by decide⟩)
    (by decide) (by decide) (by decide) rfl rfl (by decide)
    (by
      intro i hi
      have hi01 : i = 0 ∨ i = 1 := by omega
      rcases hi01 with hi0 | hi1
      · subst hi0
        exact ⟨by decide, by decide, by decide⟩
      · subst hi1
        exact ⟨by decide, by decide, by decide⟩)

/-- C8 (shape invariant).  For every config (its `nonceLen` being the salt
length 16 of the key derivation function, as `initFEProperties` sets it), the
helper data after `allocateHelperData`, and the helper data after every run of
`feGenerate` that returns 0, has `length = config.length`,
`cipherLen = config.cipherLen`, `nonceLen = config.nonceLen = 16` and
`numHelpers = config.numHelpers`, and is well shaped: it holds exactly
`numHelpers` salts of `nonceLen` bytes, `numHelpers` masks of `length` bytes and
`numHelpers` ciphers of `cipherLen` bytes. -/
theorem helperData_shape (kdf : KDF) (tape : Tape) (pos : Nat) (value key : Bytes)
    (h0 : HelperData) (p : FEProperties) (r : GenResult)
    (hp : p.nonceLen = crypto_pwhash_SALTBYTES)
    (hgen : feGenerate kdf tape pos (some value) (some key) p.length (some h0) (some p) = some r)
    (hret : r.ret = 0) :
    ((allocateHelperData tape pos h0 p.length p.cipherLen p.numHelpers).1.length = p.length ∧
      (allocateHelperData tape pos h0 p.length p.cipherLen p.numHelpers).1.cipherLen =
        p.cipherLen ∧
      (allocateHelperData tape pos h0 p.length p.cipherLen p.numHelpers).1.nonceLen =
        p.nonceLen ∧
      (allocateHelperData tape pos h0 p.length p.cipherLen p.numHelpers).1.nonceLen = 16 ∧
      (allocateHelperData tape pos h0 p.length p.cipherLen p.numHelpers).1.numHelpers =
        p.numHelpers ∧
      WellShaped (allocateHelperData tape pos h0 p.length p.cipherLen p.numHelpers).1) ∧
    ∃ h, r.h = some h ∧ h.length = p.length ∧ h.cipherLen = p.cipherLen ∧
      h.nonceLen = p.nonceLen ∧ h.nonceLen = 16 ∧ h.numHelpers = p.numHelpers ∧
      WellShaped h := by
  constructor
  · exact ⟨rfl, rfl, hp.symm, rfl, rfl, allocateHelperData_wellShaped tape pos h0 _ _ _⟩
  · obtain ⟨_, _, h', k, e1, _, _, _, f1, f2, f3, f4, hws, _⟩ :=
      feGenerate_success kdf tape pos value key p.length h0 p r hgen hret
    exact ⟨h', e1, f1, f3, by rw [f2, hp], f2, f4, hws⟩

/-- Witness of C8: `allocateHelperData (h, 3, 6, 2)` as in
`testAllocateHelperData`, and the enrolment of `[65, 66, 67]` with those sizes. -/
theorem helperData_shape_witness :
    ((allocateHelperData demoTape 0 emptyHelperData 3 6 2).1.length = 3 ∧
      (allocateHelperData demoTape 0 emptyHelperData 3 6 2).1.cipherLen = 6 ∧
      (allocateHelperData demoTape 0 emptyHelperData 3 6 2).1.nonceLen = 16 ∧
      (allocateHelperData demoTape 0 emptyHelperData 3 6 2).1.nonceLen = 16 ∧
      (allocateHelperData demoTape 0 emptyHelperData 3 6 2).1.numHelpers = 2 ∧
      WellShaped (allocateHelperData demoTape 0 emptyHelperData 3 6 2).1) ∧
    ∃ h, some smallEnrolled = some h ∧ h.length = 3 ∧ h.cipherLen = 6 ∧
      h.nonceLen = 16 ∧ h.nonceLen = 16 ∧ h.numHelpers = 2 ∧ WellShaped h :=
  helperData_shape demoKdf demoTape 0 [65, 66, 67] [0, 0, 0] emptyHelperData
    (smallProps (1 / 1000)) ⟨0, some [137, 174, 211], some smallEnrolled, 41⟩ rfl
    small_generate rfl

/-- C9 (regression value of the derivation).  `initFEProperties` with
`length = 16`, `hamErr = 4`, `repErr = 0.001` yields `numHelpers = 599`, that is
`round (128 ^ (4 / ln 128) * log2 2000) = 599` over the reals, and
`cipherLen = 18 = length + secLen` with `secLen = 2`, and copies `length`,
`hamErr` and `repErr` unchanged. -/
theorem initFEProperties_regression :
    initFEProperties 16 4 0.001 =
        some { length := 16, hamErr := 4, repErr := 0.001, secLen := 2, nonceLen := 16,
               cipherLen := 18, numHelpers := 599 } ∧
      cRound ((128 : ℝ) ^ ((4 : ℝ) / Real.log 128) * Real.logb 2 2000) = 599 ∧
      (18 : ℕ) = 16 + 2 := by
  have hround := cRound_helpers_regression
  refine ⟨?_, ?_, rfl⟩
  · unfold initFEProperties
    rw [hround, toSizeT_of_bounds 599 (by norm_num) (by norm_num [SIZE_MOD])]
    simp [crypto_pwhash_SALTBYTES, SIZE_MOD]
  · have hh : helpersReal 16 4 0.001 = Real.exp 4 * Real.logb 2 2000 := by
      rw [helpersReal_of_bits 16 4 0.001 (by decide)]
      norm_num
    rw [rpow_div_log 128 4 (by norm_num), ← hh]
    exact hround

/-- C10, counterexample.  For `length = 2 ^ 64 - 1`, `hamErr = 0` and
`repErr = 1 / 2` the config of `initFEProperties` has `numHelpers = 2` and
`cipherLen = (length + 2) mod 2 ^ 64 = 1`, which is not above `length`. -/
theorem initFEProperties_cipherLen_wraps :
    initFEProperties 18446744073709551615 0 (1 / 2) =
        some { length := 18446744073709551615, hamErr := 0, repErr := 1 / 2, secLen := 2,
               nonceLen := 16, cipherLen := 1, numHelpers := 2 } ∧
      ¬ ((1 : ℕ) > 18446744073709551615) := by
  have hh : helpersReal 18446744073709551615 0 (1 / 2) = 2 := by
    unfold helpersReal
    have h4 : (2 : ℝ) / (1 / 2) = 2 ^ (2 : ℝ) := by norm_num
    simp only [Nat.cast_zero, zero_div, Real.rpow_zero, one_mul, h4]
    exact Real.logb_rpow (by norm_num) (by norm_num)
  have hr : cRound (2 : ℝ) = 2 := by
    apply cRound_eq_of_bounds <;> norm_num
  refine ⟨?_, by decide⟩
  unfold initFEProperties
  rw [hh, hr, toSizeT_of_bounds 2 (by norm_num) (by norm_num [SIZE_MOD])]
  simp [crypto_pwhash_SALTBYTES, SIZE_MOD]

/-- C10, amended (config invariant).  For every `length` with `0 < length` and
`length + 2 < 2 ^ 64`, every `hamErr >= 0` and every `repErr` in `(0, 1)`: every
config that `initFEProperties` computes (the conversion of the rounded helper
count to `size_t` being defined) has `numHelpers >= 1` and `cipherLen > length`;
and it computes one at least when `hamErr <= 32` and `repErr >= 2 ^ -1022`, the
least normal `double`, where `2.0 / repErr` is finite and the helper count is
far below `2 ^ 64`. -/
theorem initFEProperties_invariant (length hamErr : ℕ) (repErr : ℝ) (hlen : 0 < length)
    (hlen2 : length + 2 < 2 ^ 64) (h0 : 0 < repErr) (h1 : repErr < 1) :
    (∀ p, initFEProperties length hamErr repErr = some p →
        p.length = length ∧ 1 ≤ p.numHelpers ∧ p.length < p.cipherLen) ∧
      (hamErr ≤ 32 → 1 / 2 ^ 1022 ≤ repErr →
        ∃ p, initFEProperties length hamErr repErr = some p) := by
  constructor
  · intro p hp
    obtain ⟨f1, _, _, _, _, f6⟩ := initFEProperties_fields length hamErr repErr p hp
    have hn := initFEProperties_numHelpers length hamErr repErr p hp
    have hr := one_le_cRound _ (one_lt_helpersReal length hamErr repErr h0 h1)
    refine ⟨f1, by omega, ?_⟩
    rw [f1, f6]
    omega
  · intro hh hlo
    exact ⟨_, initFEProperties_exists length hamErr repErr hh hlo (by linarith)⟩

/-- Witness of C10, amended: the config of the tests, `length = 16`,
`hamErr = 4`, `repErr = 0.001`. -/
theorem initFEProperties_invariant_witness :
    ∃ p, initFEProperties 16 4 0.001 = some p ∧ p.length = 16 ∧
      1 ≤ p.numHelpers ∧ p.length < p.cipherLen :=
  have H := initFEProperties_invariant 16 4 0.001 (by norm_num) (by norm_num) (by norm_num)
    (by norm_num)
  match H.2 (by norm_num) (by norm_num) with
  | ⟨p, hp⟩ => ⟨p, hp, H.1 p hp⟩

/-- C4, counterexample.  For `length = 2 ^ 61` the `size_t` product
`bits = length * 8` wraps to 0, and `initFEProperties` with `hamErr = 3`,
`repErr = 1 / 2` derives `numHelpers = 2`.  Two values of that length that
differ in 3 bit positions are locked out by the fraction `(7 / 8) ^ 2 = 49 / 64`
of the pairs of masks, which is above `repErr`. -/
theorem noiseTolerance_counterexample :
    initFEProperties (2305843009213693951 + 1) 3 (1 / 2) =
        some { length := 2305843009213693951 + 1, hamErr := 3, repErr := 1 / 2, secLen := 2,
               nonceLen := 16, cipherLen := 2305843009213693954, numHelpers := 2 } ∧
      hammingDistance (List.replicate (2305843009213693951 + 1) 0)
        (7 :: List.replicate 2305843009213693951 0) = 3 ∧
      failFraction (2305843009213693951 + 1) 2 (List.replicate (2305843009213693951 + 1) 0)
        (7 :: List.replicate 2305843009213693951 0) = 49 / 64 ∧
      ¬ (((49 / 64 : ℚ) : ℝ) ≤ 1 / 2) := by
  obtain ⟨hd, hf⟩ := failFraction_three_bits 2305843009213693951
  refine ⟨?_, hd, hf, by norm_num⟩
  have hh : helpersReal (2305843009213693951 + 1) 3 (1 / 2) = 2 := by
    rw [helpersReal_of_no_bits _ _ _ (by norm_num [SIZE_MOD])]
    have h4 : (2 : ℝ) / (1 / 2) = 2 ^ (2 : ℝ) := by norm_num
    rw [h4]
    exact Real.logb_rpow (by norm_num) (by norm_num)
  have hr : cRound (2 : ℝ) = 2 := by
    apply cRound_eq_of_bounds <;> norm_num
  unfold initFEProperties
  rw [hh, hr, toSizeT_of_bounds 2 (by norm_num) (by norm_num [SIZE_MOD])]
  simp [crypto_pwhash_SALTBYTES, SIZE_MOD]

/-- C4, amended (noise-tolerance bound).  For every `length` with
`1 <= length < 2 ^ 61` (so that `bits = 8 * length` does not wrap), every
`hamErr`, every `repErr` in `(0, 1)`, with `n` the helper count of
`initFEProperties` taken over the reals (the rounded value of `helpers`), and
every pair of values `v`, `w` of `length` bytes that differ in at most `hamErr`
bit positions: the fraction of the equally likely tuples of `n` masks of
`length` bytes for which no mask `m_i` has `v AND m_i = w AND m_i` is
`(1 - 2 ^ (-d)) ^ n`, `d` being the number of differing bits, and it is at most
`repErr`. -/
theorem noiseTolerance_bound (length hamErr n : ℕ) (repErr : ℝ) (v w : Bytes)
    (hlen : 1 ≤ length) (hbits : length < 2 ^ 61) (h0 : 0 < repErr) (h1 : repErr < 1)
    (hv : v.length = length) (hw : w.length = length)
    (hd : hammingDistance v w ≤ hamErr)
    (hn : (n : ℤ) = cRound (helpersReal length hamErr repErr)) :
    failFraction length n v w = (1 - 1 / 2 ^ hammingDistance v w) ^ n ∧
      ((failFraction length n v w : ℚ) : ℝ) ≤ repErr := by
  have hfrac := failFraction_eq length n v w hv hw
  refine ⟨hfrac, ?_⟩
  have hb : 1 < (length * 8) % SIZE_MOD := by
    rw [Nat.mod_eq_of_lt (by simp only [SIZE_MOD]; omega)]
    omega
  rw [helpersReal_of_bits length hamErr repErr hb] at hn
  have := locked_fraction_bound hamErr (hammingDistance v w) n repErr h0 h1 hd hn
  rw [hfrac]
  push_cast
  exact this

/-- Witness of C4, amended: the config of the tests (`length = 16`,
`hamErr = 4`, `repErr = 0.001`, 599 helpers) and a reading with the four bits
`0xAA` of byte 0 flipped, as in `testReproduceFuzzyHamErr4`: the fraction is
`(15 / 16) ^ 599`. -/
theorem noiseTolerance_bound_witness :
    hammingDistance fingerprintOrig (235 :: fingerprintOrig.tail) = 4 ∧
      failFraction 16 599 fingerprintOrig (235 :: fingerprintOrig.tail) =
        (1 - 1 / 2 ^ hammingDistance fingerprintOrig (235 :: fingerprintOrig.tail)) ^ 599 ∧
      ((failFraction 16 599 fingerprintOrig (235 :: fingerprintOrig.tail) : ℚ) : ℝ) ≤ 0.001 :=
  ⟨by decide,
    noiseTolerance_bound 16 4 599 0.001 fingerprintOrig (235 :: fingerprintOrig.tail)
      (by norm_num) (by norm_num) (by norm_num) (by norm_num) (by decide) (by decide)
      (by decide) (by rw [cRound_helpers_regression]; norm_num)⟩

/-- C11, counterexample.  `initFEProperties` produces a config for
`length = 0` (with `hamErr = 4`, `repErr = 1 / 2`: `cipherLen = 2`,
`numHelpers = 2`) and for `repErr = 1`, which is not in the open interval
`(0, 1)` (with `length = 16`, `hamErr = 0`: `numHelpers = 1`). -/
theorem initFEProperties_accepts_invalid :
    initFEProperties 0 4 (1 / 2) =
        some { length := 0, hamErr := 4, repErr := 1 / 2, secLen := 2, nonceLen := 16,
               cipherLen := 2, numHelpers := 2 } ∧
      initFEProperties 16 0 1 =
        some { length := 16, hamErr := 0, repErr := 1, secLen := 2, nonceLen := 16,
               cipherLen := 18, numHelpers := 1 } := by
  have hh1 : helpersReal 0 4 (1 / 2) = 2 := by
    rw [helpersReal_of_no_bits _ _ _ (by norm_num [SIZE_MOD])]
    have h4 : (2 : ℝ) / (1 / 2) = 2 ^ (2 : ℝ) := by norm_num
    rw [h4]
    exact Real.logb_rpow (by norm_num) (by norm_num)
  have hh2 : helpersReal 16 0 1 = 1 := by
    rw [helpersReal_of_bits 16 0 1 (by decide)]
    simp
  have hr1 : cRound (2 : ℝ) = 2 := by
    apply cRound_eq_of_bounds <;> norm_num
  have hr2 : cRound (1 : ℝ) = 1 := by
    apply cRound_eq_of_bounds <;> norm_num
  constructor
  · rw [initFEProperties_of_round 0 4 (1 / 2) (by rw [hh1, hr1]; norm_num)
      (by rw [hh1, hr1]; norm_num), hh1, hr1]
    simp [crypto_pwhash_SALTBYTES, SIZE_MOD]
  · rw [initFEProperties_of_round 16 0 1 (by rw [hh2, hr2]; norm_num)
      (by rw [hh2, hr2]; norm_num), hh2, hr2]
    simp [crypto_pwhash_SALTBYTES, SIZE_MOD]

/-- C11, amended (no validation).  `initFEProperties` has no failure outcome
and validates nothing: every config it produces has `length`, `hamErr` and
`repErr` copied, `secLen = 2`, `nonceLen = 16` and
`cipherLen = (length + 2) mod 2 ^ 64`; and it produces one for every `length`
(0 included), every `hamErr <= 32` and every `repErr` from `2 ^ -1022` to 2
(so also for `repErr` from 1 to 2, outside `(0, 1)`), with `numHelpers = 0` at
`repErr = 2`. -/
theorem initFEProperties_no_validation (length hamErr : ℕ) (repErr : ℝ) :
    (∀ p, initFEProperties length hamErr repErr = some p →
        p.length = length ∧ p.hamErr = hamErr ∧ p.repErr = repErr ∧ p.secLen = 2 ∧
          p.nonceLen = 16 ∧ p.cipherLen = (length + 2) % 2 ^ 64) ∧
      (hamErr ≤ 32 → 1 / 2 ^ 1022 ≤ repErr → repErr ≤ 2 →
        ∃ n, initFEProperties length hamErr repErr =
            some { length := length, hamErr := hamErr, repErr := repErr, secLen := 2,
                   nonceLen := 16, cipherLen := (length + 2) % 2 ^ 64, numHelpers := n } ∧
          (repErr = 2 → n = 0)) := by
  refine ⟨initFEProperties_fields length hamErr repErr, ?_⟩
  intro hh hlo hhi
  refine ⟨_, initFEProperties_exists length hamErr repErr hh hlo hhi, ?_⟩
  intro h2
  have hr : cRound (0 : ℝ) = 0 := by
    apply cRound_eq_of_bounds <;> norm_num
  rw [h2, helpersReal_zero_of_two, hr]
  rfl

/-- Witness of C11, amended: `length = 0`, `hamErr = 0`, `repErr = 2`, where
`helpers = log2 1 = 0` and the config has `numHelpers = 0`. -/
theorem initFEProperties_no_validation_witness :
    ∃ n, initFEProperties 0 0 2 =
        some { length := 0, hamErr := 0, repErr := 2, secLen := 2,
               nonceLen := 16, cipherLen := (0 + 2) % 2 ^ 64, numHelpers := n } ∧
      ((2 : ℝ) = 2 → n = 0) :=
  (initFEProperties_no_validation 0 0 2).2 (by norm_num) (by norm_num) (by norm_num)

/-- C12 (monotonicity of the helper count).  For every `length`, the helper
count of `initFEProperties` over the reals (the rounded value of `helpers`) is
non-decreasing in `hamErr` for every `repErr` in `(0, 1)`, and non-increasing
in `repErr` on `(0, 1)` for every `hamErr`; and so is `numHelpers` of the
configs, where `initFEProperties` produces them. -/
theorem numHelpers_monotone (length t t' : ℕ) (e e' : ℝ) (h0 : 0 < e) (he : e ≤ e')
    (h1 : e' < 1) (ht : t ≤ t') :
    cRound (helpersReal length t e) ≤ cRound (helpersReal length t' e) ∧
      cRound (helpersReal length t e') ≤ cRound (helpersReal length t e) ∧
      (∀ p p', initFEProperties length t e = some p →
        initFEProperties length t' e = some p' → p.numHelpers ≤ p'.numHelpers) ∧
      (∀ p p', initFEProperties length t e = some p →
        initFEProperties length t e' = some p' → p'.numHelpers ≤ p.numHelpers) := by
  have m1 := cRound_mono _ _ (helpersReal_mono_hamErr length t t' e h0 (by linarith) ht)
  have m2 := cRound_mono _ _ (helpersReal_anti_repErr length t e e' h0 he)
  refine ⟨m1, m2, ?_, ?_⟩
  · intro p p' hp hp'
    have a := initFEProperties_numHelpers _ _ _ _ hp
    have b := initFEProperties_numHelpers _ _ _ _ hp'
    omega
  · intro p p' hp hp'
    have a := initFEProperties_numHelpers _ _ _ _ hp
    have b := initFEProperties_numHelpers _ _ _ _ hp'
    omega

/-- Witness of C12: `length = 16`, `hamErr` 4 against 5, `repErr` 0.001 against 0.01. -/
theorem numHelpers_monotone_witness :
    cRound (helpersReal 16 4 0.001) ≤ cRound (helpersReal 16 5 0.001) ∧
      cRound (helpersReal 16 4 0.01) ≤ cRound (helpersReal 16 4 0.001) :=
  ⟨(numHelpers_monotone 16 4 5 0.001 0.01 (by norm_num) (by norm_num) (by norm_num)
      (by norm_num)).1,
    (numHelpers_monotone 16 4 5 0.001 0.01 (by norm_num) (by norm_num) (by norm_num)
      (by norm_num)).2.1⟩

/-- C13 (generate length mismatch).  For all non-null arguments with
`len != config.length`, `feGenerate` returns -2 and changes neither the key
buffer nor the helper data, and draws no random bytes (the tape position is
the one before the call). -/
theorem feGenerate_lengthMismatch (kdf : KDF) (tape : Tape) (pos : Nat) (value key : Bytes)
    (len : Nat) (h : HelperData) (p : FEProperties) (hlen : p.length ≠ len) :
    feGenerate kdf tape pos (some value) (some key) len (some h) (some p) =
      some ⟨-2, some key, some h, pos⟩ := by
  simp [feGenerate, hlen]

/-- Witness of C13: a value of 3 bytes against the config of length 16, on
enrolled helper data. -/
theorem feGenerate_lengthMismatch_witness :
    feGenerate demoKdf demoTape 0 (some [65, 66, 67]) (some [1, 2, 3]) 3 (some demoEnrolled)
        (some (demoProps (1 / 1000))) =
      some ⟨-2, some [1, 2, 3], some demoEnrolled, 0⟩ :=
  feGenerate_lengthMismatch demoKdf demoTape 0 [65, 66, 67] [1, 2, 3] 3 demoEnrolled
    (demoProps (1 / 1000)) (by decide)

/-- C14, counterexample.  The enrolment of `"AABBCCDDAABBCCDD"` with two
helpers and a key derivation that fails at helper 1 returns -3 and leaves the
helper data allocated, with both salts and masks, the cipher of helper 0
locked and the cipher of helper 1 zero, and leaves the freshly drawn key in the
key buffer, which held zeros.  And a call with a value of the wrong length
returns -2 and leaves the old enrolment `demoEnrolled` in the helper data. -/
theorem feGenerate_failure_keeps_data :
    feGenerate (failingKdf 171) demoTape 0 (some fingerprintOrig) (some zeroKey) 16
        (some emptyHelperData) (some (demoProps (1 / 1000))) =
      some ⟨-3, some demoKey,
        some (demoHelperData
          [[217, 233, 53, 29, 113, 177, 149, 141, 185, 73, 101, 61, 225, 193, 165, 141, 2, 9],
           List.replicate 18 0]), 80⟩ ∧
      WellShaped (demoHelperData
        [[217, 233, 53, 29, 113, 177, 149, 141, 185, 73, 101, 61, 225, 193, 165, 141, 2, 9],
         List.replicate 18 0]) ∧
      demoKey ≠ zeroKey ∧
      feGenerate demoKdf demoTape 0 (some [65, 66, 67]) (some zeroKey) 3 (some demoEnrolled)
          (some (demoProps (1 / 1000))) =
        some ⟨-2, some zeroKey, some demoEnrolled, 0⟩ ∧
      WellShaped demoEnrolled := by
  refine ⟨by decide, by decide, by decide, by decide, by decide⟩

/-- C14, amended (state after a failed generate).  For every call of
`feGenerate` on non-null arguments that returns a nonzero code, either the code
is -2, the lengths differ, and helper data, key buffer and tape position are
exactly as before the call; or the code is -3, and the helper data is the
freshly allocated one, not released: it is well shaped, with the sizes of the
config and its `numHelpers` helper records, and the key buffer holds the
freshly drawn key.  `feGenerate` releases nothing on failure. -/
theorem feGenerate_failure_state (kdf : KDF) (tape : Tape) (pos : Nat) (value key : Bytes)
    (len : Nat) (h0 : HelperData) (p : FEProperties) (r : GenResult)
    (hgen : feGenerate kdf tape pos (some value) (some key) len (some h0) (some p) = some r)
    (hne : r.ret ≠ 0) :
    (r.ret = -2 ∧ p.length ≠ len ∧ r.h = some h0 ∧ r.key = some key ∧ r.pos = pos) ∨
      (r.ret = -3 ∧ p.length = len ∧
        r.key = some ((randombytes_buf tape
          (pos + p.numHelpers * (crypto_pwhash_SALTBYTES + len)) len).1 ++ key.drop len) ∧
        r.pos = pos + p.numHelpers * (crypto_pwhash_SALTBYTES + len) + len ∧
        ∃ h, r.h = some h ∧ h.length = p.length ∧ h.cipherLen = p.cipherLen ∧
          h.numHelpers = p.numHelpers ∧ WellShaped h) := by
  by_cases hl : p.length = len
  · right
    subst hl
    obtain ⟨e0, _, e2, e3, h', f1, f2, _, f4, f5, f6, _⟩ :=
      feGenerate_result kdf tape pos value key h0 p r hgen
    rcases e0 with e0 | e0
    · exact absurd e0 hne
    · exact ⟨e0, rfl, e2, e3, h', f1, f2, f4, f5, f6⟩
  · left
    simp only [feGenerate, ne_eq, hl, not_false_eq_true, if_true, Option.some.injEq] at hgen
    subst hgen
    exact ⟨rfl, hl, rfl, rfl, rfl⟩

/-- Witness of C14, amended: the enrolment of `[65, 66, 67]` with `smallProps`
and a key derivation that fails at helper 0. -/
theorem feGenerate_failure_state_witness :
    ((-3 : ℤ) = -2 ∧ (smallProps (1 / 1000)).length ≠ 3 ∧
        some { smallEnrolled with ciphers := some [List.replicate 6 0, List.replicate 6 0] } =
          some emptyHelperData ∧
        (some [137, 174, 211] : Option Bytes) = some [0, 0, 0] ∧ 41 = 0) ∨
      ((-3 : ℤ) = -3 ∧ (smallProps (1 / 1000)).length = 3 ∧
        (some [137, 174, 211] : Option Bytes) = some ((randombytes_buf demoTape
          (0 + (smallProps (1 / 1000)).numHelpers * (crypto_pwhash_SALTBYTES + 3)) 3).1 ++
            List.drop 3 [0, 0, 0]) ∧
        41 = 0 + (smallProps (1 / 1000)).numHelpers * (crypto_pwhash_SALTBYTES + 3) + 3 ∧
        ∃ h, some { smallEnrolled with
            ciphers := some [List.replicate 6 0, List.replicate 6 0] } = some h ∧
          h.length = (smallProps (1 / 1000)).length ∧
          h.cipherLen = (smallProps (1 / 1000)).cipherLen ∧
          h.numHelpers = (smallProps (1 / 1000)).numHelpers ∧ WellShaped h) :=
  feGenerate_failure_state (failingKdf 11) demoTape 0 [65, 66, 67] [0, 0, 0] 3 emptyHelperData
    (smallProps (1 / 1000))
    ⟨-3, some [137, 174, 211],
      some { smallEnrolled with ciphers := some [List.replicate 6 0, List.replicate 6 0] }, 41⟩
    small_generate_failing (by decide)

/-- C15 (a failing key derivation aborts the reproduction).  For every value
and well-shaped helper data `h` (cipher rows at least as long as the value,
security margin too short for the `int` accumulator to wrap): if the key
derivation fails at helper `i` and no helper with a lower index unlocks, then
`feReproduce` returns -3 and leaves the key buffer as it was; and so it does
for every well-shaped helper data `h2` of the same sizes that agrees with `h`
on the helpers up to `i`, whatever its later helpers are: they are not
examined, the failure is not a skip of one helper. -/
theorem feReproduce_kdfFailure (kdf : KDF) (value key : Bytes) (h h2 : HelperData) (i : Nat)
    (salt mask : Bytes) (hs : WellShaped h) (hle : h.length ≤ h.cipherLen)
    (hsum : (h.cipherLen - h.length) * 255 < 2 ^ 31) (hv : value.length = h.length)
    (hi : i < h.numHelpers)
    (hbefore : ∀ j, j < i → ∃ pl, plainText kdf value h j = some pl ∧
      ¬ TrailingZero pl h.length)
    (hsalt : rowAt h.nonces i = some salt) (hmask : rowAt h.masks i = some mask)
    (hfail : kdf salt (andBytes value mask) h.cipherLen = none)
    (hs2 : WellShaped h2) (hlen2 : h2.length = h.length) (hcl2 : h2.cipherLen = h.cipherLen)
    (hi2 : i < h2.numHelpers)
    (hsame : ∀ j, j ≤ i → rowAt h2.nonces j = rowAt h.nonces j ∧
      rowAt h2.masks j = rowAt h.masks j ∧ rowAt h2.ciphers j = rowAt h.ciphers j) :
    feReproduce kdf (some value) (some key) h.length (some h) = some (-3, some key) ∧
      feReproduce kdf (some value) (some key) h.length (some h2) = some (-3, some key) := by
  have hnone := plainText_none_of_kdf kdf value h i salt mask hsalt hmask hfail
  constructor
  · exact reproduce_kdfFailure kdf value key h i hs hle hsum (by omega) hi hbefore hnone
  · have hpt : ∀ j, j ≤ i → plainText kdf value h2 j = plainText kdf value h j := by
      intro j hj
      obtain ⟨a, b, c⟩ := hsame j hj
      exact plainText_congr kdf value h h2 j hcl2 a b c
    have := reproduce_kdfFailure kdf value key h2 i hs2 (by omega)
      (by rw [hcl2, hlen2]; exact hsum) (by omega) hi2
      (by
        intro j hj
        rw [hpt j (by omega), hlen2]
        exact hbefore j hj)
      (by rw [hpt i (le_refl _)]; exact hnone)
    rw [hlen2] at this
    exact this

/-- Witness of C15.  First the reading `"ABBBCCDDAABBCCDD"` with a key
derivation that fails at helper 1, helper 0 staying locked, on `demoEnrolled`
and on `demoEnrolledExtended`, which has one more helper.  Then the enrolled
value with a key derivation that fails at helper 0, where helper 1 would unlock. -/
theorem feReproduce_kdfFailure_witness :
    (feReproduce (failingKdf 171) (some fingerprintGood) (some zeroKey) demoEnrolled.length
        (some demoEnrolled) = some (-3, some zeroKey) ∧
      feReproduce (failingKdf 171) (some fingerprintGood) (some zeroKey) demoEnrolled.length
        (some demoEnrolledExtended) = some (-3, some zeroKey)) ∧
    (feReproduce (failingKdf 11) (some fingerprintOrig) (some zeroKey) demoEnrolled.length
        (some demoEnrolled) = some (-3, some zeroKey) ∧
      feReproduce (failingKdf 11) (some fingerprintOrig) (some zeroKey) demoEnrolled.length
        (some demoEnrolled) = some (-3, some zeroKey)) ∧
    plainText (failingKdf 11) fingerprintOrig demoEnrolled 1 =
      some [75, 112, 149, 186, 223, 4, 41, 78, 115, 152, 189, 226, 7, 44, 81, 118, 0, 0] :=
  ⟨feReproduce_kdfFailure (failingKdf 171) fingerprintGood zeroKey demoEnrolled
      demoEnrolledExtended 1
      [171, 208, 245, 26, 63, 100, 137, 174, 211, 248, 29, 66, 103, 140, 177, 214]
      [255, 252, 255, 255, 255, 255, 255, 255, 255, 255, 255, 255, 255, 255, 255, 255]
      (by decide) (by decide) (by decide) (by decide) (by decide)
      (by
        intro j hj
        have hj0 : j = 0 := by omega
        subst hj0
        exact ⟨[76, 117, 150, 183, 192, 9, 42, 75, 116, 157, 190, 223, 8, 49, 82, 115, 7, 5],
          by decide, by decide⟩)
      (by decide) (by decide) rfl (by decide) rfl rfl (by decide)
      (by
        intro j hj
        have hj01 : j = 0 ∨ j = 1 := by omega
        rcases hj01 with hj0 | hj1
        · subst hj0
          exact ⟨by decide, by decide, by decide⟩
        · subst hj1
          exact ⟨by decide, by decide, by decide⟩),
    feReproduce_kdfFailure (failingKdf 11) fingerprintOrig zeroKey demoEnrolled demoEnrolled 0
      [11, 48, 85, 122, 159, 196, 233, 14, 51, 88, 125, 162, 199, 236, 17, 54]
      [255, 255, 255, 255, 255, 255, 255, 255, 255, 255, 255, 255, 255, 255, 255, 255]
      (by decide) (by decide) (by decide) (by decide) (by decide)
      (by
        intro j hj
        omega)
      (by decide) (by decide) rfl (by decide) rfl rfl (by decide)
      (fun _ _ => ⟨rfl, rfl, rfl⟩),
    by decide⟩

/-- C16 (the key does not depend on the value).  For every config, every tape
and tape position and every two values, key buffers of `length` bytes and
previous helper data: two runs of `feGenerate` that pass the length check (two
runs that return 0 in particular) leave the same key, the same salts and the
same masks, and the same tape position; only the ciphers may differ.  The tape is consumed as `salt_0, mask_0, ...,
salt_(n-1), mask_(n-1)`, then the key: salt `i` is the 16 bytes at
`pos + i * (16 + length)`, mask `i` the `length` bytes after it, and the key the
`length` bytes at `pos + numHelpers * (16 + length)`. -/
theorem feGenerate_key_independent (kdf : KDF) (tape : Tape) (pos : Nat)
    (v1 v2 key1 key2 : Bytes) (h01 h02 : HelperData) (p : FEProperties) (r1 r2 : GenResult)
    (hk1 : key1.length = p.length) (hk2 : key2.length = p.length)
    (hg1 : feGenerate kdf tape pos (some v1) (some key1) p.length (some h01) (some p) = some r1)
    (hg2 : feGenerate kdf tape pos (some v2) (some key2) p.length (some h02) (some p) =
      some r2) :
    r1.key = r2.key ∧ r1.pos = r2.pos ∧
      r1.key = some (randombytes_buf tape (pos + p.numHelpers * (16 + p.length)) p.length).1 ∧
      ∃ ha hb, r1.h = some ha ∧ r2.h = some hb ∧ ha.nonces = hb.nonces ∧
        ha.masks = hb.masks ∧
        ∀ i, i < p.numHelpers →
          rowAt ha.nonces i = some (randombytes_buf tape (pos + i * (16 + p.length)) 16).1 ∧
          rowAt ha.masks i =
            some (randombytes_buf tape (pos + i * (16 + p.length) + 16) p.length).1 := by
  obtain ⟨_, _, a2, a3, ha, a4, _, _, _, _, _, a9, a10, a11⟩ :=
    feGenerate_result kdf tape pos v1 key1 h01 p r1 hg1
  obtain ⟨_, _, b2, b3, hb, b4, _, _, _, _, _, b9, b10, _⟩ :=
    feGenerate_result kdf tape pos v2 key2 h02 p r2 hg2
  rw [List.drop_of_length_le (by omega), List.append_nil] at a2 b2
  refine ⟨by rw [a2, b2], by rw [a3, b3], a2, ha, hb, a4, b4, by rw [a9, b9],
    by rw [a10, b10], a11⟩

/-- Witness of C16: the enrolments of `[65, 66, 67]` and of `[65, 66, 68]`
with `smallProps`, from the same tape. -/
theorem feGenerate_key_independent_witness :
    (some [137, 174, 211] : Option Bytes) = some [137, 174, 211] ∧ 41 = 41 ∧
      (some [137, 174, 211] : Option Bytes) =
        some (randombytes_buf demoTape (0 + (smallProps (1 / 1000)).numHelpers *
          (16 + (smallProps (1 / 1000)).length)) (smallProps (1 / 1000)).length).1 ∧
      ∃ ha hb, some smallEnrolled = some ha ∧
        some { smallEnrolled with
          ciphers := some [[234, 196, 162, 120, 127, 134], [178, 236, 154, 80, 87, 94]] } =
          some hb ∧
        ha.nonces = hb.nonces ∧ ha.masks = hb.masks ∧
        ∀ i, i < (smallProps (1 / 1000)).numHelpers →
          rowAt ha.nonces i = some (randombytes_buf demoTape
            (0 + i * (16 + (smallProps (1 / 1000)).length)) 16).1 ∧
          rowAt ha.masks i = some (randombytes_buf demoTape
            (0 + i * (16 + (smallProps (1 / 1000)).length) + 16)
            (smallProps (1 / 1000)).length).1 :=
  feGenerate_key_independent demoKdf demoTape 0 [65, 66, 67] [65, 66, 68] [0, 0, 0] [0, 0, 0]
    emptyHelperData demoEnrolled (smallProps (1 / 1000))
    ⟨0, some [137, 174, 211], some smallEnrolled, 41⟩
    ⟨0, some [137, 174, 211],
      some { smallEnrolled with
        ciphers := some [[234, 196, 162, 120, 127, 134], [178, 236, 154, 80, 87, 94]] }, 41⟩
    (by decide) (by decide) small_generate small_generate_other

/-- C17 (release is idempotent and safe on empty data).  `freeHelperData` on
helper data after `initHelperData` leaves it unchanged; on every helper data it
gives the same state when applied twice as when applied once, the second call
changing nothing; and on helper data after `allocateHelperData` it leaves all
three arrays null. -/
theorem freeHelperData_idempotent (tape : Tape) (pos : Nat) (h : HelperData)
    (length cipherLen numHelpers : Nat) :
    freeHelperData (initHelperData h) = initHelperData h ∧
      freeHelperData (freeHelperData h) = freeHelperData h ∧
      (freeHelperData (allocateHelperData tape pos h length cipherLen numHelpers).1).nonces
        = none ∧
      (freeHelperData (allocateHelperData tape pos h length cipherLen numHelpers).1).masks
        = none ∧
      (freeHelperData (allocateHelperData tape pos h length cipherLen numHelpers).1).ciphers
        = none := by
  refine ⟨rfl, ?_, rfl, rfl, rfl⟩
  unfold freeHelperData
  by_cases hc : (h.nonces.isSome && h.masks.isSome && h.ciphers.isSome) = true
  · simp [hc]
  · simp [hc]

/-- C18, counterexample.  In the enrolment of `"AABBCCDDAABBCCDD"` with
`demoKdf`, whose digest depends on the password only through its byte sum, the
candidate plain text of helper 0 for the reading `"ABABCCDDAABBCCDD"` is the
padded key, although the reading under the mask of helper 0 is not the enrolled
value under that mask. -/
theorem plainText_paddedKey_other_input :
    feGenerate demoKdf demoTape 0 (some fingerprintOrig) (some zeroKey) 16
        (some emptyHelperData) (some (demoProps (1 / 1000))) =
      some ⟨0, some demoKey, some demoEnrolled, 80⟩ ∧
      plainText demoKdf fingerprintSwapped demoEnrolled 0 =
        some (demoKey ++ List.replicate 2 0) ∧
      rowAt demoEnrolled.masks 0 = some (List.replicate 16 255) ∧
      andBytes fingerprintSwapped (List.replicate 16 255) ≠
        andBytes fingerprintOrig (List.replicate 16 255) := by
  refine ⟨demo_generate, by decide, by decide, by decide⟩

/-- C18, amended (unlock iff the digests agree).  For every helper `i` of
helper data produced by a run of `feGenerate (v, config)` that returns 0 with
key `k`, and every reading `v'`: the candidate plain text of helper `i`,
`KDF (salt_i, v' AND mask_i) XOR cipher_i`, equals the padded key
`k || zeros (secLen)` (its first `cipherLen` bytes, which are all of it when
`cipherLen = length + secLen`) if and only if the key derivation succeeds on
`v' AND mask_i` with the same `cipherLen` digest bytes as on `v AND mask_i`;
this is so, in particular, when `v' AND mask_i` is identical to `v AND mask_i`. -/
theorem plainText_paddedKey_iff (kdf : KDF) (tape : Tape) (pos : Nat)
    (value reading key : Bytes) (h0 : HelperData) (p : FEProperties) (r : GenResult) (i : Nat)
    (hkey : key.length = p.length)
    (hgen : feGenerate kdf tape pos (some value) (some key) p.length (some h0) (some p) = some r)
    (hret : r.ret = 0) (hi : i < p.numHelpers) :
    ∃ k h salt mask d, r.key = some k ∧ r.h = some h ∧ rowAt h.nonces i = some salt ∧
      rowAt h.masks i = some mask ∧ kdf salt (andBytes value mask) p.cipherLen = some d ∧
      (plainText kdf reading h i = some ((k ++ List.replicate p.secLen 0).take p.cipherLen) ↔
        ∃ d', kdf salt (andBytes reading mask) p.cipherLen = some d' ∧
          digestBytes d' p.cipherLen = digestBytes d p.cipherLen) ∧
      (andBytes reading mask = andBytes value mask →
        plainText kdf reading h i =
          some ((k ++ List.replicate p.secLen 0).take p.cipherLen)) := by
  obtain ⟨_, _, h', k, e1, e2, e3, e4, _, _, f3, _, _, hrows⟩ :=
    feGenerate_success kdf tape pos value key p.length h0 p r hgen hret
  obtain ⟨salt, mask, d, g1, g2, _, _, g5, g6, g7⟩ := hrows i hi
  have hiff := plainText_locked_iff kdf reading h' i salt mask d k p.secLen g1 g2
    (by rw [f3]; exact g7) e4 (by omega)
  rw [f3] at hiff
  refine ⟨k, h', salt, mask, d, ?_, e1, g1, g2, g6, hiff, ?_⟩
  · rw [e2, List.drop_of_length_le (by omega), List.append_nil]
  · intro hm
    rw [hiff, hm]
    exact ⟨d, g6, rfl⟩

/-- Witness of C18, amended: helper 0 of `demoEnrolled` and the reading
`"ABABCCDDAABBCCDD"`. -/
theorem plainText_paddedKey_iff_witness :
    ∃ k h salt mask d, (some demoKey : Option Bytes) = some k ∧ some demoEnrolled = some h ∧
      rowAt h.nonces 0 = some salt ∧ rowAt h.masks 0 = some mask ∧
      demoKdf salt (andBytes fingerprintOrig mask) (demoProps (1 / 1000)).cipherLen = some d ∧
      (plainText demoKdf fingerprintSwapped h 0 =
          some ((k ++ List.replicate (demoProps (1 / 1000)).secLen 0).take
            (demoProps (1 / 1000)).cipherLen) ↔
        ∃ d', demoKdf salt (andBytes fingerprintSwapped mask)
            (demoProps (1 / 1000)).cipherLen = some d' ∧
          digestBytes d' (demoProps (1 / 1000)).cipherLen =
            digestBytes d (demoProps (1 / 1000)).cipherLen) ∧
      (andBytes fingerprintSwapped mask = andBytes fingerprintOrig mask →
        plainText demoKdf fingerprintSwapped h 0 =
          some ((k ++ List.replicate (demoProps (1 / 1000)).secLen 0).take
            (demoProps (1 / 1000)).cipherLen)) :=
  plainText_paddedKey_iff demoKdf demoTape 0 fingerprintOrig fingerprintSwapped zeroKey
    emptyHelperData (demoProps (1 / 1000)) ⟨0, some demoKey, some demoEnrolled, 80⟩ 0
    (by decide) demo_generate rfl (by decide)

/-- C19, counterexample.  For the helper data enrolled from
`"AABBCCDDAABBCCDD"` (two helpers) and the reading `"A0B00CDDAABBCCDD"`, no
helper unlocks and `feReproduce` returns 0, but the key buffer, which held the
bytes 1 to 16, still holds them: they are not the leading 16 bytes of the
candidate plain text of the last helper. -/
theorem feReproduce_fallthrough_keeps_key :
    demoEnrolled.numHelpers = 2 ∧
      ¬ TrailingZero
        [41, 30, 203, 24, 125, 162, 143, 172, 145, 102, 83, 0, 165, 138, 247, 212, 98, 110] 16 ∧
      plainText demoKdf fingerprintBad demoEnrolled 0 =
        some [41, 30, 203, 24, 125, 162, 143, 172, 145, 102, 83, 0, 165, 138, 247, 212, 98, 110] ∧
      ¬ TrailingZero
        [52, 17, 246, 27, 120, 165, 138, 175, 156, 121, 94, 3, 160, 141, 242, 215, 159, 97] 16 ∧
      plainText demoKdf fingerprintBad demoEnrolled 1 =
        some [52, 17, 246, 27, 120, 165, 138, 175, 156, 121, 94, 3, 160, 141, 242, 215, 159, 97] ∧
      feReproduce demoKdf (some fingerprintBad)
          (some [1, 2, 3, 4, 5, 6, 7, 8, 9, 10, 11, 12, 13, 14, 15, 16]) 16
          (some demoEnrolled) =
        some (0, some [1, 2, 3, 4, 5, 6, 7, 8, 9, 10, 11, 12, 13, 14, 15, 16]) ∧
      [1, 2, 3, 4, 5, 6, 7, 8, 9, 10, 11, 12, 13, 14, 15, 16] ≠
        List.take 16
          [52, 17, 246, 27, 120, 165, 138, 175, 156, 121, 94, 3, 160, 141, 242, 215, 159, 97] := by
  refine ⟨rfl, by decide, by decide, by decide, by decide, by decide, by decide⟩

/-- C19, amended (fallthrough result).  For every value and well-shaped helper
data (cipher rows at least as long as the value, security margin too short for
the `int` accumulator to wrap) in which the key derivation succeeds for every
helper and no helper unlocks, `feReproduce` returns 0 and its key output is
the key buffer exactly as it was before the call: no candidate plain text is
copied into it. -/
theorem feReproduce_fallthrough (kdf : KDF) (value key : Bytes) (h : HelperData)
    (hs : WellShaped h) (hle : h.length ≤ h.cipherLen)
    (hsum : (h.cipherLen - h.length) * 255 < 2 ^ 31) (hv : value.length = h.length)
    (hnone : ∀ j, j < h.numHelpers → ∃ pl, plainText kdf value h j = some pl ∧
      ¬ TrailingZero pl h.length) :
    feReproduce kdf (some value) (some key) h.length (some h) = some (0, some key) :=
  reproduce_exhausted kdf value key h hs hle hsum (by omega) hnone

/-- Witness of C19, amended: the reading `"A0B00CDDAABBCCDD"` on `demoEnrolled`
with the key buffer `demoKey`. -/
theorem feReproduce_fallthrough_witness :
    feReproduce demoKdf (some fingerprintBad) (some demoKey) demoEnrolled.length
      (some demoEnrolled) = some (0, some demoKey) :=
  feReproduce_fallthrough demoKdf fingerprintBad demoKey demoEnrolled (by decide) (by decide)
    (by decide) (by decide)
    (by
      intro j hj
      have hj01 : j = 0 ∨ j = 1 := by
        have : j < 2 := hj
        omega
      rcases hj01 with hj0 | hj1
      · subst hj0
        exact ⟨[41, 30, 203, 24, 125, 162, 143, 172, 145, 102, 83, 0, 165, 138, 247, 212, 98,
          110], by decide, by decide⟩
      · subst hj1
        exact ⟨[52, 17, 246, 27, 120, 165, 138, 175, 156, 121, 94, 3, 160, 141, 242, 215, 159,
          97], by decide, by decide⟩)

/-- C20 (the unlock test is an all-zero test).  For every plain buffer of
`cipherLen` bytes with `cipherLen - length <= 8421504`,
the loop of `feReproduce` that sums the bytes `plain[length .. cipherLen - 1]`
into an `int` ends with a sum that is 0 if and only if every one of those
trailing bytes is 0. -/
theorem sumTrailing_zero_iff_allZero (plain : Bytes) (length : Nat)
    (hbytes : ∀ b ∈ plain, b < 256) (hsec : plain.length - length ≤ 8421504) :
    ∃ sum, sumTrailing plain length (plain.length - length) 0 = some sum ∧
      (sum = 0 ↔ ∀ s, length ≤ s → s < plain.length → plain[s]? = some 0) := by
  by_cases hle : length ≤ plain.length
  swap
  · have h0 : plain.length - length = 0 := by omega
    rw [h0]
    exact ⟨0, rfl, by simp; intro s h1 h2; omega⟩
  obtain ⟨r, hr, hiff⟩ := sumTrailing_zero_iff plain length hbytes hle (by omega)
  refine ⟨r, hr, ?_⟩
  rw [hiff, trailingZero_iff]
  constructor
  · intro h s h1 h2
    have := h (s - length) (by omega)
    rw [← this]
    congr 1
    omega
  · intro h k hk
    exact h (length + k) (by omega) (by omega)

/-- Witness of C20: the candidate plain text of helper 0 for the reading
`"ABBBCCDDAABBCCDD"`, whose trailing bytes are 7 and 5. -/
theorem sumTrailing_zero_iff_allZero_witness :
    ∃ sum, sumTrailing
        [76, 117, 150, 183, 192, 9, 42, 75, 116, 157, 190, 223, 8, 49, 82, 115, 7, 5] 16
        ([76, 117, 150, 183, 192, 9, 42, 75, 116, 157, 190, 223, 8, 49, 82, 115, 7, 5].length
          - 16) 0 = some sum ∧
      (sum = 0 ↔ ∀ s, 16 ≤ s →
        s < [76, 117, 150, 183, 192, 9, 42, 75, 116, 157, 190, 223, 8, 49, 82, 115, 7,
          5].length →
        [76, 117, 150, 183, 192, 9, 42, 75, 116, 157, 190, 223, 8, 49, 82, 115, 7, 5][s]? =
          some 0) :=
  sumTrailing_zero_iff_allZero
    [76, 117, 150, 183, 192, 9, 42, 75, 116, 157, 190, 223, 8, 49, 82, 115, 7, 5] 16
    (by decide) (by decide)

/-- C22 (exact value of a reproduced key).  For helper data `h` produced by a
successful `feGenerate (value, p)` with key `k` (cipher rows at least as long as
the value, security margin too short for the `int` accumulator to wrap), every
reading and every helper `j` before which no helper unlocks, with
`D = KDF (salt[j], value AND mask[j])` and `D' = KDF (salt[j], reading AND mask[j])`:
helper `j` unlocks exactly when `D` and `D'` agree from byte `length` on; if it
unlocks, `feReproduce` returns 0 and its key output is `k` XOR the leading
`length` bytes of `D XOR D'`; that output is `k` exactly when `D` and `D'` agree
on their first `length` bytes; so digests that agree on the trailing bytes only
give the return code 0 with a key different from `k`. -/
theorem feReproduce_key_value (kdf : KDF) (tape : Tape) (pos : Nat)
    (value key reading key2 : Bytes) (h0 : HelperData) (p : FEProperties) (r : GenResult)
    (h : HelperData) (k : Bytes) (j : Nat) (salt mask : Bytes) (d d' : Nat → Nat)
    (hgen : feGenerate kdf tape pos (some value) (some key) p.length (some h0) (some p) = some r)
    (hret : r.ret = 0) (hkl : key.length = p.length) (hh : r.h = some h) (hk : r.key = some k)
    (hle : p.length ≤ p.cipherLen) (hsum : (p.cipherLen - p.length) * 255 < 2 ^ 31)
    (hrl : reading.length = p.length) (hk2 : key2.length = p.length)
    (hj : j < p.numHelpers) (hn : rowAt h.nonces j = some salt)
    (hm : rowAt h.masks j = some mask)
    (hd : kdf salt (andBytes value mask) p.cipherLen = some d)
    (hd' : kdf salt (andBytes reading mask) p.cipherLen = some d')
    (hbefore : ∀ i, i < j → ∃ pl, plainText kdf reading h i = some pl ∧
      ¬ TrailingZero pl p.length) :
    ∃ pl, plainText kdf reading h j = some pl ∧
      (TrailingZero pl p.length ↔
        (digestBytes d p.cipherLen).drop p.length = (digestBytes d' p.cipherLen).drop p.length) ∧
      (TrailingZero pl p.length →
        feReproduce kdf (some reading) (some key2) p.length (some h) =
          some (0, some (xorBytes k ((xorBytes (digestBytes d p.cipherLen)
            (digestBytes d' p.cipherLen)).take p.length)))) ∧
      (xorBytes k ((xorBytes (digestBytes d p.cipherLen)
          (digestBytes d' p.cipherLen)).take p.length) = k ↔
        (digestBytes d p.cipherLen).take p.length = (digestBytes d' p.cipherLen).take p.length) ∧
      ((digestBytes d p.cipherLen).drop p.length = (digestBytes d' p.cipherLen).drop p.length →
        (digestBytes d p.cipherLen).take p.length ≠ (digestBytes d' p.cipherLen).take p.length →
        ∃ k', feReproduce kdf (some reading) (some key2) p.length (some h) = some (0, some k') ∧
          k' ≠ k) := by
  obtain ⟨_, _, h', k0, hh', hk', hk0len, hk0b, hL, _, hC, hNum, hs, hrows⟩ :=
    feGenerate_success kdf tape pos value key p.length h0 p r hgen hret
  have hheq : h' = h := Option.some.inj (hh'.symm.trans hh)
  subst hheq
  have hkeq : k0 = k := by
    have hdrop : key.drop p.length = [] := List.drop_eq_nil_of_le (by omega)
    rw [hdrop, List.append_nil] at hk'
    exact Option.some.inj (hk'.symm.trans hk)
  subst hkeq
  obtain ⟨salt0, mask0, d0, hn0, hm0, _, _, hcl, hkd0, hc0⟩ := hrows j hj
  have hsalt : salt0 = salt := Option.some.inj (hn0.symm.trans hn)
  have hmask : mask0 = mask := Option.some.inj (hm0.symm.trans hm)
  subst hsalt hmask
  have hdeq : d0 = d := Option.some.inj (hkd0.symm.trans hd)
  subst hdeq
  have hp := plainText_generated kdf reading h' j salt0 mask0 d0 d' k0 p.secLen hn hm
    (by rw [hC]; exact hc0) (by rw [hC]; exact hd') hk0b
  rw [hC] at hp
  have htr := paddedXor_trailing k0 (digestBytes d0 p.cipherLen) (digestBytes d' p.cipherLen)
    p.secLen (digestBytes_lt _ _) (digestBytes_lt _ _)
    (by rw [digestBytes_length, digestBytes_length])
    (by rw [digestBytes_length]; omega)
  have hkey := paddedXor_key_iff k0 (digestBytes d0 p.cipherLen) (digestBytes d' p.cipherLen)
    hk0b (digestBytes_lt _ _) (digestBytes_lt _ _)
    (by rw [digestBytes_length]; omega) (by rw [digestBytes_length]; omega)
  rw [hk0len] at htr hkey
  have hrun : TrailingZero (xorBytes (k0 ++ List.replicate p.secLen 0)
      (xorBytes (digestBytes d0 p.cipherLen) (digestBytes d' p.cipherLen))) p.length →
      feReproduce kdf (some reading) (some key2) p.length (some h') =
        some (0, some (xorBytes k0 ((xorBytes (digestBytes d0 p.cipherLen)
          (digestBytes d' p.cipherLen)).take p.length))) := by
    intro hz
    have hrun := reproduce_firstUnlock kdf reading key2 h' j _ hs (by omega)
      (by rw [hC, hL]; exact hsum) (by omega) (by omega) (by omega)
      (by rw [hL]; exact hbefore) hp (by rw [hL]; exact hz)
    rw [hL] at hrun
    rw [hrun, ← hk0len, paddedXor_take]
  refine ⟨_, hp, htr, hrun, hkey, ?_⟩
  intro h1 h2
  exact ⟨_, hrun (htr.mpr h1), fun hc => h2 (hkey.mp hc)⟩

/-- Witness of C22: the reading `"ABBBCCDDAABBCCDD"` on the helper data enrolled
with `collidingKdf`, whose digests for the two values differ in the first 16
bytes only: helper 0 unlocks and `feReproduce` returns 0 with a key other than
`demoKey`. -/
theorem feReproduce_key_value_witness :
    ∃ k', feReproduce collidingKdf (some fingerprintGood) (some zeroKey)
        (demoProps (1 / 1000)).length (some collidingEnrolled) = some (0, some k') ∧
      k' ≠ demoKey :=
  (feReproduce_key_value collidingKdf demoTape 0 fingerprintOrig zeroKey fingerprintGood zeroKey
    emptyHelperData (demoProps (1 / 1000)) ⟨0, some demoKey, some collidingEnrolled, 80⟩
    collidingEnrolled demoKey 0
    [11, 48, 85, 122, 159, 196, 233, 14, 51, 88, 125, 162, 199, 236, 17, 54]
    [255, 255, 255, 255, 255, 255, 255, 255, 255, 255, 255, 255, 255, 255, 255, 255]
    (collidingDigest (andBytes fingerprintOrig
      [255, 255, 255, 255, 255, 255, 255, 255, 255, 255, 255, 255, 255, 255, 255, 255]))
    (collidingDigest (andBytes fingerprintGood
      [255, 255, 255, 255, 255, 255, 255, 255, 255, 255, 255, 255, 255, 255, 255, 255]))
    colliding_generate rfl (by decide) rfl rfl (by decide) (by decide) (by decide) (by decide)
    (by decide) (by decide) (by decide) rfl rfl
    (by
      intro i hi
      omega)).choose_spec.2.2.2.2 (by decide) (by decide)

/-- C23 (key buffer frame).  Whenever `feReproduce` returns, with code `c` and
the key buffer holding `k'`: a return code other than 0 leaves the buffer as it
was before the call; a null argument gives -1 and a length mismatch -2, both
with the buffer unchanged; helper data with `numHelpers = 0` leaves it unchanged;
and for well-shaped helper data (cipher rows at least as long as the value,
security margin too short for the `int` accumulator to wrap) the buffer is
unchanged unless `c = 0` and some helper `j` unlocks, in which case its leading
`length` bytes are those of the plain text of helper `j` and the rest is
unchanged.  So a KDF failure (-3) and the exhaustion of all helpers leave the
buffer unchanged. -/
theorem feReproduce_key_frame (kdf : KDF) (value key : Option Bytes) (len : Nat)
    (h : Option HelperData) (c : ℤ) (k' : Option Bytes)
    (hres : feReproduce kdf value key len h = some (c, k')) :
    (c ≠ 0 → k' = key) ∧
      (value = none ∨ key = none ∨ h = none → c = -1 ∧ k' = key) ∧
      (∀ v kb hd, value = some v → key = some kb → h = some hd → hd.length ≠ len →
        c = -2 ∧ k' = key) ∧
      (∀ v kb hd, value = some v → key = some kb → h = some hd → hd.numHelpers = 0 →
        k' = key) ∧
      (∀ v kb hd, value = some v → key = some kb → h = some hd → WellShaped hd →
        hd.length ≤ hd.cipherLen → (hd.cipherLen - hd.length) * 255 < 2 ^ 31 →
        hd.length ≤ v.length →
        k' = key ∨ (c = 0 ∧ ∃ j pl, j < hd.numHelpers ∧ plainText kdf v hd j = some pl ∧
          TrailingZero pl hd.length ∧
          k' = some (pl.take hd.length ++ kb.drop hd.length))) := by
  have hnull : value = none ∨ key = none ∨ h = none → c = -1 ∧ k' = key := by
    intro hn
    have hr : feReproduce kdf value key len h = some (-1, key) := by
      rcases hn with rfl | rfl | rfl
      · simp [feReproduce]
      · cases value <;> simp [feReproduce]
      · cases value <;> cases key <;> simp [feReproduce]
    rw [hr] at hres
    simp only [Option.some.injEq, Prod.mk.injEq] at hres
    exact ⟨hres.1.symm, hres.2.symm⟩
  have hmis : ∀ v kb hd, value = some v → key = some kb → h = some hd → hd.length ≠ len →
      c = -2 ∧ k' = key := by
    intro v kb hd hv hk hh hne
    subst hv hk hh
    simp only [feReproduce, hne, ne_eq, not_false_eq_true, if_true, Option.some.injEq,
      Prod.mk.injEq] at hres
    exact ⟨hres.1.symm, hres.2.symm⟩
  have hloop : ∀ v kb hd, value = some v → key = some kb → h = some hd → hd.length = len →
      ∃ k1, reproduceLoop kdf v kb hd 0 hd.numHelpers = some (c, k1) ∧ k' = some k1 := by
    intro v kb hd hv hk hh hl
    subst hv hk hh hl
    rw [feReproduce_some] at hres
    cases hr : reproduceLoop kdf v kb hd 0 hd.numHelpers with
    | none => simp [hr] at hres
    | some r =>
      simp only [hr, Option.some.injEq, Prod.mk.injEq] at hres
      exact ⟨r.2, by rw [← hres.1], hres.2.symm⟩
  refine ⟨?_, hnull, hmis, ?_, ?_⟩
  · intro hc
    cases hv : value with
    | none => exact (hnull (Or.inl hv)).2
    | some v =>
      cases hk : key with
      | none => rw [← hk]; exact (hnull (Or.inr (Or.inl hk))).2
      | some kb =>
        cases hh : h with
        | none => rw [← hk]; exact (hnull (Or.inr (Or.inr hh))).2
        | some hd =>
          rw [← hk]
          by_cases hl : hd.length = len
          · obtain ⟨k1, hr, hk1⟩ := hloop v kb hd hv hk hh hl
            rcases reproduceLoop_frame kdf v kb hd _ 0 c k1 hr with he | ⟨h0, _⟩
            · rw [hk1, he, hk]
            · exact absurd h0 hc
          · exact (hmis v kb hd hv hk hh hl).2
  · intro v kb hd hv hk hh hz
    by_cases hl : hd.length = len
    · obtain ⟨k1, hr, hk1⟩ := hloop v kb hd hv hk hh hl
      rw [hz] at hr
      simp only [reproduceLoop, Option.some.injEq, Prod.mk.injEq] at hr
      rw [hk1, hk, hr.2]
    · exact (hmis v kb hd hv hk hh hl).2
  · intro v kb hd hv hk hh hs hle hsum hvl
    by_cases hl : hd.length = len
    · obtain ⟨k1, hr, hk1⟩ := hloop v kb hd hv hk hh hl
      rcases reproduceLoop_unlocked kdf v kb hd hs hle hsum hvl _ 0 c k1 (by omega) hr with
        he | ⟨h0, j, pl, _, hj, hp, hz, hout⟩
      · exact Or.inl (by rw [hk1, he, hk])
      · exact Or.inr ⟨h0, j, pl, by omega, hp, hz, by rw [hk1, hout]⟩
    · exact Or.inl (hmis v kb hd hv hk hh hl).2

/-- Witness of C23: the key derivation that fails on the salt of helper 0 of
`smallEnrolled`, where `feReproduce` returns -3 and the key buffer `[1, 2, 3]`
is unchanged. -/
theorem feReproduce_key_frame_witness :
    feReproduce (failingKdf 11) (some [65, 66, 67]) (some [1, 2, 3]) 3 (some smallEnrolled) =
        some (-3, some [1, 2, 3]) ∧
      ((-3 : ℤ) ≠ 0 → some [1, 2, 3] = some [1, 2, 3]) :=
  ⟨by decide,
    (feReproduce_key_frame (failingKdf 11) (some [65, 66, 67]) (some [1, 2, 3]) 3
      (some smallEnrolled) (-3) (some [1, 2, 3]) (by decide)).1⟩

/-- C24 (index safety under the shape invariant).  For every well-shaped helper
data (`numHelpers` rows, masks of `length` bytes, salts of `nonceLen` bytes,
ciphers of `cipherLen` bytes), every value of `length` bytes and every key
buffer of at least `length` bytes: if `cipherLen >= length`, `feReproduce` makes
no access out of bounds, whatever the key derivation returns; and if
`cipherLen < length`, there is a helper and its key derivation succeeds, the
key copy reads `plain` beyond `cipherLen`. -/
theorem feReproduce_index_safety (kdf : KDF) (value key : Bytes) (h : HelperData)
    (hs : WellShaped h) (hv : value.length = h.length) (hkey : h.length ≤ key.length) :
    (h.length ≤ h.cipherLen →
        ∃ r, feReproduce kdf (some value) (some key) h.length (some h) = some r) ∧
      (h.cipherLen < h.length → 0 < h.numHelpers → plainText kdf value h 0 ≠ none →
        feReproduce kdf (some value) (some key) h.length (some h) = none) := by
  constructor
  · intro hle
    obtain ⟨r, hr⟩ := reproduceLoop_safe kdf value key h hs hle (by omega) hkey h.numHelpers 0
      (by omega)
    exact ⟨(r.1, some r.2), by rw [feReproduce_some, hr]⟩
  · intro hlt h0 hp
    obtain ⟨n, hn⟩ : ∃ n, h.numHelpers = n + 1 := ⟨h.numHelpers - 1, by omega⟩
    rw [feReproduce_some, hn, reproduceLoop_short kdf value key h n hs hlt (by omega) h0 hp]

/-- Witness of C24: the reading `"ABBBCCDDAABBCCDD"` on `demoEnrolled` is safe,
and the value `[65, 66, 67]` on `shortCipherData`, whose cipher rows have two
bytes, is not. -/
theorem feReproduce_index_safety_witness :
    (∃ r, feReproduce demoKdf (some fingerprintGood) (some zeroKey) demoEnrolled.length
        (some demoEnrolled) = some r) ∧
      feReproduce demoKdf (some [65, 66, 67]) (some [0, 0, 0]) shortCipherData.length
        (some shortCipherData) = none :=
  ⟨(feReproduce_index_safety demoKdf fingerprintGood zeroKey demoEnrolled (by decide)
      (by decide) (by decide)).1 (by decide),
    (feReproduce_index_safety demoKdf [65, 66, 67] [0, 0, 0] shortCipherData (by decide)
      (by decide) (by decide)).2 (by decide) (by decide) (by decide)⟩

end CFuzzyExtractor
